import Mathlib

/-!
Verification development for the dense/sparse serialization core of
`glsp-engine/src/compile.rs`: the `Recording` cache format, the dense
encoder/decoder (`DenseConverter` / `SparseConverter`), the chunk codec
(framing + compression policy), and the `Recording` façade.

Machine integers are modelled as `Nat` with explicit `% 2^32` at the source's
`as u32` cast sites.  Rust panics (`.unwrap()`, out-of-bounds indexing) are
modelled as an explicit `panicked` outcome, distinct from returned errors.
-/

namespace GlspCompile

/-- `x as u32` in the source: truncation modulo 2^32. -/
def u32cast (n : Nat) : Nat := n % 4294967296

/-- Modelled from the spec: `Sym` is an opaque interned-symbol handle
(defined in `engine.rs`, which is not part of the covered source). -/
abbrev Sym := Nat

/-- Modelled from the spec: `Instr` is an opaque instruction opcode payload
("the core never interprets instructions, only moves them as opaque payloads"). -/
abbrev Instr := Nat

/-- Modelled from the spec: `Val` is an opaque runtime value, moved verbatim
by the serializer (`start_regs` snapshots). -/
abbrev Val := Nat

/-- Modelled from the spec: `ParamMap` is an opaque parameter-shape descriptor. -/
abbrev ParamMap := Nat

/-- Modelled from the spec: a `Filename` is an opaque handle into the
process-wide filename interning table; here, its index in that table. -/
abbrev Filename := Nat

/-- Modelled from the spec: a `Span` is an opaque handle into the process-wide
span-storage table; here, its index in that table. -/
abbrev Span := Nat

/-- Modelled from the spec (design note "Pointer-identity deduplication"):
a `Gc<Stay>` cell identity is modelled as its stable arena index. -/
abbrev StayId := Nat

/-- Modelled from the spec: the stored form of a span, one of three variants
(`Loaded(filename, line)`, `Expanded(optional-symbol, parent-a, parent-b)`,
`Generated`). -/
inductive SpanStorage where
  | Loaded (filename : Filename) (line : Nat)
  | Expanded (sym : Option Sym) (parent0 parent1 : Span)
  | Generated
deriving DecidableEq, Repr

/-- Modelled from the spec: the process-wide state this core collaborates
with — the span-storage table, the filename interning table, and the
garbage-collected arena of `Stay` cells (a cell is its index into `stayVals`;
`none` models the `#n` / `Slot::Nil` value). -/
structure Env where
  spanTable : List SpanStorage
  filenameTable : List (List Nat)
  stayVals : List (Option Val)
deriving DecidableEq, Repr

/-- Modelled from the spec: `glsp::span_storage(span)` — look up the stored
form of a span handle. -/
def Env.lookupSpanStorage (e : Env) (s : Span) : SpanStorage :=
  (e.spanTable.get? s).getD SpanStorage.Generated

/-- Modelled from the spec: `glsp::filename_str(filename)` — the backing path
string (as bytes) of a filename handle. -/
def Env.filenameStr (e : Env) (f : Filename) : List Nat :=
  (e.filenameTable.get? f).getD []

/-- Modelled from the spec: `glsp::filename(st)` — register a path string into
the process-wide interning table ("append-only, idempotent-by-value
registries"): an already-present string yields its existing handle. -/
def Env.registerFilename (e : Env) (st : List Nat) : Filename × Env :=
  match e.filenameTable.findIdx? (fun x => decide (x = st)) with
  | some i => (i, e)
  | none => (e.filenameTable.length, { e with filenameTable := e.filenameTable ++ [st] })

/-- Modelled from the spec: `glsp::span(storage)` — register a span-storage
record into the process-wide table, idempotent by value. -/
def Env.registerSpan (e : Env) (ss : SpanStorage) : Span × Env :=
  match e.spanTable.findIdx? (fun x => decide (x = ss)) with
  | some i => (i, e)
  | none => (e.spanTable.length, { e with spanTable := e.spanTable ++ [ss] })

/-- Modelled from the spec: `glsp::alloc(Stay::new(Slot::Nil))` — allocate a
fresh, identity-distinct cell holding the nil value. -/
def Env.allocStay (e : Env) : StayId × Env :=
  (e.stayVals.length, { e with stayVals := e.stayVals ++ [none] })

/-- One entry of the span table is well formed: a `Loaded` filename is a live
handle, and an `Expanded` entry's parents strictly precede it (the spec's
invariant: "expansion edges pointing strictly backward in creation order"). -/
def spanEntryOK (fnLen : Nat) (i : Nat) (ss : SpanStorage) : Bool :=
  match ss with
  | SpanStorage.Loaded f _ => decide (f < fnLen)
  | SpanStorage.Expanded _ a b => decide (a < i) && decide (b < i)
  | SpanStorage.Generated => true

/-- Well-formedness of the process-wide tables (Bool, so witnesses can
evaluate it). -/
def Env.spanWFB (e : Env) : Bool :=
  (List.range e.spanTable.length).all
    (fun i => spanEntryOK e.filenameTable.length i (e.lookupSpanStorage i))

/-- The fully resolved, handle-free reading of a source location: a filename
string + line, an expansion chain, or no origin. -/
inductive ResolvedSpan where
  | Loaded (path : List Nat) (line : Nat)
  | Expanded (sym : Option Sym) (parent0 parent1 : ResolvedSpan)
  | Generated
deriving DecidableEq, Repr

/-- Resolve a span handle through the process-wide tables into its handle-free
reading.  The structural guard `a < s ∧ b < s` is exactly the table
well-formedness invariant; on a table satisfying `Env.spanWFB` the fallback
branch is never taken. -/
def Env.resolveSpan (e : Env) (s : Span) : ResolvedSpan :=
  match e.spanTable.get? s with
  | some (SpanStorage.Loaded f line) => ResolvedSpan.Loaded (e.filenameStr f) line
  | some (SpanStorage.Expanded sym a b) =>
      if h : a < s ∧ b < s then
        ResolvedSpan.Expanded sym (e.resolveSpan a) (e.resolveSpan b)
      else ResolvedSpan.Generated
  | some SpanStorage.Generated => ResolvedSpan.Generated
  | none => ResolvedSpan.Generated
termination_by s
decreasing_by
  · exact h.1
  · exact h.2

/-! ### The program object model (`code.rs` types, modelled from the spec) -/

/-- Modelled from the spec: a `StaySource` describes where a storage cell in a
compiled instruction sequence originates — no binding, a positional parameter
slot, a captured slot, or a reference to a pre-existing shared cell. -/
inductive StaySource where
  | Empty
  | Param (id : Nat)
  | Captured (id : Nat)
  | PreExisting (stay : StayId)
deriving DecidableEq, Repr

mutual
/-- Modelled from the spec: an instruction sequence — opcodes, one span per
instruction, initial register snapshot, stay sources, slot counts, nested
closures, defer offsets.  `u8` counts are `Nat`s bounded by validity. -/
inductive Bytecode where
  | mk (instrs : List Instr) (spans : List Span) (start_regs : List Val)
       (start_stays : List StaySource)
       (local_count scratch_count literal_count : Nat)
       (lambdas : List Lambda) (defers : List Nat)

/-- Modelled from the spec: a closure — an instruction sequence, a
parameter-shape descriptor, an optional name, captured-slot indices, and a
generator flag. -/
inductive Lambda where
  | mk (bytecode : Bytecode) (param_map : ParamMap) (name : Option Sym)
       (captures : List Nat) (yields : Bool)
end

/-- One replay action (`Action` in the source). -/
inductive Action where
  | Execute (bytecode : Bytecode)
  | ToplevelLet (stay : StayId)
  | StartLoad (filename : Filename)
  | EndLoad

/-- The `Recording` façade: a FIFO queue of actions (`VecDeque`, front = head). -/
structure Recording where
  actions : List Action

/-! ### Dense (serialized) forms -/

/-- `DenseSpan(u32)`: a dense index into the chunk's span-storage table. -/
abbrev DenseSpan := Nat

/-- `DenseFilename(u32)`: a dense index into the chunk's filename table. -/
abbrev DenseFilename := Nat

/-- `DenseStay(u32)`: a dense index below the chunk's `stay_count`. -/
abbrev DenseStay := Nat

/-- Dense form of a span-storage record. -/
inductive DenseSpanStorage where
  | Loaded (filename : DenseFilename) (line : Nat)
  | Expanded (sym : Option Sym) (parent0 parent1 : DenseSpan)
  | Generated
deriving DecidableEq, Repr

/-- Dense form of a stay source. -/
inductive DenseStaySource where
  | Empty
  | Param (id : Nat)
  | Captured (id : Nat)
  | PreExisting (stay : DenseStay)
deriving DecidableEq, Repr

mutual
/-- Dense form of a bytecode. -/
inductive DenseBytecode where
  | mk (instrs : List Instr) (spans : List DenseSpan) (start_regs : List Val)
       (start_stays : List DenseStaySource)
       (local_count scratch_count literal_count : Nat)
       (lambdas : List DenseLambda) (defers : List Nat)

/-- Dense form of a lambda. -/
inductive DenseLambda where
  | mk (bytecode : DenseBytecode) (param_map : ParamMap) (name : Option Sym)
       (captures : List Nat) (yields : Bool)
end

/-- Dense form of an action. -/
inductive DenseAction where
  | Execute (bytecode : DenseBytecode)
  | ToplevelLet (stay : DenseStay)
  | StartLoad (filename : DenseFilename)
  | EndLoad

/-- The wire-format aggregate (`Chunk` in the source). -/
structure Chunk where
  actions : List DenseAction
  span_storage : List DenseSpanStorage
  filename_storage : List (List Nat)
  stay_count : Nat

/-! ### The dense encoder (`DenseConverter` and the `from_*` functions) -/

/-- Association-list lookup, keys compared with `=` (models the source's
`FnvHashMap` lookups; insertion conses a fresh binding at the front and is
only performed when the key is absent). -/
def lookupA : List (Nat × Nat) → Nat → Option Nat
  | [], _ => none
  | (k, v) :: rest, x => if k = x then some v else lookupA rest x

/-- The encoder state: three memo maps plus the two growing tables
(`DenseConverter` in the source; `stay_map` is keyed by cell identity). -/
structure DenseConverter where
  span_map : List (Span × DenseSpan)
  span_storage : List DenseSpanStorage
  filename_map : List (Filename × DenseFilename)
  filename_storage : List (List Nat)
  stay_map : List (StayId × DenseStay)
deriving Repr

/-- The source's `DenseConverter::default()`. -/
def DenseConverter.init : DenseConverter := ⟨[], [], [], [], []⟩

/-- Left-to-right stateful map (models `iter().map(...)` with a `&mut`
converter threaded through). -/
def mapState (f : α → σ → β × σ) : List α → σ → List β × σ
  | [], s => ([], s)
  | x :: xs, s =>
    let p := f x s
    let q := mapState f xs p.2
    (p.1 :: q.1, q.2)

/-- `DenseFilename::from_filename`: memoized interning of a filename into the
chunk's filename table. -/
def fromFilename (env : Env) (f : Filename) (c : DenseConverter) :
    DenseFilename × DenseConverter :=
  match lookupA c.filename_map f with
  | some d => (d, c)
  | none =>
    let storage := c.filename_storage ++ [env.filenameStr f]
    let d := u32cast (storage.length - 1)
    (d, { c with filename_storage := storage, filename_map := (f, d) :: c.filename_map })

/-- `DenseStay::from_stay`: memoized by cell identity; a fresh cell gets the
next dense index (`stay_map.len()` before insertion, cast to `u32`). -/
def fromStay (s : StayId) (c : DenseConverter) : DenseStay × DenseConverter :=
  match lookupA c.stay_map s with
  | some d => (d, c)
  | none =>
    let d := u32cast c.stay_map.length
    (d, { c with stay_map := (s, d) :: c.stay_map })

/-- `DenseSpan::from_span` together with the span half of
`DenseSpanStorage::from_span_storage` (they are mutually recursive in the
source; here the span-storage conversion is inlined).  A new span first
flattens its storage record — recursively assigning indices to any unseen
parents — then appends it and records the new index.  The guard
`a < s ∧ b < s` restates the span-table invariant; on a table satisfying
`Env.spanWFB` the fallback branch is never taken.

The recursion descends to strictly smaller span handles, so it is phrased
structurally over a fuel bound (the handle itself suffices; see
`fromSpanGo_fuel` for fuel-irrelevance), keeping the function kernel-reducible. -/
def fromSpanGo (env : Env) : Nat → Span → DenseConverter →
    DenseSpan × DenseConverter
  | 0, _, c => (0, c)
  | fuel + 1, s, c =>
    match lookupA c.span_map s with
    | some d => (d, c)
    | none =>
      let p : DenseSpanStorage × DenseConverter :=
        match env.spanTable.get? s with
        | some (SpanStorage.Loaded f line) =>
          let q := fromFilename env f c
          (DenseSpanStorage.Loaded q.1 line, q.2)
        | some (SpanStorage.Expanded sym a b) =>
          if a < s ∧ b < s then
            let q0 := fromSpanGo env fuel a c
            let q1 := fromSpanGo env fuel b q0.2
            (DenseSpanStorage.Expanded sym q0.1 q1.1, q1.2)
          else (DenseSpanStorage.Generated, c)
        | some SpanStorage.Generated => (DenseSpanStorage.Generated, c)
        | none => (DenseSpanStorage.Generated, c)
      let storage := p.2.span_storage ++ [p.1]
      let d := u32cast (storage.length - 1)
      (d, { p.2 with span_storage := storage, span_map := (s, d) :: p.2.span_map })

/-- `DenseSpan::from_span`: the fuel `s + 1` always suffices because an
`Expanded` span's parents are strictly smaller handles. -/
def fromSpan (env : Env) (s : Span) (c : DenseConverter) :
    DenseSpan × DenseConverter :=
  fromSpanGo env (s + 1) s c

/-- `DenseStaySource::from_stay_source`. -/
def fromStaySource (stay_source : StaySource) (c : DenseConverter) :
    DenseStaySource × DenseConverter :=
  match stay_source with
  | StaySource.Empty => (DenseStaySource.Empty, c)
  | StaySource.Param id => (DenseStaySource.Param id, c)
  | StaySource.Captured id => (DenseStaySource.Captured id, c)
  | StaySource.PreExisting s =>
    let p := fromStay s c
    (DenseStaySource.PreExisting p.1, p.2)

mutual
/-- `DenseBytecode::from_bytecode`: convert every reference, threading the
converter left to right in field order. -/
def fromBytecode (env : Env) (b : Bytecode) (c : DenseConverter) :
    DenseBytecode × DenseConverter :=
  match b with
  | Bytecode.mk instrs spans start_regs start_stays lc sc litc lambdas defers =>
    let ps := mapState (fromSpan env) spans c
    let pt := mapState fromStaySource start_stays ps.2
    let pl := fromLambdaList env lambdas pt.2
    (DenseBytecode.mk instrs ps.1 start_regs pt.1 lc sc litc pl.1 defers, pl.2)

/-- Conversion of a bytecode's nested-lambda list, left to right. -/
def fromLambdaList (env : Env) (ls : List Lambda) (c : DenseConverter) :
    List DenseLambda × DenseConverter :=
  match ls with
  | [] => ([], c)
  | l :: rest =>
    let p := fromLambda env l c
    let q := fromLambdaList env rest p.2
    (p.1 :: q.1, q.2)

/-- `DenseLambda::from_lambda`. -/
def fromLambda (env : Env) (l : Lambda) (c : DenseConverter) :
    DenseLambda × DenseConverter :=
  match l with
  | Lambda.mk bytecode param_map name captures yields =>
    let p := fromBytecode env bytecode c
    (DenseLambda.mk p.1 param_map name captures yields, p.2)
end

/-- `DenseAction::from_action`. -/
def fromAction (env : Env) (a : Action) (c : DenseConverter) :
    DenseAction × DenseConverter :=
  match a with
  | Action.Execute bytecode =>
    let p := fromBytecode env bytecode c
    (DenseAction.Execute p.1, p.2)
  | Action.ToplevelLet stay =>
    let p := fromStay stay c
    (DenseAction.ToplevelLet p.1, p.2)
  | Action.StartLoad filename =>
    let p := fromFilename env filename c
    (DenseAction.StartLoad p.1, p.2)
  | Action.EndLoad => (DenseAction.EndLoad, c)

/-- The chunk-building half of `Recording::into_bytes`: run the encoder over
all actions and assemble the `Chunk` literal. -/
def encodeChunk (env : Env) (r : Recording) : Chunk :=
  let p := mapState (fromAction env) r.actions DenseConverter.init
  { actions := p.1
    span_storage := p.2.span_storage
    filename_storage := p.2.filename_storage
    stay_count := p.2.stay_map.length }

/-- The encoder state after converting all of `r`'s actions. -/
def finalConv (env : Env) (r : Recording) : DenseConverter :=
  (mapState (fromAction env) r.actions DenseConverter.init).2

/-! ### The dense decoder (`SparseConverter` and the `to_*`/`into_*` functions)

Rust's out-of-bounds indexing (`conv.spans[i]` etc.) panics; the decoder
functions therefore return `Option`, with `none` marking a panic. -/

/-- The decoder state: direct index→handle / index→cell arrays
(`SparseConverter` in the source). -/
structure SparseConverter where
  spans : List Span
  filenames : List Filename
  stays : List StayId
deriving Repr

/-- `DenseSpan::to_span`: `conv.spans[i]`, panicking (`none`) out of bounds. -/
def toSpan (c : SparseConverter) (d : DenseSpan) : Option Span :=
  c.spans.get? d

/-- `DenseFilename::to_filename`: `conv.filenames[i]`. -/
def toFilename (c : SparseConverter) (d : DenseFilename) : Option Filename :=
  c.filenames.get? d

/-- `DenseStay::to_stay`: `conv.stays[i].clone()`. -/
def toStay (c : SparseConverter) (d : DenseStay) : Option StayId :=
  c.stays.get? d

/-- `DenseSpanStorage::to_span_storage`. -/
def toSpanStorage (c : SparseConverter) (ds : DenseSpanStorage) : Option SpanStorage :=
  match ds with
  | DenseSpanStorage.Loaded df line =>
    (toFilename c df).map (fun f => SpanStorage.Loaded f line)
  | DenseSpanStorage.Expanded sym da db =>
    (toSpan c da).bind (fun a => (toSpan c db).map (fun b => SpanStorage.Expanded sym a b))
  | DenseSpanStorage.Generated => some SpanStorage.Generated

/-- The span-table loop of `SparseConverter::new`: walk the chunk's
span-storage table in index order, resolving each entry against the spans
registered so far and registering the result into the process-wide table. -/
def buildSpans (filenames : List Filename) (stays : List StayId) :
    List DenseSpanStorage → List Span → Env → Option (List Span × Env)
  | [], spans, e => some (spans, e)
  | ds :: rest, spans, e =>
    match toSpanStorage ⟨spans, filenames, stays⟩ ds with
    | none => none
    | some ss =>
      let p := e.registerSpan ss
      buildSpans filenames stays rest (spans ++ [p.1]) p.2

/-- `SparseConverter::new`: register every filename string, allocate
`stay_count` fresh nil cells, then run the span-table loop. -/
def SparseConverter.new (e : Env) (chunk : Chunk) :
    Option (SparseConverter × Env) :=
  let pf := mapState (fun st en => Env.registerFilename en st) chunk.filename_storage e
  let pst := mapState (fun _ en => Env.allocStay en) (List.replicate chunk.stay_count ()) pf.2
  match buildSpans pf.1 pst.1 chunk.span_storage [] pst.2 with
  | none => none
  | some q => some (⟨q.1, pf.1, pst.1⟩, q.2)

/-- `DenseStaySource::to_stay_source`. -/
def toStaySource (c : SparseConverter) (ds : DenseStaySource) : Option StaySource :=
  match ds with
  | DenseStaySource.Empty => some StaySource.Empty
  | DenseStaySource.Param id => some (StaySource.Param id)
  | DenseStaySource.Captured id => some (StaySource.Captured id)
  | DenseStaySource.PreExisting d => (toStay c d).map StaySource.PreExisting

/-- Sequence a list of fallible conversions (a panic anywhere propagates). -/
def seqOption : List (Option α) → Option (List α)
  | [] => some []
  | x :: xs => x.bind (fun a => (seqOption xs).map (fun rest => a :: rest))

mutual
/-- `DenseBytecode::into_bytecode`.  Heap allocation of the resulting
`Bytecode` is pure here: no claim depends on bytecode identity, only on
`Stay` identity, which `toStay` preserves. -/
def intoBytecode (c : SparseConverter) (db : DenseBytecode) : Option Bytecode :=
  match db with
  | DenseBytecode.mk instrs spans start_regs start_stays lc sc litc lambdas defers =>
    (seqOption (spans.map (toSpan c))).bind (fun spans2 =>
      (seqOption (start_stays.map (toStaySource c))).bind (fun stays2 =>
        (intoLambdaList c lambdas).map (fun lambdas2 =>
          Bytecode.mk instrs spans2 start_regs stays2 lc sc litc lambdas2 defers)))

/-- Conversion of the nested-lambda list. -/
def intoLambdaList (c : SparseConverter) (ls : List DenseLambda) : Option (List Lambda) :=
  match ls with
  | [] => some []
  | l :: rest =>
    (intoLambda c l).bind (fun l2 =>
      (intoLambdaList c rest).map (fun rest2 => l2 :: rest2))

/-- `DenseLambda::into_lambda`. -/
def intoLambda (c : SparseConverter) (dl : DenseLambda) : Option Lambda :=
  match dl with
  | DenseLambda.mk bytecode param_map name captures yields =>
    (intoBytecode c bytecode).map (fun b => Lambda.mk b param_map name captures yields)
end

/-- `DenseAction::into_action`. -/
def intoAction (c : SparseConverter) (da : DenseAction) : Option Action :=
  match da with
  | DenseAction.Execute db => (intoBytecode c db).map Action.Execute
  | DenseAction.ToplevelLet d => (toStay c d).map Action.ToplevelLet
  | DenseAction.StartLoad d => (toFilename c d).map Action.StartLoad
  | DenseAction.EndLoad => some Action.EndLoad

/-- The chunk-consuming half of `Recording::from_bytes`: build the sparse
converter, then rewrite every action. -/
def decodeChunk (e : Env) (chunk : Chunk) : Option (Recording × Env) :=
  match SparseConverter.new e chunk with
  | none => none
  | some (conv, e2) =>
    (seqOption (chunk.actions.map (intoAction conv))).map (fun actions => (⟨actions⟩, e2))

/-- Resolve a dense span index through the chunk's own tables into its
handle-free reading (the dense mirror of `Env.resolveSpan`; same guard). -/
def resolveD (fns : List (List Nat)) (tbl : List DenseSpanStorage) (i : Nat) :
    ResolvedSpan :=
  match tbl.get? i with
  | some (DenseSpanStorage.Loaded f line) => ResolvedSpan.Loaded ((fns.get? f).getD []) line
  | some (DenseSpanStorage.Expanded sym a b) =>
    if h : a < i ∧ b < i then
      ResolvedSpan.Expanded sym (resolveD fns tbl a) (resolveD fns tbl b)
    else ResolvedSpan.Generated
  | some DenseSpanStorage.Generated => ResolvedSpan.Generated
  | none => ResolvedSpan.Generated
termination_by i
decreasing_by
  · exact h.1
  · exact h.2

/-! ### Binary encoding of the chunk

Modelled from the spec: the source delegates to the external `bincode` crate,
described only as "a compact, self-describing tagged-variant + length-prefixed
scheme".  The scheme here is exactly that: one-byte variant tags, 8-byte
little-endian lengths and integer fields, 4-byte little-endian dense (`u32`)
indices. -/

/-- `w`-byte little-endian encoding of `n` (truncates at `2^(8w)`, like the
source's `as u64` writes). -/
def natLE : Nat → Nat → List Nat
  | 0, _ => []
  | w + 1, n => n % 256 :: natLE w (n / 256)

/-- Little-endian value of a byte list (`u64::from_le_bytes` on 8 bytes). -/
def leVal : List Nat → Nat
  | [] => 0
  | b :: bs => b + 256 * leVal bs

/-- Parse a `w`-byte little-endian integer. -/
def parseLE : Nat → List Nat → Option (Nat × List Nat)
  | 0, bs => some (0, bs)
  | _ + 1, [] => none
  | w + 1, b :: bs => (parseLE w bs).map (fun p => (b + 256 * p.1, p.2))

def serList (f : α → List Nat) (xs : List α) : List Nat :=
  natLE 8 xs.length ++ (xs.map f).flatten

def serStr (s : List Nat) : List Nat :=
  natLE 8 s.length ++ s

def serOpt (f : α → List Nat) : Option α → List Nat
  | none => [0]
  | some x => 1 :: f x

def serBool : Bool → List Nat
  | false => [0]
  | true => [1]

def serSpanStorage : DenseSpanStorage → List Nat
  | DenseSpanStorage.Loaded f line => 0 :: (natLE 4 f ++ natLE 8 line)
  | DenseSpanStorage.Expanded sym a b =>
    1 :: (serOpt (natLE 8) sym ++ natLE 4 a ++ natLE 4 b)
  | DenseSpanStorage.Generated => [2]

def serStaySource : DenseStaySource → List Nat
  | DenseStaySource.Empty => [0]
  | DenseStaySource.Param id => 1 :: natLE 1 id
  | DenseStaySource.Captured id => 2 :: natLE 1 id
  | DenseStaySource.PreExisting s => 3 :: natLE 4 s

mutual
def serBytecode : DenseBytecode → List Nat
  | DenseBytecode.mk instrs spans start_regs start_stays lc sc litc lambdas defers =>
    serList (natLE 8) instrs ++ serList (natLE 4) spans ++
    serList (natLE 8) start_regs ++ serList serStaySource start_stays ++
    natLE 1 lc ++ natLE 1 sc ++ natLE 1 litc ++
    (natLE 8 lambdas.length ++ serLambdaList lambdas) ++ serList (natLE 8) defers

def serLambdaList : List DenseLambda → List Nat
  | [] => []
  | l :: rest => serLambda l ++ serLambdaList rest

def serLambda : DenseLambda → List Nat
  | DenseLambda.mk bytecode param_map name captures yields =>
    serBytecode bytecode ++ natLE 8 param_map ++ serOpt (natLE 8) name ++
    serList (natLE 1) captures ++ serBool yields
end

def serAction : DenseAction → List Nat
  | DenseAction.Execute db => 0 :: serBytecode db
  | DenseAction.ToplevelLet s => 1 :: natLE 4 s
  | DenseAction.StartLoad f => 2 :: natLE 4 f
  | DenseAction.EndLoad => [3]

def serChunk (c : Chunk) : List Nat :=
  serList serAction c.actions ++ serList serSpanStorage c.span_storage ++
  serList serStr c.filename_storage ++ natLE 8 c.stay_count

/-- Parse `n` consecutive items. -/
def parseCount (p : List Nat → Option (α × List Nat)) :
    Nat → List Nat → Option (List α × List Nat)
  | 0, bs => some ([], bs)
  | n + 1, bs =>
    (p bs).bind (fun q => (parseCount p n q.2).map (fun r => (q.1 :: r.1, r.2)))

/-- Parse a length-prefixed list. -/
def parseListOf (p : List Nat → Option (α × List Nat)) (bs : List Nat) :
    Option (List α × List Nat) :=
  (parseLE 8 bs).bind (fun q => parseCount p q.1 q.2)

def parseStr (bs : List Nat) : Option (List Nat × List Nat) :=
  (parseLE 8 bs).bind (fun q =>
    if q.1 ≤ q.2.length then some (q.2.take q.1, q.2.drop q.1) else none)

def parseOptNat8 (bs : List Nat) : Option (Option Nat × List Nat) :=
  match bs with
  | 0 :: rest => some (none, rest)
  | 1 :: rest => (parseLE 8 rest).map (fun q => (some q.1, q.2))
  | _ => none

def parseBool (bs : List Nat) : Option (Bool × List Nat) :=
  match bs with
  | 0 :: rest => some (false, rest)
  | 1 :: rest => some (true, rest)
  | _ => none

def parseSpanStorage (bs : List Nat) : Option (DenseSpanStorage × List Nat) :=
  match bs with
  | 0 :: rest =>
    (parseLE 4 rest).bind (fun q =>
      (parseLE 8 q.2).map (fun r => (DenseSpanStorage.Loaded q.1 r.1, r.2)))
  | 1 :: rest =>
    (parseOptNat8 rest).bind (fun q =>
      (parseLE 4 q.2).bind (fun r =>
        (parseLE 4 r.2).map (fun t => (DenseSpanStorage.Expanded q.1 r.1 t.1, t.2))))
  | 2 :: rest => some (DenseSpanStorage.Generated, rest)
  | _ => none

def parseStaySource (bs : List Nat) : Option (DenseStaySource × List Nat) :=
  match bs with
  | 0 :: rest => some (DenseStaySource.Empty, rest)
  | 1 :: rest => (parseLE 1 rest).map (fun q => (DenseStaySource.Param q.1, q.2))
  | 2 :: rest => (parseLE 1 rest).map (fun q => (DenseStaySource.Captured q.1, q.2))
  | 3 :: rest => (parseLE 4 rest).map (fun q => (DenseStaySource.PreExisting q.1, q.2))
  | _ => none

mutual
/-- Parse a dense bytecode; `fuel` bounds the closure-nesting depth. -/
def parseBytecode : Nat → List Nat → Option (DenseBytecode × List Nat)
  | 0, _ => none
  | fuel + 1, bs =>
    (parseListOf (parseLE 8) bs).bind (fun p1 =>
    (parseListOf (parseLE 4) p1.2).bind (fun p2 =>
    (parseListOf (parseLE 8) p2.2).bind (fun p3 =>
    (parseListOf parseStaySource p3.2).bind (fun p4 =>
    (parseLE 1 p4.2).bind (fun p5 =>
    (parseLE 1 p5.2).bind (fun p6 =>
    (parseLE 1 p6.2).bind (fun p7 =>
    (parseLE 8 p7.2).bind (fun pn =>
    (parseLambdaCount fuel pn.1 pn.2).bind (fun p8 =>
    (parseListOf (parseLE 8) p8.2).map (fun p9 =>
      (DenseBytecode.mk p1.1 p2.1 p3.1 p4.1 p5.1 p6.1 p7.1 p8.1 p9.1, p9.2)))))))))))
termination_by fuel _ => (fuel, 0)

/-- Parse `count` dense lambdas (each: bytecode, param map, name, captures,
yields flag). -/
def parseLambdaCount : Nat → Nat → List Nat → Option (List DenseLambda × List Nat)
  | _, 0, bs => some ([], bs)
  | fuel, n + 1, bs =>
    (parseBytecode fuel bs).bind (fun q1 =>
    (parseLE 8 q1.2).bind (fun q2 =>
    (parseOptNat8 q2.2).bind (fun q3 =>
    (parseListOf (parseLE 1) q3.2).bind (fun q4 =>
    (parseBool q4.2).bind (fun q5 =>
    (parseLambdaCount fuel n q5.2).map (fun rest =>
      (DenseLambda.mk q1.1 q2.1 q3.1 q4.1 q5.1 :: rest.1, rest.2)))))))
termination_by fuel n _ => (fuel, n + 1)
end

def parseAction (fuel : Nat) (bs : List Nat) : Option (DenseAction × List Nat) :=
  match bs with
  | 0 :: rest => (parseBytecode fuel rest).map (fun q => (DenseAction.Execute q.1, q.2))
  | 1 :: rest => (parseLE 4 rest).map (fun q => (DenseAction.ToplevelLet q.1, q.2))
  | 2 :: rest => (parseLE 4 rest).map (fun q => (DenseAction.StartLoad q.1, q.2))
  | 3 :: rest => some (DenseAction.EndLoad, rest)
  | _ => none

/-- `bincode::deserialize`: parse a chunk from the front of the byte stream
(as in the source's slice-based deserialization, trailing bytes are not an
error). -/
def parseChunk (bs : List Nat) : Option Chunk :=
  (parseListOf (parseAction bs.length) bs).bind (fun p1 =>
  (parseListOf parseSpanStorage p1.2).bind (fun p2 =>
  (parseListOf parseStr p2.2).bind (fun p3 =>
  (parseLE 8 p3.2).map (fun p4 =>
    { actions := p1.1, span_storage := p2.1
      filename_storage := p3.1, stay_count := p4.1 }))))

/-! ### Framing, compression policy, `into_bytes` / `from_bytes` -/

/-- The source's `DEFLATE_LIMIT`: payloads below 8 KiB are stored raw. -/
def DEFLATE_LIMIT : Nat := 8 * 1024

/-- Modelled from the spec: the compression codec is an external collaborator
("compression codec internals (generic deflate) — used as a pluggable
byte-stream transform").  `inflateFn` returning `none` is the codec reporting
a corrupt stream. -/
structure Codec where
  deflateFn : List Nat → List Nat
  inflateFn : List Nat → Option (List Nat)

/-- A codec is lossless when decoding inverts encoding. -/
def Codec.Lossless (cdc : Codec) : Prop :=
  ∀ bs, cdc.inflateFn (cdc.deflateFn bs) = some bs

/-- Modelled from the spec: a concrete stand-in for the deflate transform —
lossless, and its decoder rejects streams it did not produce (a trailing
check byte models deflate's corruption detection). -/
def chkByte (bs : List Nat) : Nat := bs.foldl (fun a b => (a + b) % 256) 1

def deflateModel (bs : List Nat) : List Nat := bs ++ [chkByte bs]

def inflateModel (bs : List Nat) : Option (List Nat) :=
  match bs.getLast? with
  | none => none
  | some c => if c = chkByte bs.dropLast then some bs.dropLast else none

def checksumCodec : Codec := ⟨deflateModel, inflateModel⟩

/-- `Recording::into_bytes`: encode the chunk, write the 8-byte little-endian
uncompressed length, then the payload — raw below `DEFLATE_LIMIT`, compressed
at or above it. -/
def Recording.into_bytes (cdc : Codec) (env : Env) (r : Recording) : List Nat :=
  let raw := serChunk (encodeChunk env r)
  natLE 8 raw.length ++ (if raw.length < DEFLATE_LIMIT then raw else cdc.deflateFn raw)

/-- Error values of `Recording::from_bytes`: the bare `ensure!` length check,
and the deserialization error (built with `.with_source(e)`, so the underlying
codec error is attached as context — recorded by the `withSource` flag). -/
inductive DecodeErr where
  | tooShort
  | badChunk (withSource : Bool)
deriving DecidableEq, Repr

/-- Outcome of a fallible Rust call: returned value, returned error, or panic
(`.unwrap()` on `Err`, out-of-bounds indexing). -/
inductive DecodeOutcome (α : Type) where
  | ok (a : α)
  | err (e : DecodeErr)
  | panicked

/-- The framing half of `Recording::from_bytes`: check the 8-byte header,
read the claimed uncompressed length, and either pass the payload through raw
or run the decompressor — whose failure the source `.unwrap()`s (a panic). -/
def framePayload (cdc : Codec) (bytes : List Nat) : DecodeOutcome (List Nat) :=
  if 8 ≤ bytes.length then
    let declen := leVal (bytes.take 8)
    if declen < DEFLATE_LIMIT then DecodeOutcome.ok (bytes.drop 8)
    else
      match cdc.inflateFn (bytes.drop 8) with
      | some d => DecodeOutcome.ok d
      | none => DecodeOutcome.panicked
  else DecodeOutcome.err DecodeErr.tooShort

/-- `Recording::from_bytes`: framing + decompression, structural decode, then
the dense→sparse rewrite (whose out-of-bounds indexing panics). -/
def Recording.from_bytes (cdc : Codec) (env : Env) (bytes : List Nat) :
    DecodeOutcome (Recording × Env) :=
  match framePayload cdc bytes with
  | DecodeOutcome.err e => DecodeOutcome.err e
  | DecodeOutcome.panicked => DecodeOutcome.panicked
  | DecodeOutcome.ok payload =>
    match parseChunk payload with
    | none => DecodeOutcome.err (DecodeErr.badChunk true)
    | some chunk =>
      match decodeChunk env chunk with
      | none => DecodeOutcome.panicked
      | some (r, e2) => DecodeOutcome.ok (r, e2)

/-! ### The `Recording` façade -/

/-- The façade's only error condition ("unexpected end of compiled actions"). -/
inductive GError where
  | endOfActions
deriving DecidableEq, Repr

def Recording.new : Recording := ⟨[]⟩

def Recording.is_empty (r : Recording) : Bool := r.actions.isEmpty

/-- `Recording::peek`: front action without consuming it. -/
def Recording.peek (r : Recording) : Except GError Action :=
  match r.actions with
  | a :: _ => Except.ok a
  | [] => Except.error GError.endOfActions

/-- `Recording::pop`: consume and return the front action (the updated queue
is returned alongside, modelling `&mut self`). -/
def Recording.pop (r : Recording) : Except GError (Action × Recording) :=
  match r.actions with
  | a :: rest => Except.ok (a, ⟨rest⟩)
  | [] => Except.error GError.endOfActions

/-- `Recording::add_action`: append at the back. -/
def Recording.add_action (r : Recording) (a : Action) : Recording :=
  ⟨r.actions ++ [a]⟩

/-- Repeatedly `pop` until the end-of-actions error. -/
def Recording.drainAll (r : Recording) : List Action :=
  match h : r.pop with
  | Except.ok p => p.1 :: p.2.drainAll
  | Except.error _ => []
termination_by r.actions.length
decreasing_by
  cases r with
  | mk acts =>
    cases acts with
    | nil => simp [Recording.pop] at h
    | cons a rest =>
      simp [Recording.pop] at h
      rw [← h]
      simp

/-! ### Validity of the live object graph

A "valid object graph" holds only live handles: spans, filenames, and stays
that exist in the process-wide tables. -/

def staySourceValidB (e : Env) : StaySource → Bool
  | StaySource.PreExisting s => decide (s < e.stayVals.length)
  | _ => true

mutual
def bcValidB (e : Env) : Bytecode → Bool
  | Bytecode.mk _ spans _ start_stays _ _ _ lambdas _ =>
    spans.all (fun s => decide (s < e.spanTable.length)) &&
    start_stays.all (staySourceValidB e) && lamsValidB e lambdas

def lamsValidB (e : Env) : List Lambda → Bool
  | [] => true
  | l :: rest => lamValidB e l && lamsValidB e rest

def lamValidB (e : Env) : Lambda → Bool
  | Lambda.mk bytecode _ _ _ _ => bcValidB e bytecode
end

def actionValidB (e : Env) : Action → Bool
  | Action.Execute b => bcValidB e b
  | Action.ToplevelLet s => decide (s < e.stayVals.length)
  | Action.StartLoad f => decide (f < e.filenameTable.length)
  | Action.EndLoad => true

def Recording.validB (e : Env) (r : Recording) : Bool :=
  r.actions.all (actionValidB e)

/-! ### Validity of a chunk for serialization

Numeric fields must fit the machine widths the binary scheme stores them at
(`u64` lengths/integers, `u32` dense indices, `u8` counts); in the Rust
source these bounds hold by the types' construction.  The three `≤ 2^32`
table bounds record that dense indices are `u32`s, so the `as u32` casts in
the encoder must not have truncated. -/

def n64 : Nat := 18446744073709551616

def n32 : Nat := 4294967296

def dSSValidB : DenseStaySource → Bool
  | DenseStaySource.Empty => true
  | DenseStaySource.Param id => decide (id < 256)
  | DenseStaySource.Captured id => decide (id < 256)
  | DenseStaySource.PreExisting s => decide (s < n32)

def dSpanStorageValidB : DenseSpanStorage → Bool
  | DenseSpanStorage.Loaded f line => decide (f < n32) && decide (line < n64)
  | DenseSpanStorage.Expanded sym a b =>
    (match sym with | none => true | some s => decide (s < n64)) &&
    decide (a < n32) && decide (b < n32)
  | DenseSpanStorage.Generated => true

mutual
def dbcValidB : DenseBytecode → Bool
  | DenseBytecode.mk instrs spans start_regs start_stays lc sc litc lambdas defers =>
    decide (instrs.length < n64) && instrs.all (fun i => decide (i < n64)) &&
    decide (spans.length < n64) && spans.all (fun s => decide (s < n32)) &&
    decide (start_regs.length < n64) && start_regs.all (fun v => decide (v < n64)) &&
    decide (start_stays.length < n64) && start_stays.all dSSValidB &&
    decide (lc < 256) && decide (sc < 256) && decide (litc < 256) &&
    decide (lambdas.length < n64) && dlamsValidB lambdas &&
    decide (defers.length < n64) && defers.all (fun d => decide (d < n64))

def dlamsValidB : List DenseLambda → Bool
  | [] => true
  | l :: rest => dlamValidB l && dlamsValidB rest

def dlamValidB : DenseLambda → Bool
  | DenseLambda.mk bytecode param_map name captures yields =>
    dbcValidB bytecode && decide (param_map < n64) &&
    (match name with | none => true | some s => decide (s < n64)) &&
    decide (captures.length < n64) && captures.all (fun c => decide (c < 256)) &&
    (yields || true)
end

def dActionValidB : DenseAction → Bool
  | DenseAction.Execute db => dbcValidB db
  | DenseAction.ToplevelLet s => decide (s < n32)
  | DenseAction.StartLoad f => decide (f < n32)
  | DenseAction.EndLoad => true

def Chunk.validB (c : Chunk) : Bool :=
  decide (c.actions.length < n64) && c.actions.all dActionValidB &&
  decide (c.span_storage.length < n64) && c.span_storage.all dSpanStorageValidB &&
  decide (c.filename_storage.length < n64) &&
  c.filename_storage.all (fun s => decide (s.length < n64)) &&
  decide (c.stay_count < n64) &&
  decide (c.span_storage.length ≤ n32) && decide (c.filename_storage.length ≤ n32) &&
  decide (c.stay_count ≤ n32)

/-! ### Structural equality of recordings across two table states

The round-trip claim compares action sequences up to handle renaming: same
opcodes and metadata, source locations resolving to equal filename/line or
expansion chains, and stay-source shapes preserved (stay identity itself is
the separate identity-preservation claim). -/

/-- Same stay-source metadata: identical except that two `PreExisting` cells
match regardless of which cell they name. -/
def beqStayMeta : StaySource → StaySource → Bool
  | StaySource.Empty, StaySource.Empty => true
  | StaySource.Param i, StaySource.Param j => decide (i = j)
  | StaySource.Captured i, StaySource.Captured j => decide (i = j)
  | StaySource.PreExisting _, StaySource.PreExisting _ => true
  | _, _ => false

mutual
def beqBytecode (eA eB : Env) : Bytecode → Bytecode → Bool
  | Bytecode.mk instrs spans regs stays lc sc litc lambdas defers,
    Bytecode.mk instrs2 spans2 regs2 stays2 lc2 sc2 litc2 lambdas2 defers2 =>
    decide (instrs = instrs2) &&
    decide (spans.map eA.resolveSpan = spans2.map eB.resolveSpan) &&
    decide (regs = regs2) &&
    decide (stays.length = stays2.length) &&
    (stays.zip stays2).all (fun p => beqStayMeta p.1 p.2) &&
    decide (lc = lc2) && decide (sc = sc2) && decide (litc = litc2) &&
    beqLambdaList eA eB lambdas lambdas2 &&
    decide (defers = defers2)

def beqLambdaList (eA eB : Env) : List Lambda → List Lambda → Bool
  | [], [] => true
  | l :: rest, l2 :: rest2 => beqLambda eA eB l l2 && beqLambdaList eA eB rest rest2
  | _, _ => false

def beqLambda (eA eB : Env) : Lambda → Lambda → Bool
  | Lambda.mk bytecode pm name captures yields,
    Lambda.mk bytecode2 pm2 name2 captures2 yields2 =>
    beqBytecode eA eB bytecode bytecode2 && decide (pm = pm2) &&
    decide (name = name2) && decide (captures = captures2) &&
    decide (yields = yields2)
end

def beqAction (eA eB : Env) : Action → Action → Bool
  | Action.Execute b, Action.Execute b2 => beqBytecode eA eB b b2
  | Action.ToplevelLet _, Action.ToplevelLet _ => true
  | Action.StartLoad f, Action.StartLoad f2 => decide (eA.filenameStr f = eB.filenameStr f2)
  | Action.EndLoad, Action.EndLoad => true
  | _, _ => false

def beqActions (eA eB : Env) : List Action → List Action → Bool
  | [], [] => true
  | a :: rest, a2 :: rest2 => beqAction eA eB a a2 && beqActions eA eB rest rest2
  | _, _ => false

/-! ### Stay references, in traversal order -/

def staysOfSources : List StaySource → List StayId
  | [] => []
  | StaySource.PreExisting s :: rest => s :: staysOfSources rest
  | _ :: rest => staysOfSources rest

mutual
def bcStays : Bytecode → List StayId
  | Bytecode.mk _ _ _ start_stays _ _ _ lambdas _ =>
    staysOfSources start_stays ++ lamsStays lambdas

def lamsStays : List Lambda → List StayId
  | [] => []
  | l :: rest => lamStays l ++ lamsStays rest

def lamStays : Lambda → List StayId
  | Lambda.mk bytecode _ _ _ _ => bcStays bytecode
end

def actionStays : Action → List StayId
  | Action.Execute b => bcStays b
  | Action.ToplevelLet s => [s]
  | _ => []

def Recording.stayRefs (r : Recording) : List StayId :=
  (r.actions.map actionStays).flatten

/-! ### Index bounds of a chunk (the decoder's no-panic conditions) -/

def dSSIdxOK (stayCount : Nat) : DenseStaySource → Bool
  | DenseStaySource.PreExisting s => decide (s < stayCount)
  | _ => true

mutual
def dbcIdxOK (spanLen fnLen stayCount : Nat) : DenseBytecode → Bool
  | DenseBytecode.mk _ spans _ start_stays _ _ _ lambdas _ =>
    spans.all (fun s => decide (s < spanLen)) &&
    start_stays.all (dSSIdxOK stayCount) && dlamsIdxOK spanLen fnLen stayCount lambdas

def dlamsIdxOK (spanLen fnLen stayCount : Nat) : List DenseLambda → Bool
  | [] => true
  | l :: rest => dlamIdxOK spanLen fnLen stayCount l && dlamsIdxOK spanLen fnLen stayCount rest

def dlamIdxOK (spanLen fnLen stayCount : Nat) : DenseLambda → Bool
  | DenseLambda.mk bytecode _ _ _ _ => dbcIdxOK spanLen fnLen stayCount bytecode
end

def dActionIdxOK (spanLen fnLen stayCount : Nat) : DenseAction → Bool
  | DenseAction.Execute db => dbcIdxOK spanLen fnLen stayCount db
  | DenseAction.ToplevelLet s => decide (s < stayCount)
  | DenseAction.StartLoad f => decide (f < fnLen)
  | DenseAction.EndLoad => true

/-- Entry `i` of a dense span table is decodable in the single forward pass:
`Loaded` filenames are in the filename table and `Expanded` parents strictly
precede the entry. -/
def denseEntryOK (fnLen i : Nat) : DenseSpanStorage → Bool
  | DenseSpanStorage.Loaded f _ => decide (f < fnLen)
  | DenseSpanStorage.Expanded _ a b => decide (a < i) && decide (b < i)
  | DenseSpanStorage.Generated => true

def denseTableOKB (fnLen : Nat) (tbl : List DenseSpanStorage) : Bool :=
  (List.range tbl.length).all
    (fun i => denseEntryOK fnLen i ((tbl.get? i).getD DenseSpanStorage.Generated))

/-- The topological part alone: every `Expanded` entry's parent indices are
strictly less than its own index. -/
def expandedParentsOKB (tbl : List DenseSpanStorage) : Bool :=
  (List.range tbl.length).all
    (fun i => match (tbl.get? i).getD DenseSpanStorage.Generated with
      | DenseSpanStorage.Expanded _ a b => decide (a < i) && decide (b < i)
      | _ => true)

/-- Every dense index anywhere in the chunk is within its table's bounds. -/
def Chunk.indicesOKB (c : Chunk) : Bool :=
  c.actions.all (dActionIdxOK c.span_storage.length c.filename_storage.length c.stay_count) &&
  denseTableOKB c.filename_storage.length c.span_storage

/-! ### Closure-nesting depth (the parser fuel a bytecode needs) -/

mutual
def dbcDepth : DenseBytecode → Nat
  | DenseBytecode.mk _ _ _ _ _ _ _ lambdas _ => dlamsDepth lambdas + 1

def dlamsDepth : List DenseLambda → Nat
  | [] => 0
  | l :: rest => max (dlamDepth l) (dlamsDepth rest)

def dlamDepth : DenseLambda → Nat
  | DenseLambda.mk bytecode _ _ _ _ => dbcDepth bytecode
end

def dActionDepth : DenseAction → Nat
  | DenseAction.Execute db => dbcDepth db
  | _ => 0

/-! ### Concrete inputs for witnesses and counterexamples -/

/-- Empty process-wide state. -/
def env0 : Env := ⟨[], [], []⟩

/-- A small well-formed state: one `Loaded` span, one `Expanded` span over it,
one filename `"a"`, two stay cells. -/
def envW : Env :=
  ⟨[SpanStorage.Loaded 0 10, SpanStorage.Expanded (some 4) 0 0], [[97]], [none, none]⟩

/-- A decode-side state that already holds unrelated entries. -/
def envW2 : Env := ⟨[SpanStorage.Generated], [[98], [97]], [none, none, none]⟩

def bcW2 : Bytecode := Bytecode.mk [9] [1] [] [StaySource.Captured 2] 0 0 0 [] []

def lamW : Lambda := Lambda.mk bcW2 7 (some 9) [1] true

def bcW : Bytecode :=
  Bytecode.mk [1, 2, 3] [0, 0, 1] [5]
    [StaySource.Empty, StaySource.PreExisting 0, StaySource.PreExisting 1,
     StaySource.PreExisting 0] 1 2 3 [lamW] [0]

/-- The spec's end-to-end scenario shape: `StartLoad`, `Execute`,
`ToplevelLet`, (`ToplevelLet`,) `EndLoad`. -/
def recW : Recording :=
  ⟨[Action.StartLoad 0, Action.Execute bcW, Action.ToplevelLet 0,
    Action.ToplevelLet 1, Action.EndLoad]⟩

/-- A recording whose encoded chunk exceeds `DEFLATE_LIMIT` (1030 opaque
instructions, 8 bytes each on the wire): its payload is compressed. -/
def bigBc : Bytecode := Bytecode.mk (List.replicate 1030 0) [] [] [] 0 0 0 [] []

def bigR : Recording := ⟨[Action.Execute bigBc]⟩

/-- `bigR`'s encoded byte stream (compressed payload). -/
def bigOut : List Nat := Recording.into_bytes checksumCodec env0 bigR

/-- `bigOut` with its final payload byte flipped (changed to a different
byte value) — a corruption inside the compressed region. -/
def bigFlipped : List Nat := bigOut.dropLast ++ [(bigOut.getLast?.getD 0 + 1) % 256]

/-- A chunk carrying an out-of-range dense stay index (5, with no cells
recorded). -/
def oobChunk : Chunk := ⟨[DenseAction.ToplevelLet 5], [], [], 0⟩

/-- A byte stream that frames and deserializes cleanly but whose chunk holds
the out-of-range index. -/
def oobBytes : List Nat := natLE 8 (serChunk oobChunk).length ++ serChunk oobChunk

/-- A decodable chunk recording three storage cells, one filename string and
one span-table entry. -/
def chunkW9 : Chunk :=
  ⟨[DenseAction.ToplevelLet 0, DenseAction.EndLoad],
    [DenseSpanStorage.Loaded 0 1], [[99]], 3⟩

/-- A converter state whose memo maps already hold span `1` and filename `0`
(for exercising the memo-hit paths). -/
def dcW7 : DenseConverter :=
  ⟨[(1, 5)], [], [(0, 6)], [], []⟩

/-! ### Proof-layer predicates -/

def keysOf (m : List (Nat × Nat)) : List Nat := m.map Prod.fst

/-- No duplicate keys: the memo maps behave as finite maps. -/
def NDK (m : List (Nat × Nat)) : Prop := (keysOf m).Nodup

/-- The encoder state only grows: tables by appending, memo maps by consing. -/
def ConvExt (c c' : DenseConverter) : Prop :=
  c.span_storage <+: c'.span_storage ∧ c.filename_storage <+: c'.filename_storage ∧
  c.span_map <:+ c'.span_map ∧ c.filename_map <:+ c'.filename_map ∧
  c.stay_map <:+ c'.stay_map

/-- Prop form of `denseTableOKB`. -/
def DTWF (fnLen : Nat) (tbl : List DenseSpanStorage) : Prop :=
  ∀ i, i < tbl.length →
    denseEntryOK fnLen i ((tbl.get? i).getD DenseSpanStorage.Generated) = true

/-- Prop form of `Env.spanWFB`. -/
def EWF (e : Env) : Prop :=
  ∀ i, i < e.spanTable.length →
    spanEntryOK e.filenameTable.length i (e.lookupSpanStorage i) = true

/-- The process-wide state only grows (decode-side registrations append). -/
def EnvExt (e e' : Env) : Prop :=
  e.spanTable <+: e'.spanTable ∧ e.filenameTable <+: e'.filenameTable ∧
  e.stayVals <+: e'.stayVals

/-- The dense-encoder invariant: memo maps are finite maps, tables and maps
grow in lock step, the emitted span table is forward-reference-free, and every
memoized index resolves to the same location as the original handle. -/
structure Inv (env : Env) (c : DenseConverter) : Prop where
  ndkS : NDK c.span_map
  ndkF : NDK c.filename_map
  ndkT : NDK c.stay_map
  lenS : c.span_storage.length = c.span_map.length
  lenF : c.filename_storage.length = c.filename_map.length
  wf : DTWF c.filename_storage.length c.span_storage
  spanRes : ∀ p ∈ c.span_map, p.2 < c.span_storage.length ∧
    resolveD c.filename_storage c.span_storage p.2 = env.resolveSpan p.1
  fnRes : ∀ p ∈ c.filename_map, p.2 < c.filename_storage.length ∧
    c.filename_storage.get? p.2 = some (env.filenameStr p.1)
  stayLt : ∀ p ∈ c.stay_map, p.2 < c.stay_map.length
  stayNd : (c.stay_map.map Prod.snd).Nodup

/-- Size bounds under which no `as u32` cast truncates. -/
def Bnd (c : DenseConverter) : Prop :=
  c.span_storage.length ≤ n32 ∧ c.filename_storage.length ≤ n32 ∧
  c.stay_map.length ≤ n32

/-- A sparse stay source corresponds to its dense form through the memo map. -/
def ssCorrB (m : List (Nat × Nat)) : StaySource → DenseStaySource → Bool
  | StaySource.Empty, DenseStaySource.Empty => true
  | StaySource.Param i, DenseStaySource.Param j => decide (i = j)
  | StaySource.Captured i, DenseStaySource.Captured j => decide (i = j)
  | StaySource.PreExisting s, DenseStaySource.PreExisting d =>
    decide (lookupA m s = some d)
  | _, _ => false

mutual
/-- A bytecode corresponds to its dense form: opaque fields copied verbatim,
every reference memoized in the converter's maps. -/
def bcorrB (c : DenseConverter) : Bytecode → DenseBytecode → Bool
  | Bytecode.mk instrs spans regs stays lc sc litc lambdas defers,
    DenseBytecode.mk instrs2 spans2 regs2 stays2 lc2 sc2 litc2 lambdas2 defers2 =>
    decide (instrs = instrs2) &&
    decide (spans.length = spans2.length) &&
    (spans.zip spans2).all (fun p => decide (lookupA c.span_map p.1 = some p.2)) &&
    decide (regs = regs2) &&
    decide (stays.length = stays2.length) &&
    (stays.zip stays2).all (fun p => ssCorrB c.stay_map p.1 p.2) &&
    decide (lc = lc2) && decide (sc = sc2) && decide (litc = litc2) &&
    lcorrB c lambdas lambdas2 && decide (defers = defers2)

def lcorrB (c : DenseConverter) : List Lambda → List DenseLambda → Bool
  | [], [] => true
  | l :: rest, dl :: rest2 => lamCorrB c l dl && lcorrB c rest rest2
  | _, _ => false

def lamCorrB (c : DenseConverter) : Lambda → DenseLambda → Bool
  | Lambda.mk bytecode pm name captures yields,
    DenseLambda.mk bytecode2 pm2 name2 captures2 yields2 =>
    bcorrB c bytecode bytecode2 && decide (pm = pm2) && decide (name = name2) &&
    decide (captures = captures2) && decide (yields = yields2)
end

def actionCorrB (c : DenseConverter) : Action → DenseAction → Bool
  | Action.Execute b, DenseAction.Execute db => bcorrB c b db
  | Action.ToplevelLet s, DenseAction.ToplevelLet d =>
    decide (lookupA c.stay_map s = some d)
  | Action.StartLoad f, DenseAction.StartLoad d =>
    decide (lookupA c.filename_map f = some d)
  | Action.EndLoad, DenseAction.EndLoad => true
  | _, _ => false

def actionsCorrB (c : DenseConverter) : List Action → List DenseAction → Bool
  | [], [] => true
  | a :: rest, da :: rest2 => actionCorrB c a da && actionsCorrB c rest rest2
  | _, _ => false

/-- The canonical renaming of original storage cells to reconstructed ones:
cell `s` maps to the `d`-th freshly allocated cell, where `d` is the dense
index the encoder assigned to `s`, offset by the allocation arena's size at
decode time. -/
def stayRename (envE envD : Env) (r : Recording) (s : StayId) : StayId :=
  envD.stayVals.length + (lookupA (finalConv envE r).stay_map s).getD 0

/-- The decode context: the encoder's final state, and a sparse converter
whose arrays resolve each dense index back to the original location (spans,
filenames) or to the `base + i`-th freshly allocated cell (stays). -/
structure DecCtx (envE envD2 : Env) (cF : DenseConverter) (conv : SparseConverter)
    (base : Nat) : Prop where
  inv : Inv envE cF
  spanlen : conv.spans.length = cF.span_storage.length
  span : ∀ i, i < cF.span_storage.length → ∃ sh, conv.spans.get? i = some sh ∧
    envD2.resolveSpan sh = resolveD cF.filename_storage cF.span_storage i
  fnlen : conv.filenames.length = cF.filename_storage.length
  fn : ∀ i, i < cF.filename_storage.length → ∃ fh, conv.filenames.get? i = some fh ∧
    envD2.filenameStr fh = (cF.filename_storage.get? i).getD []
  stays : conv.stays = (List.range cF.stay_map.length).map (fun i => base + i)

/-! ## Proof layer -/

/-! ### Little-endian integers -/

theorem natLE_length (w n : Nat) : (natLE w n).length = w := by
  induction w generalizing n with
  | zero => rfl
  | succ w ih => simp [natLE, ih]

theorem parseLE_append (w n : Nat) (rest : List Nat) (h : n < 256 ^ w) :
    parseLE w (natLE w n ++ rest) = some (n, rest) := by
  induction w generalizing n with
  | zero =>
    have : n = 0 := by omega
    simp [natLE, parseLE, this]
  | succ w ih =>
    have hdiv : n / 256 < 256 ^ w := by
      rw [Nat.div_lt_iff_lt_mul (by norm_num)]
      calc n < 256 ^ (w + 1) := h
        _ = 256 ^ w * 256 := by ring
    simp [natLE, parseLE, ih (n / 256) hdiv, Nat.mod_add_div]

theorem leVal_natLE (w n : Nat) : leVal (natLE w n) = n % 256 ^ w := by
  induction w generalizing n with
  | zero => simp [natLE, leVal, Nat.mod_one]
  | succ w ih =>
    simp only [natLE, leVal, ih]
    rw [Nat.pow_succ', Nat.mod_mul]

theorem leVal_take_append (w n : Nat) (rest : List Nat) :
    leVal ((natLE w n ++ rest).take w) = n % 256 ^ w := by
  have h : (natLE w n ++ rest).take w = natLE w n := by
    have := natLE_length w n
    calc (natLE w n ++ rest).take w
        = (natLE w n ++ rest).take (natLE w n).length := by rw [this]
      _ = natLE w n := List.take_left _ _
  rw [h, leVal_natLE]

/-! ### Parser round trips -/

theorem parseCount_append (p : List Nat → Option (α × List Nat)) (f : α → List Nat)
    (xs : List α) (h : ∀ a ∈ xs, ∀ r, p (f a ++ r) = some (a, r)) (rest : List Nat) :
    parseCount p xs.length ((xs.map f).flatten ++ rest) = some (xs, rest) := by
  induction xs generalizing rest with
  | nil => simp [parseCount]
  | cons x xs ih =>
    have hx := h x (by simp) ((xs.map f).flatten ++ rest)
    simp only [List.map_cons, List.flatten_cons, List.length_cons, List.append_assoc]
    rw [parseCount, hx]
    simp only [Option.some_bind]
    rw [ih (fun a ha r => h a (by simp [ha]) r) rest]
    rfl

theorem parseListOf_append (p : List Nat → Option (α × List Nat)) (f : α → List Nat)
    (xs : List α) (hlen : xs.length < n64)
    (h : ∀ a ∈ xs, ∀ r, p (f a ++ r) = some (a, r)) (rest : List Nat) :
    parseListOf p (serList f xs ++ rest) = some (xs, rest) := by
  rw [serList, List.append_assoc, parseListOf,
    parseLE_append 8 xs.length _ (by simpa [n64] using hlen)]
  simp only [Option.some_bind]
  exact parseCount_append p f xs h rest

theorem parseStr_append (s : List Nat) (hlen : s.length < n64) (rest : List Nat) :
    parseStr (serStr s ++ rest) = some (s, rest) := by
  rw [serStr, List.append_assoc, parseStr,
    parseLE_append 8 s.length _ (by simpa [n64] using hlen)]
  simp [List.take_left, List.drop_left]

theorem parseOptNat8_append (o : Option Nat)
    (h : ∀ s, o = some s → s < n64) (rest : List Nat) :
    parseOptNat8 (serOpt (natLE 8) o ++ rest) = some (o, rest) := by
  cases o with
  | none => simp [serOpt, parseOptNat8]
  | some s =>
    simp only [serOpt, List.cons_append, parseOptNat8]
    rw [parseLE_append 8 s _ (by simpa [n64] using h s rfl)]
    rfl

theorem parseBool_append (b : Bool) (rest : List Nat) :
    parseBool (serBool b ++ rest) = some (b, rest) := by
  cases b <;> simp [serBool, parseBool]

theorem parseSpanStorage_append (ss : DenseSpanStorage)
    (h : dSpanStorageValidB ss = true) (rest : List Nat) :
    parseSpanStorage (serSpanStorage ss ++ rest) = some (ss, rest) := by
  cases ss with
  | Loaded f line =>
    simp only [dSpanStorageValidB, Bool.and_eq_true, decide_eq_true_eq] at h
    simp only [serSpanStorage, List.cons_append, parseSpanStorage, List.append_assoc]
    rw [parseLE_append 4 f _ (by simpa [n32] using h.1), Option.some_bind,
      parseLE_append 8 line _ (by simpa [n64] using h.2)]
    rfl
  | Expanded sym a b =>
    simp only [dSpanStorageValidB, Bool.and_eq_true, decide_eq_true_eq] at h
    simp only [serSpanStorage, List.cons_append, parseSpanStorage, List.append_assoc]
    rw [parseOptNat8_append sym (fun s hs => by
      subst hs; simpa [n64] using h.1.1) _]
    simp only [Option.some_bind]
    rw [parseLE_append 4 a _ (by simpa [n32] using h.1.2), Option.some_bind,
      parseLE_append 4 b _ (by simpa [n32] using h.2)]
    rfl
  | Generated => simp [serSpanStorage, parseSpanStorage]

theorem parseStaySource_append (ss : DenseStaySource)
    (h : dSSValidB ss = true) (rest : List Nat) :
    parseStaySource (serStaySource ss ++ rest) = some (ss, rest) := by
  cases ss with
  | Empty => simp [serStaySource, parseStaySource]
  | Param id =>
    simp only [dSSValidB, decide_eq_true_eq] at h
    simp only [serStaySource, List.cons_append, parseStaySource]
    rw [parseLE_append 1 id _ (by simpa using h)]
    rfl
  | Captured id =>
    simp only [dSSValidB, decide_eq_true_eq] at h
    simp only [serStaySource, List.cons_append, parseStaySource]
    rw [parseLE_append 1 id _ (by simpa using h)]
    rfl
  | PreExisting s =>
    simp only [dSSValidB, decide_eq_true_eq] at h
    simp only [serStaySource, List.cons_append, parseStaySource]
    rw [parseLE_append 4 s _ (by simpa [n32] using h)]
    rfl

mutual
theorem parseBytecode_append (db : DenseBytecode) (fuel : Nat)
    (hfuel : dbcDepth db ≤ fuel) (hv : dbcValidB db = true) (rest : List Nat) :
    parseBytecode fuel (serBytecode db ++ rest) = some (db, rest) := by
  cases db with
  | mk instrs spans start_regs start_stays lc sc litc lambdas defers =>
    cases fuel with
    | zero => exact absurd hfuel (by simp [dbcDepth])
    | succ f =>
      have hf : dlamsDepth lambdas ≤ f := by
        have : dlamsDepth lambdas + 1 ≤ f + 1 := by simpa [dbcDepth] using hfuel
        omega
      simp only [dbcValidB, Bool.and_eq_true, decide_eq_true_eq, List.all_eq_true] at hv
      obtain ⟨⟨⟨⟨⟨⟨⟨⟨⟨⟨⟨⟨⟨⟨h1, h2⟩, h3⟩, h4⟩, h5⟩, h6⟩, h7⟩, h8⟩, h9⟩, h10⟩,
        h11⟩, h12⟩, h13⟩, h14⟩, h15⟩ := hv
      simp only [serBytecode, parseBytecode, List.append_assoc]
      rw [parseListOf_append (parseLE 8) (natLE 8) instrs h1
        (fun a ha r => parseLE_append 8 a r (by simpa [n64] using h2 a ha)) _]
      simp only [Option.some_bind]
      rw [parseListOf_append (parseLE 4) (natLE 4) spans h3
        (fun a ha r => parseLE_append 4 a r (by simpa [n32] using h4 a ha)) _]
      simp only [Option.some_bind]
      rw [parseListOf_append (parseLE 8) (natLE 8) start_regs h5
        (fun a ha r => parseLE_append 8 a r (by simpa [n64] using h6 a ha)) _]
      simp only [Option.some_bind]
      rw [parseListOf_append parseStaySource serStaySource start_stays h7
        (fun a ha r => parseStaySource_append a (h8 a ha) r) _]
      simp only [Option.some_bind]
      rw [parseLE_append 1 lc _ (by simpa using h9), Option.some_bind,
        parseLE_append 1 sc _ (by simpa using h10), Option.some_bind,
        parseLE_append 1 litc _ (by simpa using h11), Option.some_bind,
        parseLE_append 8 lambdas.length _ (by simpa [n64] using h12), Option.some_bind]
      rw [parseLambdaCount_append lambdas f hf h13 _]
      simp only [Option.some_bind]
      rw [parseListOf_append (parseLE 8) (natLE 8) defers h14
        (fun a ha r => parseLE_append 8 a r (by simpa [n64] using h15 a ha)) _]
      rfl
termination_by (fuel, 0)

theorem parseLambdaCount_append (ls : List DenseLambda) (fuel : Nat)
    (hfuel : dlamsDepth ls ≤ fuel) (hv : dlamsValidB ls = true) (rest : List Nat) :
    parseLambdaCount fuel ls.length (serLambdaList ls ++ rest) = some (ls, rest) := by
  cases ls with
  | nil => simp [serLambdaList, parseLambdaCount]
  | cons l tail =>
    cases l with
    | mk bytecode param_map name captures yields =>
      have hdl : dlamValidB (DenseLambda.mk bytecode param_map name captures yields)
          = true ∧ dlamsValidB tail = true := by
        simpa [dlamsValidB, Bool.and_eq_true] using hv
      have hvl := hdl.1
      simp only [dlamValidB, Bool.and_eq_true, decide_eq_true_eq, List.all_eq_true] at hvl
      obtain ⟨⟨⟨⟨⟨g1, g2⟩, g3⟩, g4⟩, g5⟩, _⟩ := hvl
      have hfl : dbcDepth bytecode ≤ fuel := by
        have : max (dlamDepth (DenseLambda.mk bytecode param_map name captures yields))
            (dlamsDepth tail) ≤ fuel := by simpa [dlamsDepth] using hfuel
        have := le_trans (le_max_left _ _) this
        simpa [dlamDepth] using this
      have hft : dlamsDepth tail ≤ fuel := by
        have : max (dlamDepth (DenseLambda.mk bytecode param_map name captures yields))
            (dlamsDepth tail) ≤ fuel := by simpa [dlamsDepth] using hfuel
        exact le_trans (le_max_right _ _) this
      simp only [serLambdaList, serLambda, List.length_cons, parseLambdaCount,
        List.append_assoc]
      rw [parseBytecode_append bytecode fuel hfl g1 _]
      simp only [Option.some_bind]
      rw [parseLE_append 8 param_map _ (by simpa [n64] using g2), Option.some_bind]
      rw [parseOptNat8_append name (fun s hs => by subst hs; simpa [n64] using g3) _]
      simp only [Option.some_bind]
      rw [parseListOf_append (parseLE 1) (natLE 1) captures g4
        (fun a ha r => parseLE_append 1 a r (by simpa using g5 a ha)) _]
      simp only [Option.some_bind]
      rw [parseBool_append yields _]
      simp only [Option.some_bind]
      rw [parseLambdaCount_append tail fuel hft hdl.2 rest]
      rfl
termination_by (fuel, ls.length + 1)
end

theorem flatten_part_le {α : Type} (f : α → List Nat) (xs : List α) (a : α)
    (ha : a ∈ xs) : (f a).length ≤ ((xs.map f).flatten).length := by
  induction xs with
  | nil => cases ha
  | cons x tail ih =>
    simp only [List.map_cons, List.flatten_cons, List.length_append]
    cases ha with
    | head => omega
    | tail _ hm => have := ih hm; omega

mutual
theorem dbcDepth_le (db : DenseBytecode) : dbcDepth db ≤ (serBytecode db).length := by
  cases db with
  | mk instrs spans start_regs start_stays lc sc litc lambdas defers =>
    have h := dlamsDepth_le lambdas
    simp only [dbcDepth, serBytecode, List.length_append, natLE_length]
    omega

theorem dlamsDepth_le (ls : List DenseLambda) :
    dlamsDepth ls ≤ (serLambdaList ls).length := by
  cases ls with
  | nil => simp [dlamsDepth, serLambdaList]
  | cons l tail =>
    have h1 := dlamDepth_le l
    have h2 := dlamsDepth_le tail
    simp only [dlamsDepth, serLambdaList, List.length_append]
    omega

theorem dlamDepth_le (l : DenseLambda) : dlamDepth l ≤ (serLambda l).length := by
  cases l with
  | mk bytecode param_map name captures yields =>
    have h := dbcDepth_le bytecode
    simp only [dlamDepth, serLambda, List.length_append]
    omega
end

theorem dActionDepth_le (a : DenseAction) : dActionDepth a ≤ (serAction a).length := by
  cases a with
  | Execute db =>
    have := dbcDepth_le db
    simp only [dActionDepth, serAction, List.length_cons]
    omega
  | ToplevelLet s => simp [dActionDepth]
  | StartLoad f => simp [dActionDepth]
  | EndLoad => simp [dActionDepth]

theorem parseAction_append (a : DenseAction) (fuel : Nat)
    (hfuel : dActionDepth a ≤ fuel) (hv : dActionValidB a = true) (rest : List Nat) :
    parseAction fuel (serAction a ++ rest) = some (a, rest) := by
  cases a with
  | Execute db =>
    simp only [serAction, List.cons_append, parseAction]
    rw [parseBytecode_append db fuel (by simpa [dActionDepth] using hfuel)
      (by simpa [dActionValidB] using hv) rest]
    rfl
  | ToplevelLet s =>
    simp only [serAction, List.cons_append, parseAction]
    rw [parseLE_append 4 s _ (by simpa [dActionValidB, n32] using hv)]
    rfl
  | StartLoad f =>
    simp only [serAction, List.cons_append, parseAction]
    rw [parseLE_append 4 f _ (by simpa [dActionValidB, n32] using hv)]
    rfl
  | EndLoad => simp [serAction, parseAction]

/-- The chunk round trip through the modelled binary scheme. -/
theorem parseChunk_serChunk (c : Chunk) (hv : c.validB = true) :
    parseChunk (serChunk c) = some c := by
  cases c with
  | mk actions span_storage filename_storage stay_count =>
    simp only [Chunk.validB, Bool.and_eq_true, decide_eq_true_eq, List.all_eq_true] at hv
    obtain ⟨⟨⟨⟨⟨⟨⟨⟨⟨v1, v2⟩, v3⟩, v4⟩, v5⟩, v6⟩, v7⟩, _⟩, _⟩, _⟩ := hv
    have hdepth : ∀ a ∈ actions, dActionDepth a ≤
        (serChunk (Chunk.mk actions span_storage filename_storage stay_count)).length := by
      intro a ha
      have h1 := dActionDepth_le a
      have h2 := flatten_part_le serAction actions a ha
      simp only [serChunk, serList, List.length_append, natLE_length]
      omega
    simp only [parseChunk, serChunk]
    rw [show serList serAction actions ++ serList serSpanStorage span_storage ++
        serList serStr filename_storage ++ natLE 8 stay_count =
      serList serAction actions ++ (serList serSpanStorage span_storage ++
        (serList serStr filename_storage ++ natLE 8 stay_count)) by
      simp [List.append_assoc]]
    rw [parseListOf_append _ serAction actions v1
      (fun a ha r => parseAction_append a _ (by
        have := hdepth a ha
        simp only [serChunk] at this
        calc dActionDepth a ≤ _ := this
          _ ≤ _ := by simp only [List.length_append]; omega) (v2 a ha) r) _]
    simp only [Option.some_bind]
    rw [parseListOf_append _ serSpanStorage span_storage v3
      (fun a ha r => parseSpanStorage_append a (v4 a ha) r) _]
    simp only [Option.some_bind]
    rw [parseListOf_append _ serStr filename_storage v5
      (fun a ha r => parseStr_append a (v6 a ha) r) _]
    simp only [Option.some_bind]
    rw [show (natLE 8 stay_count : List Nat) = natLE 8 stay_count ++ [] by simp]
    rw [parseLE_append 8 stay_count _ (by simpa [n64] using v7)]
    rfl

/-! ### Framing -/

theorem checksumCodec_lossless : checksumCodec.Lossless := by
  intro bs
  simp only [checksumCodec, Codec.Lossless, inflateModel, deflateModel]
  rw [List.getLast?_concat, List.dropLast_concat]
  simp

theorem into_bytes_raw (cdc : Codec) (env : Env) (r : Recording)
    (h : (serChunk (encodeChunk env r)).length < DEFLATE_LIMIT) :
    Recording.into_bytes cdc env r =
      natLE 8 (serChunk (encodeChunk env r)).length ++ serChunk (encodeChunk env r) := by
  simp [Recording.into_bytes, h]

theorem into_bytes_compressed (cdc : Codec) (env : Env) (r : Recording)
    (h : DEFLATE_LIMIT ≤ (serChunk (encodeChunk env r)).length) :
    Recording.into_bytes cdc env r =
      natLE 8 (serChunk (encodeChunk env r)).length ++
        cdc.deflateFn (serChunk (encodeChunk env r)) := by
  simp only [Recording.into_bytes]
  rw [if_neg (by omega)]

theorem framePayload_header (cdc : Codec) (payload : List Nat) (n : Nat)
    (hn : n < n64) :
    framePayload cdc (natLE 8 n ++ payload) =
      if n < DEFLATE_LIMIT then DecodeOutcome.ok payload
      else match cdc.inflateFn payload with
        | some d => DecodeOutcome.ok d
        | none => DecodeOutcome.panicked := by
  have hlen : 8 ≤ (natLE 8 n ++ payload).length := by
    simp [List.length_append, natLE_length]
  have hval : leVal ((natLE 8 n ++ payload).take 8) = n := by
    rw [leVal_take_append]
    exact Nat.mod_eq_of_lt (by simpa [n64] using hn)
  have hdrop : (natLE 8 n ++ payload).drop 8 = payload := by
    have h8 : (natLE 8 n).length = 8 := natLE_length 8 n
    calc (natLE 8 n ++ payload).drop 8
        = (natLE 8 n ++ payload).drop (natLE 8 n).length := by rw [h8]
      _ = payload := List.drop_left _ _
  simp only [framePayload, if_pos hlen, hval, hdrop]

theorem framePayload_into (cdc : Codec) (hl : cdc.Lossless) (env : Env)
    (r : Recording) (hlen : (serChunk (encodeChunk env r)).length < n64) :
    framePayload cdc (Recording.into_bytes cdc env r) =
      DecodeOutcome.ok (serChunk (encodeChunk env r)) := by
  by_cases h : (serChunk (encodeChunk env r)).length < DEFLATE_LIMIT
  · rw [into_bytes_raw cdc env r h, framePayload_header cdc _ _ hlen, if_pos h]
  · rw [into_bytes_compressed cdc env r (by omega), framePayload_header cdc _ _ hlen,
      if_neg h, hl (serChunk (encodeChunk env r))]

/-- `from_bytes ∘ into_bytes` reduces to the chunk-level decode. -/
theorem from_bytes_into_bytes (cdc : Codec) (hl : cdc.Lossless) (envE envD : Env)
    (r : Recording) (hlen : (serChunk (encodeChunk envE r)).length < n64)
    (hch : (encodeChunk envE r).validB = true) :
    Recording.from_bytes cdc envD (Recording.into_bytes cdc envE r) =
      match decodeChunk envD (encodeChunk envE r) with
      | none => DecodeOutcome.panicked
      | some (r2, e2) => DecodeOutcome.ok (r2, e2) := by
  simp only [Recording.from_bytes, framePayload_into cdc hl envE r hlen,
    parseChunk_serChunk _ hch]

/-! ### Association-list facts -/

theorem lookupA_mem {m : List (Nat × Nat)} {k v : Nat}
    (h : lookupA m k = some v) : (k, v) ∈ m := by
  induction m with
  | nil => simp [lookupA] at h
  | cons p rest ih =>
    obtain ⟨pk, pv⟩ := p
    rw [lookupA] at h
    by_cases hk : pk = k
    · rw [if_pos hk] at h
      cases h
      subst hk
      exact List.mem_cons_self _ _
    · rw [if_neg hk] at h
      exact List.mem_cons_of_mem _ (ih h)

theorem lookupA_mem_keys {m : List (Nat × Nat)} {k v : Nat}
    (h : lookupA m k = some v) : k ∈ keysOf m := by
  have := lookupA_mem h
  simp only [keysOf, List.mem_map]
  exact ⟨(k, v), this, rfl⟩

theorem lookupA_none_of_not_mem {m : List (Nat × Nat)} {k : Nat}
    (h : k ∉ keysOf m) : lookupA m k = none := by
  induction m with
  | nil => rfl
  | cons p rest ih =>
    simp only [keysOf, List.map_cons, List.mem_cons, not_or] at h
    rw [lookupA, if_neg (fun he => h.1 he.symm)]
    exact ih (by simpa [keysOf] using h.2)

theorem not_mem_of_lookupA_none {m : List (Nat × Nat)} {k : Nat}
    (h : lookupA m k = none) : k ∉ keysOf m := by
  intro hk
  simp only [keysOf, List.mem_map] at hk
  obtain ⟨p, hp, hpk⟩ := hk
  induction m with
  | nil => cases hp
  | cons q rest ih =>
    rw [lookupA] at h
    by_cases hq : q.1 = k
    · rw [if_pos hq] at h; cases h
    · rw [if_neg hq] at h
      cases hp with
      | head => exact hq hpk
      | tail _ hm => exact ih h hm

theorem lookupA_append_left {pre m : List (Nat × Nat)} {k : Nat}
    (h : k ∉ keysOf pre) : lookupA (pre ++ m) k = lookupA m k := by
  induction pre with
  | nil => rfl
  | cons p rest ih =>
    simp only [keysOf, List.map_cons, List.mem_cons, not_or] at h
    rw [List.cons_append, lookupA, if_neg (fun he => h.1 he.symm)]
    exact ih (by simpa [keysOf] using h.2)

theorem lookupA_suffix {m m' : List (Nat × Nat)} {k v : Nat}
    (hs : m <:+ m') (hnd : NDK m') (h : lookupA m k = some v) :
    lookupA m' k = some v := by
  obtain ⟨pre, hpre⟩ := hs
  subst hpre
  have hk : k ∈ keysOf m := lookupA_mem_keys h
  have hdis : List.Disjoint (keysOf pre) (keysOf m) := by
    have : (keysOf pre ++ keysOf m).Nodup := by
      simpa [NDK, keysOf, List.map_append] using hnd
    exact List.disjoint_of_nodup_append this
  rw [lookupA_append_left (fun hmem => hdis hmem hk)]
  exact h

theorem NDK_suffix {m m' : List (Nat × Nat)} (hs : m <:+ m') (hnd : NDK m') :
    NDK m := by
  obtain ⟨pre, hpre⟩ := hs
  subst hpre
  have : (keysOf pre ++ keysOf m).Nodup := by
    simpa [NDK, keysOf, List.map_append] using hnd
  exact (List.nodup_append.mp this).2.1

/-! ### Extension facts -/

theorem convExt_refl (c : DenseConverter) : ConvExt c c :=
  ⟨List.prefix_refl _, List.prefix_refl _, List.suffix_refl _,
   List.suffix_refl _, List.suffix_refl _⟩

theorem convExt_trans {a b c : DenseConverter} (h1 : ConvExt a b)
    (h2 : ConvExt b c) : ConvExt a c :=
  ⟨h1.1.trans h2.1, h1.2.1.trans h2.2.1, h1.2.2.1.trans h2.2.2.1,
   h1.2.2.2.1.trans h2.2.2.2.1, h1.2.2.2.2.trans h2.2.2.2.2⟩

theorem fromFilename_ext (env : Env) (f : Filename) (c : DenseConverter) :
    ConvExt c (fromFilename env f c).2 := by
  rw [fromFilename]
  cases lookupA c.filename_map f with
  | some d => exact convExt_refl c
  | none =>
    exact ⟨List.prefix_refl _, List.prefix_append _ _, List.suffix_refl _,
      List.suffix_cons _ _, List.suffix_refl _⟩

theorem fromStay_ext (s : StayId) (c : DenseConverter) :
    ConvExt c (fromStay s c).2 := by
  rw [fromStay]
  cases lookupA c.stay_map s with
  | some d => exact convExt_refl c
  | none =>
    exact ⟨List.prefix_refl _, List.prefix_refl _, List.suffix_refl _,
      List.suffix_refl _, List.suffix_cons _ _⟩

/-- Appending a span-table entry and consing its memo binding is an
extension. -/
theorem convExt_push (c : DenseConverter) (s d : Nat) (entry : DenseSpanStorage) :
    ConvExt c { c with span_storage := c.span_storage ++ [entry],
                       span_map := (s, d) :: c.span_map } :=
  ⟨List.prefix_append _ _, List.prefix_refl _, List.suffix_cons _ _,
   List.suffix_refl _, List.suffix_refl _⟩

theorem fromSpanGo_ext (env : Env) (fuel : Nat) :
    ∀ (s : Span) (c : DenseConverter), ConvExt c (fromSpanGo env fuel s c).2 := by
  induction fuel with
  | zero => exact fun s c => convExt_refl c
  | succ fuel ih =>
    intro s c
    cases hl : lookupA c.span_map s with
    | some d =>
      rw [fromSpanGo, hl]
      exact convExt_refl c
    | none =>
      rw [fromSpanGo, hl]
      cases hst : env.spanTable.get? s with
      | none => exact convExt_push c s _ _
      | some ss =>
        cases ss with
        | Loaded f line =>
          exact convExt_trans (fromFilename_ext env f c) (convExt_push _ s _ _)
        | Expanded sym a b =>
          by_cases hab : a < s ∧ b < s
          · simp only [if_pos hab]
            exact convExt_trans (ih a c)
              (convExt_trans (ih b _) (convExt_push _ s _ _))
          · simp only [if_neg hab]
            exact convExt_push c s _ _
        | Generated => exact convExt_push c s _ _

theorem fromSpan_ext (env : Env) (s : Span) (c : DenseConverter) :
    ConvExt c (fromSpan env s c).2 :=
  fromSpanGo_ext env (s + 1) s c

theorem fromStaySource_ext (ss : StaySource) (c : DenseConverter) :
    ConvExt c (fromStaySource ss c).2 := by
  cases ss with
  | Empty => exact convExt_refl c
  | Param id => exact convExt_refl c
  | Captured id => exact convExt_refl c
  | PreExisting s => exact fromStay_ext s c

theorem mapState_convExt {α β : Type} (f : α → DenseConverter → β × DenseConverter)
    (hf : ∀ a c, ConvExt c (f a c).2) (xs : List α) (c : DenseConverter) :
    ConvExt c (mapState f xs c).2 := by
  induction xs generalizing c with
  | nil => exact convExt_refl c
  | cons x tail ih => exact convExt_trans (hf x c) (ih (f x c).2)

mutual
theorem fromBytecode_ext (env : Env) (b : Bytecode) (c : DenseConverter) :
    ConvExt c (fromBytecode env b c).2 := by
  cases b with
  | mk instrs spans regs stays lc sc litc lambdas defers =>
    rw [fromBytecode]
    exact convExt_trans (mapState_convExt _ (fromSpan_ext env) spans c)
      (convExt_trans (mapState_convExt _ fromStaySource_ext stays _)
        (fromLambdaList_ext env lambdas _))

theorem fromLambdaList_ext (env : Env) (ls : List Lambda) (c : DenseConverter) :
    ConvExt c (fromLambdaList env ls c).2 := by
  cases ls with
  | nil => exact convExt_refl c
  | cons l tail =>
    rw [fromLambdaList]
    exact convExt_trans (fromLambda_ext env l c) (fromLambdaList_ext env tail _)

theorem fromLambda_ext (env : Env) (l : Lambda) (c : DenseConverter) :
    ConvExt c (fromLambda env l c).2 := by
  cases l with
  | mk bytecode pm name captures yields =>
    rw [fromLambda]
    exact fromBytecode_ext env bytecode c
end

theorem fromAction_ext (env : Env) (a : Action) (c : DenseConverter) :
    ConvExt c (fromAction env a c).2 := by
  cases a with
  | Execute b => exact fromBytecode_ext env b c
  | ToplevelLet s => exact fromStay_ext s c
  | StartLoad f => exact fromFilename_ext env f c
  | EndLoad => exact convExt_refl c

theorem convExt_bnd {c c' : DenseConverter} (hext : ConvExt c c') (hb : Bnd c') :
    Bnd c :=
  ⟨le_trans hext.1.length_le hb.1, le_trans hext.2.1.length_le hb.2.1,
   le_trans hext.2.2.2.2.length_le hb.2.2⟩

/-! ### Resolution stability -/

theorem u32cast_eq {n : Nat} (h : n < n32) : u32cast n = n :=
  Nat.mod_eq_of_lt (by simpa [n32] using h)

theorem denseEntryOK_mono {fnLen fnLen' i : Nat} (h : fnLen ≤ fnLen')
    (ss : DenseSpanStorage) (hok : denseEntryOK fnLen i ss = true) :
    denseEntryOK fnLen' i ss = true := by
  cases ss with
  | Loaded f line =>
    simp only [denseEntryOK, decide_eq_true_eq] at hok ⊢
    exact Nat.lt_of_lt_of_le hok h
  | Expanded sym a b => exact hok
  | Generated => rfl

theorem prefix_get?_eq {α : Type} {l l' : List α} (h : l <+: l') {i : Nat}
    (hi : i < l.length) : l'.get? i = l.get? i := by
  obtain ⟨t, rfl⟩ := h
  rw [List.get?_eq_getElem?, List.get?_eq_getElem?, List.getElem?_append_left hi]

theorem DTWF_prefix_entry {fnLen : Nat} {tbl tbl' : List DenseSpanStorage}
    (ht : tbl <+: tbl') (hwf : DTWF fnLen tbl) {i : Nat} (hi : i < tbl.length) :
    (tbl'.get? i).getD DenseSpanStorage.Generated =
      (tbl.get? i).getD DenseSpanStorage.Generated := by
  rw [prefix_get?_eq ht hi]

theorem resolveD_mono {fns fns' : List (List Nat)} {tbl tbl' : List DenseSpanStorage}
    (hf : fns <+: fns') (ht : tbl <+: tbl') (hwf : DTWF fns.length tbl)
    (i : Nat) (hi : i < tbl.length) :
    resolveD fns' tbl' i = resolveD fns tbl i := by
  induction i using Nat.strong_induction_on with
  | _ i ih =>
    have hget : tbl'.get? i = tbl.get? i := prefix_get?_eq ht hi
    rw [resolveD, resolveD, hget]
    cases hentry : tbl.get? i with
    | none => rfl
    | some ss =>
      cases ss with
      | Loaded f line =>
        have hok := hwf i hi
        rw [hentry] at hok
        simp only [Option.getD_some, denseEntryOK, decide_eq_true_eq] at hok
        have hfget : fns'.get? f = fns.get? f := prefix_get?_eq hf hok
        simp only [hfget]
      | Expanded sym a b =>
        by_cases hab : a < i ∧ b < i
        · simp only [dif_pos hab]
          rw [ih a hab.1 (lt_trans hab.1 hi), ih b hab.2 (lt_trans hab.2 hi)]
        · simp only [dif_neg hab]
      | Generated => rfl

theorem envExt_refl (e : Env) : EnvExt e e :=
  ⟨List.prefix_refl _, List.prefix_refl _, List.prefix_refl _⟩

theorem envExt_trans {a b c : Env} (h1 : EnvExt a b) (h2 : EnvExt b c) : EnvExt a c :=
  ⟨h1.1.trans h2.1, h1.2.1.trans h2.2.1, h1.2.2.trans h2.2.2⟩

theorem filenameStr_mono {e e' : Env} (hext : EnvExt e e') {f : Filename}
    (hf : f < e.filenameTable.length) : e'.filenameStr f = e.filenameStr f := by
  rw [Env.filenameStr, Env.filenameStr, prefix_get?_eq hext.2.1 hf]

theorem resolveSpan_mono {e e' : Env} (hext : EnvExt e e') (hwf : EWF e)
    (s : Span) (hs : s < e.spanTable.length) : e'.resolveSpan s = e.resolveSpan s := by
  induction s using Nat.strong_induction_on with
  | _ s ih =>
    have hget : e'.spanTable.get? s = e.spanTable.get? s := prefix_get?_eq hext.1 hs
    rw [Env.resolveSpan, Env.resolveSpan, hget]
    cases hentry : e.spanTable.get? s with
    | none => rfl
    | some ss =>
      cases ss with
      | Loaded f line =>
        have hok := hwf s hs
        rw [Env.lookupSpanStorage, hentry] at hok
        simp only [Option.getD_some, spanEntryOK, decide_eq_true_eq] at hok
        simp only [filenameStr_mono hext hok]
      | Expanded sym a b =>
        by_cases hab : a < s ∧ b < s
        · simp only [dif_pos hab]
          rw [ih a hab.1 (lt_trans hab.1 hs), ih b hab.2 (lt_trans hab.2 hs)]
        · simp only [dif_neg hab]
      | Generated => rfl

theorem spanWFB_iff (e : Env) : e.spanWFB = true ↔ EWF e := by
  simp only [Env.spanWFB, List.all_eq_true, List.mem_range, EWF]

theorem denseTableOKB_iff (fnLen : Nat) (tbl : List DenseSpanStorage) :
    denseTableOKB fnLen tbl = true ↔ DTWF fnLen tbl := by
  simp only [denseTableOKB, List.all_eq_true, List.mem_range, DTWF]

/-! ### Encoder invariant: the individual conversion steps -/

theorem Inv_init (env : Env) : Inv env DenseConverter.init := by
  refine ⟨?_, ?_, ?_, rfl, rfl, ?_, ?_, ?_, ?_, ?_⟩ <;>
    simp [NDK, keysOf, DenseConverter.init, DTWF]

theorem keysOf_cons (k v : Nat) (m : List (Nat × Nat)) :
    keysOf ((k, v) :: m) = k :: keysOf m := rfl

theorem NDK_cons {m : List (Nat × Nat)} {k v : Nat} (hnd : NDK m)
    (hk : k ∉ keysOf m) : NDK ((k, v) :: m) := by
  simp only [NDK, keysOf_cons, List.nodup_cons]
  exact ⟨hk, hnd⟩

/-- Two bindings sharing a value in a value-nodup map share their key. -/
theorem snd_nodup_inj {m : List (Nat × Nat)} (hnd : (m.map Prod.snd).Nodup)
    {k1 k2 v : Nat} (h1 : (k1, v) ∈ m) (h2 : (k2, v) ∈ m) : k1 = k2 := by
  induction m with
  | nil => cases h1
  | cons p rest ih =>
    simp only [List.map_cons, List.nodup_cons] at hnd
    cases h1 with
    | head =>
      cases h2 with
      | head => rfl
      | tail _ hm => exact absurd (List.mem_map_of_mem Prod.snd hm) hnd.1
    | tail _ hm1 =>
      cases h2 with
      | head => exact absurd (List.mem_map_of_mem Prod.snd hm1) hnd.1
      | tail _ hm2 => exact ih hnd.2 hm1 hm2

theorem DTWF_push {fnLen fnLen' : Nat} {tbl : List DenseSpanStorage}
    {entry : DenseSpanStorage} (hwf : DTWF fnLen tbl) (hle : fnLen ≤ fnLen')
    (hentry : denseEntryOK fnLen' tbl.length entry = true) :
    DTWF fnLen' (tbl ++ [entry]) := by
  intro i hi
  simp only [List.length_append, List.length_singleton] at hi
  by_cases hlt : i < tbl.length
  · rw [prefix_get?_eq (List.prefix_append _ _) hlt]
    exact denseEntryOK_mono hle _ (hwf i hlt)
  · have hieq : i = tbl.length := by omega
    subst hieq
    rw [List.get?_concat_length]
    exact hentry

theorem fromFilename_spec (env : Env) (f : Filename) (c : DenseConverter)
    (hInv : Inv env c) (hb : Bnd (fromFilename env f c).2) :
    Inv env (fromFilename env f c).2 ∧
    lookupA (fromFilename env f c).2.filename_map f = some (fromFilename env f c).1 ∧
    (fromFilename env f c).2.span_map = c.span_map ∧
    (fromFilename env f c).2.span_storage = c.span_storage ∧
    (fromFilename env f c).2.stay_map = c.stay_map := by
  cases hl : lookupA c.filename_map f with
  | some d =>
    simp only [fromFilename, hl]
    exact ⟨hInv, trivial, trivial, trivial, trivial⟩
  | none =>
    simp only [fromFilename, hl] at hb ⊢
    have hlen : c.filename_storage.length < n32 := by
      have := hb.2.1
      simp only [List.length_append, List.length_singleton] at this
      omega
    have hd : u32cast ((c.filename_storage ++ [env.filenameStr f]).length - 1) =
        c.filename_storage.length := by
      simp only [List.length_append, List.length_singleton, Nat.add_sub_cancel]
      exact u32cast_eq hlen
    simp only [hd]
    have hfnotin : f ∉ keysOf c.filename_map := not_mem_of_lookupA_none hl
    refine ⟨⟨hInv.ndkS, NDK_cons hInv.ndkF hfnotin, hInv.ndkT, hInv.lenS, ?_, ?_,
      ?_, ?_, hInv.stayLt, hInv.stayNd⟩, ?_, trivial, trivial, trivial⟩
    · have hlf := hInv.lenF
      simp only [List.length_append, List.length_singleton, List.length_nil, List.length_cons]
      omega
    · intro i hi
      refine denseEntryOK_mono ?_ _ (hInv.wf i hi)
      simp only [List.length_append]
      omega
    · intro p hp
      have hold := hInv.spanRes p hp
      refine ⟨hold.1, ?_⟩
      rw [resolveD_mono (List.prefix_append _ _) (List.prefix_refl _) hInv.wf p.2 hold.1]
      exact hold.2
    · intro p hp
      cases hp with
      | head =>
        refine ⟨by simp, ?_⟩
        exact List.get?_concat_length _ _
      | tail _ hm =>
        have hold := hInv.fnRes p hm
        refine ⟨by simp only [List.length_append, List.length_singleton]
                   exact Nat.lt_succ_of_lt hold.1, ?_⟩
        rw [prefix_get?_eq (List.prefix_append _ _) hold.1]
        exact hold.2
    · simp [lookupA]

theorem fromStay_spec (env : Env) (s : StayId) (c : DenseConverter)
    (hInv : Inv env c) (hb : Bnd (fromStay s c).2) :
    Inv env (fromStay s c).2 ∧
    lookupA (fromStay s c).2.stay_map s = some (fromStay s c).1 ∧
    (fromStay s c).2.span_map = c.span_map ∧
    (fromStay s c).2.span_storage = c.span_storage ∧
    (fromStay s c).2.filename_map = c.filename_map ∧
    (fromStay s c).2.filename_storage = c.filename_storage := by
  cases hl : lookupA c.stay_map s with
  | some d =>
    simp only [fromStay, hl]
    exact ⟨hInv, trivial, trivial, trivial, trivial, trivial⟩
  | none =>
    simp only [fromStay, hl] at hb ⊢
    have hlen : c.stay_map.length < n32 := by
      have := hb.2.2
      simp only [List.length_cons] at this
      omega
    have hd : u32cast c.stay_map.length = c.stay_map.length := u32cast_eq hlen
    simp only [hd]
    have hsnotin : s ∉ keysOf c.stay_map := not_mem_of_lookupA_none hl
    refine ⟨⟨hInv.ndkS, hInv.ndkF, NDK_cons hInv.ndkT hsnotin, hInv.lenS, hInv.lenF,
      hInv.wf, hInv.spanRes, hInv.fnRes, ?_, ?_⟩, ?_, trivial, trivial, trivial, trivial⟩
    · intro p hp
      cases hp with
      | head => simp
      | tail _ hm =>
        have hlt := hInv.stayLt p hm
        simp only [List.length_cons]
        exact Nat.lt_succ_of_lt hlt
    · simp only [List.map_cons, List.nodup_cons]
      refine ⟨?_, hInv.stayNd⟩
      intro hmem
      simp only [List.mem_map] at hmem
      obtain ⟨p, hp, hpv⟩ := hmem
      have hlt := hInv.stayLt p hp
      rw [hpv] at hlt
      exact lt_irrefl _ hlt
    · simp [lookupA]

/-- Appending a fresh span-table entry (with its memo binding) preserves the
encoder invariant, provided the entry is decodable at its index and resolves
to the original span's location. -/
theorem spanPush_inv (env : Env) (s : Span) (c1 : DenseConverter)
    (entry : DenseSpanStorage) (hInv1 : Inv env c1) (hkeys : s ∉ keysOf c1.span_map)
    (hok : denseEntryOK c1.filename_storage.length c1.span_storage.length entry = true)
    (hres : resolveD c1.filename_storage (c1.span_storage ++ [entry])
        c1.span_storage.length = env.resolveSpan s)
    (hblen : c1.span_storage.length < n32) :
    Inv env { c1 with span_storage := c1.span_storage ++ [entry],
                      span_map := (s, u32cast c1.span_storage.length) :: c1.span_map } := by
  rw [u32cast_eq hblen]
  refine ⟨NDK_cons hInv1.ndkS hkeys, hInv1.ndkF, hInv1.ndkT, ?_, hInv1.lenF,
    DTWF_push hInv1.wf (le_refl _) hok, ?_, hInv1.fnRes, hInv1.stayLt, hInv1.stayNd⟩
  · have hls := hInv1.lenS
    simp only [List.length_append, List.length_singleton, List.length_nil,
      List.length_cons]
    omega
  · intro p hp
    cases hp with
    | head =>
      refine ⟨by simp, hres⟩
    | tail _ hm =>
      have hold := hInv1.spanRes p hm
      refine ⟨by simp only [List.length_append, List.length_singleton]
                 exact Nat.lt_succ_of_lt hold.1, ?_⟩
      rw [resolveD_mono (List.prefix_refl _) (List.prefix_append _ _) hInv1.wf
        p.2 hold.1]
      exact hold.2

theorem not_mem_keys_of_le {pre : List (Nat × Nat)} {bound s : Nat}
    (hk : ∀ p ∈ pre, p.1 ≤ bound) (hlt : bound < s) : s ∉ keysOf pre := by
  intro hmem
  simp only [keysOf, List.mem_map] at hmem
  obtain ⟨p, hp, hps⟩ := hmem
  have := hk p hp
  omega

theorem fromSpanGo_spec (env : Env) (hwf : EWF env) (fuel : Nat) :
    ∀ (s : Span) (c : DenseConverter), s < fuel → Inv env c →
    Bnd (fromSpanGo env fuel s c).2 →
    Inv env (fromSpanGo env fuel s c).2 ∧
    lookupA (fromSpanGo env fuel s c).2.span_map s = some (fromSpanGo env fuel s c).1 ∧
    (∃ pre, (fromSpanGo env fuel s c).2.span_map = pre ++ c.span_map ∧
      ∀ p ∈ pre, p.1 ≤ s) ∧
    (fromSpanGo env fuel s c).2.stay_map = c.stay_map := by
  induction fuel with
  | zero => exact fun s c hs => absurd hs (Nat.not_lt_zero s)
  | succ fuel ih =>
    intro s c hs hInv hb
    cases hl : lookupA c.span_map s with
    | some d =>
      rw [fromSpanGo]
      simp only [hl]
      exact ⟨hInv, trivial, ⟨[], by simp, by simp⟩, trivial⟩
    | none =>
      rw [fromSpanGo] at hb ⊢
      simp only [hl] at hb ⊢
      cases hst : env.spanTable.get? s with
      | none =>
        simp only [hst, List.length_append, List.length_singleton,
          Nat.add_sub_cancel] at hb ⊢
        have hblen : c.span_storage.length < n32 := by
          have h1 := hb.1
          simp only [List.length_append, List.length_singleton] at h1
          omega
        refine ⟨?_, by simp [lookupA], ⟨[(s, u32cast c.span_storage.length)],
          by simp, by simp⟩, trivial⟩
        refine spanPush_inv env s c DenseSpanStorage.Generated hInv
          (not_mem_of_lookupA_none hl) rfl ?_ hblen
        rw [resolveD, List.get?_concat_length, Env.resolveSpan, hst]
      | some ss =>
        cases ss with
        | Generated =>
          simp only [hst, List.length_append, List.length_singleton,
            Nat.add_sub_cancel] at hb ⊢
          have hblen : c.span_storage.length < n32 := by
            have h1 := hb.1
            simp only [List.length_append, List.length_singleton] at h1
            omega
          refine ⟨?_, by simp [lookupA], ⟨[(s, u32cast c.span_storage.length)],
            by simp, by simp⟩, trivial⟩
          refine spanPush_inv env s c DenseSpanStorage.Generated hInv
            (not_mem_of_lookupA_none hl) rfl ?_ hblen
          rw [resolveD, List.get?_concat_length, Env.resolveSpan, hst]
        | Loaded f line =>
          simp only [hst, List.length_append, List.length_singleton,
            Nat.add_sub_cancel] at hb ⊢
          have hssq : (fromFilename env f c).2.span_storage = c.span_storage := by
            rw [fromFilename]
            cases lookupA c.filename_map f <;> rfl
          have hblen : (fromFilename env f c).2.span_storage.length < n32 := by
            have h1 := hb.1
            simp only [List.length_append, List.length_singleton] at h1
            omega
          have hbq : Bnd (fromFilename env f c).2 := ⟨le_of_lt hblen, hb.2.1, hb.2.2⟩
          obtain ⟨hInvq, hlkq, hsmq, hssq2, hstq⟩ := fromFilename_spec env f c hInv hbq
          have hq1 := hInvq.fnRes _ (lookupA_mem hlkq)
          refine ⟨?_, by simp [lookupA], ⟨[(s, u32cast (fromFilename env f c).2.span_storage.length)],
            by rw [hsmq]; rfl, by simp⟩, by rw [hstq]⟩
          refine spanPush_inv env s (fromFilename env f c).2 _ hInvq
            (by rw [hsmq]; exact not_mem_of_lookupA_none hl)
            (by simpa [denseEntryOK] using hq1.1) ?_ hblen
          rw [resolveD, List.get?_concat_length, Env.resolveSpan, hst]
          simp only [hq1.2, Option.getD_some]
        | Expanded sym a b =>
          by_cases hab : a < s ∧ b < s
          · have ha : a < fuel := Nat.lt_of_lt_of_le hab.1 (Nat.lt_succ_iff.mp hs)
            have hbf : b < fuel := Nat.lt_of_lt_of_le hab.2 (Nat.lt_succ_iff.mp hs)
            simp only [hst, if_pos hab, List.length_append, List.length_singleton,
              Nat.add_sub_cancel] at hb ⊢
            have hblen :
                (fromSpanGo env fuel b (fromSpanGo env fuel a c).2).2.span_storage.length < n32 := by
              have h1 := hb.1
              simp only [List.length_append, List.length_singleton] at h1
              omega
            have hbq1 : Bnd (fromSpanGo env fuel b (fromSpanGo env fuel a c).2).2 :=
              ⟨le_of_lt hblen, hb.2.1, hb.2.2⟩
            have hbq0 : Bnd (fromSpanGo env fuel a c).2 :=
              convExt_bnd (fromSpanGo_ext env fuel b (fromSpanGo env fuel a c).2) hbq1
            obtain ⟨hInv0, hlk0, hpre0E, hst0⟩ := ih a c ha hInv hbq0
            obtain ⟨hInv1, hlk1, hpre1E, hst1⟩ := ih b _ hbf hInv0 hbq1
            obtain ⟨pre0, hpre0, hk0⟩ := hpre0E
            obtain ⟨pre1, hpre1, hk1⟩ := hpre1E
            have hsp0 := hInv0.spanRes _ (lookupA_mem hlk0)
            have hsp1 := hInv1.spanRes _ (lookupA_mem hlk1)
            have ext01 : ConvExt (fromSpanGo env fuel a c).2
                (fromSpanGo env fuel b (fromSpanGo env fuel a c).2).2 :=
              fromSpanGo_ext env fuel b (fromSpanGo env fuel a c).2
            have bnd0 : (fromSpanGo env fuel a c).1 <
                (fromSpanGo env fuel b (fromSpanGo env fuel a c).2).2.span_storage.length :=
              Nat.lt_of_lt_of_le hsp0.1 ext01.1.length_le
            have hkeys : s ∉ keysOf (fromSpanGo env fuel b (fromSpanGo env fuel a c).2).2.span_map := by
              intro hmem
              rw [hpre1, hpre0] at hmem
              simp only [keysOf, List.map_append, List.mem_append] at hmem
              rcases hmem with h | h | h
              · exact not_mem_keys_of_le hk1 hab.2 h
              · exact not_mem_keys_of_le hk0 hab.1 h
              · exact not_mem_of_lookupA_none hl h
            refine ⟨?_, by simp [lookupA],
              ⟨(s, u32cast (fromSpanGo env fuel b (fromSpanGo env fuel a c).2).2.span_storage.length) ::
                (pre1 ++ pre0), by rw [hpre1, hpre0]; simp, ?_⟩,
              by rw [hst1, hst0]⟩
            · refine spanPush_inv env s (fromSpanGo env fuel b (fromSpanGo env fuel a c).2).2 _ hInv1
                hkeys (by simp [denseEntryOK, bnd0, hsp1.1]) ?_ hblen
              rw [resolveD, List.get?_concat_length]
              have hg : (fromSpanGo env fuel a c).1 <
                  (fromSpanGo env fuel b (fromSpanGo env fuel a c).2).2.span_storage.length ∧
                  (fromSpanGo env fuel b (fromSpanGo env fuel a c).2).1 <
                  (fromSpanGo env fuel b (fromSpanGo env fuel a c).2).2.span_storage.length :=
                ⟨bnd0, hsp1.1⟩
              simp only [dif_pos hg]
              have hres0 : resolveD (fromSpanGo env fuel b (fromSpanGo env fuel a c).2).2.filename_storage
                  ((fromSpanGo env fuel b (fromSpanGo env fuel a c).2).2.span_storage ++
                    [DenseSpanStorage.Expanded sym (fromSpanGo env fuel a c).1
                      (fromSpanGo env fuel b (fromSpanGo env fuel a c).2).1])
                  (fromSpanGo env fuel a c).1 = env.resolveSpan a := by
                rw [resolveD_mono ext01.2.1 (ext01.1.trans (List.prefix_append _ _))
                  hInv0.wf _ hsp0.1]
                exact hsp0.2
              have hres1 : resolveD (fromSpanGo env fuel b (fromSpanGo env fuel a c).2).2.filename_storage
                  ((fromSpanGo env fuel b (fromSpanGo env fuel a c).2).2.span_storage ++
                    [DenseSpanStorage.Expanded sym (fromSpanGo env fuel a c).1
                      (fromSpanGo env fuel b (fromSpanGo env fuel a c).2).1])
                  (fromSpanGo env fuel b (fromSpanGo env fuel a c).2).1 = env.resolveSpan b := by
                rw [resolveD_mono (List.prefix_refl _) (List.prefix_append _ _)
                  hInv1.wf _ hsp1.1]
                exact hsp1.2
              rw [hres0, hres1]
              conv_rhs => rw [Env.resolveSpan, hst]
              simp only [dif_pos hab]
            · intro p hp
              cases hp with
              | head => exact le_refl s
              | tail _ hm =>
                rcases List.mem_append.mp hm with hm1 | hm0
                · exact le_trans (hk1 p hm1) (le_of_lt hab.2)
                · exact le_trans (hk0 p hm0) (le_of_lt hab.1)
          · exfalso
            have hslen : s < env.spanTable.length := by
              by_contra hge
              rw [List.get?_eq_none.mpr (Nat.le_of_not_lt hge)] at hst
              cases hst
            have hok := hwf s hslen
            rw [Env.lookupSpanStorage, hst] at hok
            simp only [Option.getD_some, spanEntryOK, Bool.and_eq_true,
              decide_eq_true_eq] at hok
            exact hab hok

theorem fromSpan_spec (env : Env) (hwf : EWF env) (s : Span) (c : DenseConverter)
    (hInv : Inv env c) (hb : Bnd (fromSpan env s c).2) :
    Inv env (fromSpan env s c).2 ∧
    lookupA (fromSpan env s c).2.span_map s = some (fromSpan env s c).1 ∧
    (∃ pre, (fromSpan env s c).2.span_map = pre ++ c.span_map ∧
      ∀ p ∈ pre, p.1 ≤ s) ∧
    (fromSpan env s c).2.stay_map = c.stay_map :=
  fromSpanGo_spec env hwf (s + 1) s c (Nat.lt_succ_self s) hInv hb

/-! ### Correspondence is stable under converter growth -/

theorem ssCorr_mono {m m' : List (Nat × Nat)} (hs : m <:+ m') (hnd : NDK m')
    {ss : StaySource} {dss : DenseStaySource}
    (h : ssCorrB m ss dss = true) : ssCorrB m' ss dss = true := by
  cases ss <;> cases dss <;> simp_all [ssCorrB]
  exact lookupA_suffix hs hnd h

mutual
theorem bcorr_mono (c c' : DenseConverter) (hext : ConvExt c c')
    (hndS : NDK c'.span_map) (hndT : NDK c'.stay_map)
    (b : Bytecode) (db : DenseBytecode) (h : bcorrB c b db = true) :
    bcorrB c' b db = true := by
  cases b with
  | mk instrs spans regs stays lc sc litc lambdas defers =>
    cases db with
    | mk instrs2 spans2 regs2 stays2 lc2 sc2 litc2 lambdas2 defers2 =>
      simp only [bcorrB, Bool.and_eq_true, List.all_eq_true, decide_eq_true_eq] at h ⊢
      obtain ⟨⟨⟨⟨⟨⟨⟨⟨⟨⟨h1, h2⟩, h3⟩, h4⟩, h5⟩, h6⟩, h7⟩, h8⟩, h9⟩, h10⟩, h11⟩ := h
      refine ⟨⟨⟨⟨⟨⟨⟨⟨⟨⟨h1, h2⟩, ?_⟩, h4⟩, h5⟩, ?_⟩, h7⟩, h8⟩, h9⟩,
        lcorr_mono c c' hext hndS hndT lambdas lambdas2 h10⟩, h11⟩
      · intro p hp
        exact lookupA_suffix hext.2.2.1 hndS (h3 p hp)
      · intro p hp
        exact ssCorr_mono hext.2.2.2.2 hndT (h6 p hp)

theorem lcorr_mono (c c' : DenseConverter) (hext : ConvExt c c')
    (hndS : NDK c'.span_map) (hndT : NDK c'.stay_map)
    (ls : List Lambda) (dls : List DenseLambda) (h : lcorrB c ls dls = true) :
    lcorrB c' ls dls = true := by
  cases ls with
  | nil => cases dls with
    | nil => rfl
    | cons _ _ => simp [lcorrB] at h
  | cons l rest =>
    cases dls with
    | nil => simp [lcorrB] at h
    | cons dl rest2 =>
      simp only [lcorrB, Bool.and_eq_true] at h ⊢
      exact ⟨lamCorr_mono c c' hext hndS hndT l dl h.1,
        lcorr_mono c c' hext hndS hndT rest rest2 h.2⟩

theorem lamCorr_mono (c c' : DenseConverter) (hext : ConvExt c c')
    (hndS : NDK c'.span_map) (hndT : NDK c'.stay_map)
    (l : Lambda) (dl : DenseLambda) (h : lamCorrB c l dl = true) :
    lamCorrB c' l dl = true := by
  cases l with
  | mk bytecode pm name captures yields =>
    cases dl with
    | mk bytecode2 pm2 name2 captures2 yields2 =>
      simp only [lamCorrB, Bool.and_eq_true] at h ⊢
      exact ⟨⟨⟨⟨bcorr_mono c c' hext hndS hndT bytecode bytecode2 h.1.1.1.1,
        h.1.1.1.2⟩, h.1.1.2⟩, h.1.2⟩, h.2⟩
end

theorem actionCorr_mono (c c' : DenseConverter) (hext : ConvExt c c')
    (hndS : NDK c'.span_map) (hndF : NDK c'.filename_map) (hndT : NDK c'.stay_map)
    (a : Action) (da : DenseAction) (h : actionCorrB c a da = true) :
    actionCorrB c' a da = true := by
  cases a <;> cases da <;> simp_all [actionCorrB]
  · exact bcorr_mono c c' hext hndS hndT _ _ h
  · exact lookupA_suffix hext.2.2.2.2 hndT h
  · exact lookupA_suffix hext.2.2.2.1 hndF h

/-! ### The encoder produces corresponding dense structures -/

theorem fromStaySource_spec (env : Env) (ss : StaySource) (c : DenseConverter)
    (hInv : Inv env c) (hb : Bnd (fromStaySource ss c).2) :
    Inv env (fromStaySource ss c).2 ∧
    ssCorrB (fromStaySource ss c).2.stay_map ss (fromStaySource ss c).1 = true := by
  cases ss with
  | Empty => exact ⟨hInv, rfl⟩
  | Param id => exact ⟨hInv, by simp [fromStaySource, ssCorrB]⟩
  | Captured id => exact ⟨hInv, by simp [fromStaySource, ssCorrB]⟩
  | PreExisting s =>
    obtain ⟨hInv2, hlk, -, -, -, -⟩ := fromStay_spec env s c hInv hb
    exact ⟨hInv2, by simp [fromStaySource, ssCorrB, hlk]⟩

theorem mapState_fromSpan_spec (env : Env) (hwf : EWF env) (xs : List Span)
    (c : DenseConverter) (hInv : Inv env c)
    (hb : Bnd (mapState (fromSpan env) xs c).2) :
    Inv env (mapState (fromSpan env) xs c).2 ∧
    (mapState (fromSpan env) xs c).1.length = xs.length ∧
    (∀ p ∈ xs.zip (mapState (fromSpan env) xs c).1,
      lookupA (mapState (fromSpan env) xs c).2.span_map p.1 = some p.2) ∧
    (mapState (fromSpan env) xs c).2.stay_map = c.stay_map := by
  induction xs generalizing c with
  | nil => exact ⟨hInv, rfl, by simp, rfl⟩
  | cons x rest ih =>
    rw [mapState] at hb ⊢
    have hbp : Bnd (fromSpan env x c).2 :=
      convExt_bnd (mapState_convExt _ (fromSpan_ext env) rest (fromSpan env x c).2) hb
    obtain ⟨hInvp, hlkp, -, hstp⟩ := fromSpan_spec env hwf x c hInv hbp
    obtain ⟨hInvq, hlen, hlks, hstq⟩ := ih (fromSpan env x c).2 hInvp hb
    refine ⟨hInvq, by simp [hlen], ?_, by rw [hstq, hstp]⟩
    intro p hp
    rw [List.zip_cons_cons] at hp
    cases hp with
    | head =>
      exact lookupA_suffix
        (mapState_convExt _ (fromSpan_ext env) rest (fromSpan env x c).2).2.2.1
        hInvq.ndkS hlkp
    | tail _ hm => exact hlks p hm

theorem mapState_fromSS_spec (env : Env) (xs : List StaySource)
    (c : DenseConverter) (hInv : Inv env c)
    (hb : Bnd (mapState fromStaySource xs c).2) :
    Inv env (mapState fromStaySource xs c).2 ∧
    (mapState fromStaySource xs c).1.length = xs.length ∧
    (∀ p ∈ xs.zip (mapState fromStaySource xs c).1,
      ssCorrB (mapState fromStaySource xs c).2.stay_map p.1 p.2 = true) := by
  induction xs generalizing c with
  | nil => exact ⟨hInv, rfl, by simp⟩
  | cons x rest ih =>
    rw [mapState] at hb ⊢
    have hbp : Bnd (fromStaySource x c).2 :=
      convExt_bnd (mapState_convExt _ fromStaySource_ext rest (fromStaySource x c).2) hb
    obtain ⟨hInvp, hcorr⟩ := fromStaySource_spec env x c hInv hbp
    obtain ⟨hInvq, hlen, hcorrs⟩ := ih (fromStaySource x c).2 hInvp hb
    refine ⟨hInvq, by simp [hlen], ?_⟩
    intro p hp
    rw [List.zip_cons_cons] at hp
    cases hp with
    | head =>
      exact ssCorr_mono
        (mapState_convExt _ fromStaySource_ext rest (fromStaySource x c).2).2.2.2.2
        hInvq.ndkT hcorr
    | tail _ hm => exact hcorrs p hm

mutual
theorem fromBytecode_spec (env : Env) (hwf : EWF env) (b : Bytecode)
    (c : DenseConverter) (hInv : Inv env c) (hb : Bnd (fromBytecode env b c).2) :
    Inv env (fromBytecode env b c).2 ∧
    bcorrB (fromBytecode env b c).2 b (fromBytecode env b c).1 = true := by
  cases b with
  | mk instrs spans regs stays lc sc litc lambdas defers =>
    rw [fromBytecode] at hb ⊢
    have hb2 : Bnd (mapState fromStaySource stays (mapState (fromSpan env) spans c).2).2 :=
      convExt_bnd (fromLambdaList_ext env lambdas _) hb
    have hb1 : Bnd (mapState (fromSpan env) spans c).2 :=
      convExt_bnd (mapState_convExt _ fromStaySource_ext stays _) hb2
    obtain ⟨hInv1, hlen1, hlks, hst1⟩ := mapState_fromSpan_spec env hwf spans c hInv hb1
    obtain ⟨hInv2, hlen2, hcorrs⟩ := mapState_fromSS_spec env stays _ hInv1 hb2
    obtain ⟨hInv3, hlcorr⟩ := fromLambdaList_spec env hwf lambdas _ hInv2 hb
    have hext23 : ConvExt (mapState fromStaySource stays
        (mapState (fromSpan env) spans c).2).2
        (fromLambdaList env lambdas (mapState fromStaySource stays
          (mapState (fromSpan env) spans c).2).2).2 :=
      fromLambdaList_ext env lambdas _
    have hext13 : ConvExt (mapState (fromSpan env) spans c).2
        (fromLambdaList env lambdas (mapState fromStaySource stays
          (mapState (fromSpan env) spans c).2).2).2 :=
      convExt_trans (mapState_convExt _ fromStaySource_ext stays _) hext23
    refine ⟨hInv3, ?_⟩
    simp only [bcorrB, Bool.and_eq_true, List.all_eq_true, decide_eq_true_eq]
    refine ⟨⟨⟨⟨⟨⟨⟨⟨⟨⟨trivial, hlen1.symm⟩, ?_⟩, trivial⟩, hlen2.symm⟩, ?_⟩, trivial⟩,
      trivial⟩, trivial⟩, hlcorr⟩, trivial⟩
    · intro p hp
      exact lookupA_suffix hext13.2.2.1 hInv3.ndkS (hlks p hp)
    · intro p hp
      exact ssCorr_mono hext23.2.2.2.2 hInv3.ndkT (hcorrs p hp)

theorem fromLambdaList_spec (env : Env) (hwf : EWF env) (ls : List Lambda)
    (c : DenseConverter) (hInv : Inv env c) (hb : Bnd (fromLambdaList env ls c).2) :
    Inv env (fromLambdaList env ls c).2 ∧
    lcorrB (fromLambdaList env ls c).2 ls (fromLambdaList env ls c).1 = true := by
  cases ls with
  | nil => exact ⟨hInv, rfl⟩
  | cons l rest =>
    rw [fromLambdaList] at hb ⊢
    have hbp : Bnd (fromLambda env l c).2 :=
      convExt_bnd (fromLambdaList_ext env rest (fromLambda env l c).2) hb
    obtain ⟨hInvp, hcorr⟩ := fromLambda_spec env hwf l c hInv hbp
    obtain ⟨hInvq, hcorrs⟩ := fromLambdaList_spec env hwf rest (fromLambda env l c).2 hInvp hb
    refine ⟨hInvq, ?_⟩
    simp only [lcorrB, Bool.and_eq_true]
    exact ⟨lamCorr_mono _ _ (fromLambdaList_ext env rest (fromLambda env l c).2)
      hInvq.ndkS hInvq.ndkT l _ hcorr, hcorrs⟩

theorem fromLambda_spec (env : Env) (hwf : EWF env) (l : Lambda)
    (c : DenseConverter) (hInv : Inv env c) (hb : Bnd (fromLambda env l c).2) :
    Inv env (fromLambda env l c).2 ∧
    lamCorrB (fromLambda env l c).2 l (fromLambda env l c).1 = true := by
  cases l with
  | mk bytecode pm name captures yields =>
    rw [fromLambda] at hb ⊢
    obtain ⟨hInv2, hcorr⟩ := fromBytecode_spec env hwf bytecode c hInv hb
    exact ⟨hInv2, by simp [lamCorrB, hcorr]⟩
end

theorem fromAction_spec (env : Env) (hwf : EWF env) (a : Action)
    (c : DenseConverter) (hInv : Inv env c) (hb : Bnd (fromAction env a c).2) :
    Inv env (fromAction env a c).2 ∧
    actionCorrB (fromAction env a c).2 a (fromAction env a c).1 = true := by
  cases a with
  | Execute b =>
    obtain ⟨hInv2, hcorr⟩ := fromBytecode_spec env hwf b c hInv hb
    exact ⟨hInv2, by simp [fromAction, actionCorrB, hcorr]⟩
  | ToplevelLet s =>
    obtain ⟨hInv2, hlk, -, -, -, -⟩ := fromStay_spec env s c hInv hb
    exact ⟨hInv2, by simp [fromAction, actionCorrB, hlk]⟩
  | StartLoad f =>
    obtain ⟨hInv2, hlk, -, -, -⟩ := fromFilename_spec env f c hInv hb
    exact ⟨hInv2, by simp [fromAction, actionCorrB, hlk]⟩
  | EndLoad => exact ⟨hInv, rfl⟩

theorem mapState_fromAction_spec (env : Env) (hwf : EWF env) (xs : List Action)
    (c : DenseConverter) (hInv : Inv env c)
    (hb : Bnd (mapState (fromAction env) xs c).2) :
    Inv env (mapState (fromAction env) xs c).2 ∧
    actionsCorrB (mapState (fromAction env) xs c).2 xs
      (mapState (fromAction env) xs c).1 = true := by
  induction xs generalizing c with
  | nil => exact ⟨hInv, rfl⟩
  | cons a rest ih =>
    rw [mapState] at hb ⊢
    have hbp : Bnd (fromAction env a c).2 :=
      convExt_bnd (mapState_convExt _ (fromAction_ext env) rest (fromAction env a c).2) hb
    obtain ⟨hInvp, hcorr⟩ := fromAction_spec env hwf a c hInv hbp
    obtain ⟨hInvq, hcorrs⟩ := ih (fromAction env a c).2 hInvp hb
    refine ⟨hInvq, ?_⟩
    simp only [actionsCorrB, Bool.and_eq_true]
    exact ⟨actionCorr_mono _ _
      (mapState_convExt _ (fromAction_ext env) rest (fromAction env a c).2)
      hInvq.ndkS hInvq.ndkF hInvq.ndkT a _ hcorr, hcorrs⟩

/-- The size-validity of the encoded chunk bounds the final converter. -/
theorem validB_bnd (env : Env) (r : Recording)
    (hch : (encodeChunk env r).validB = true) : Bnd (finalConv env r) := by
  simp only [Chunk.validB, Bool.and_eq_true, decide_eq_true_eq] at hch
  exact ⟨hch.1.1.2, hch.1.2, hch.2⟩

/-- Summary of the encoder run: the invariant holds of the final converter
and every action corresponds to its dense image through the final memo maps. -/
theorem encode_spec (env : Env) (hwf : EWF env) (r : Recording)
    (hch : (encodeChunk env r).validB = true) :
    Inv env (finalConv env r) ∧
    actionsCorrB (finalConv env r) r.actions (encodeChunk env r).actions = true := by
  have hb : Bnd (finalConv env r) := validB_bnd env r hch
  exact mapState_fromAction_spec env hwf r.actions DenseConverter.init
    (Inv_init env) hb

/-! ### Decoder: registration into the process-wide tables -/

theorem findIdx?_some_spec {α : Type} {p : α → Bool} {l : List α} {i : Nat}
    (h : l.findIdx? p = some i) :
    i < l.length ∧ ∃ x, l.get? i = some x ∧ p x = true := by
  have h2 := (List.findIdx?_eq_some_iff_findIdx_eq.mp h).1
  have h3 := (List.findIdx?_eq_some_iff_findIdx_eq.mp h).2
  refine ⟨h2, l.get ⟨i, h2⟩, by rw [List.get?_eq_get h2], ?_⟩
  subst h3
  exact List.findIdx_get

theorem spanEntryOK_mono {fnLen fnLen' i : Nat} (h : fnLen ≤ fnLen')
    (ss : SpanStorage) (hok : spanEntryOK fnLen i ss = true) :
    spanEntryOK fnLen' i ss = true := by
  cases ss with
  | Loaded f line =>
    simp only [spanEntryOK, decide_eq_true_eq] at hok ⊢
    exact Nat.lt_of_lt_of_le hok h
  | Expanded sym a b => exact hok
  | Generated => rfl

theorem registerFilename_spec (e : Env) (st : List Nat) :
    EnvExt e (e.registerFilename st).2 ∧
    (e.registerFilename st).1 < (e.registerFilename st).2.filenameTable.length ∧
    (e.registerFilename st).2.filenameStr (e.registerFilename st).1 = st ∧
    (e.registerFilename st).2.spanTable = e.spanTable ∧
    (e.registerFilename st).2.stayVals = e.stayVals := by
  rw [Env.registerFilename]
  cases hf : e.filenameTable.findIdx? (fun x => decide (x = st)) with
  | some i =>
    obtain ⟨hlt, x, hx, hpx⟩ := findIdx?_some_spec hf
    simp only [decide_eq_true_eq] at hpx
    refine ⟨envExt_refl e, hlt, ?_, rfl, rfl⟩
    rw [Env.filenameStr, hx, hpx]
    rfl
  | none =>
    refine ⟨⟨List.prefix_refl _, List.prefix_append _ _, List.prefix_refl _⟩,
      by simp, ?_, rfl, rfl⟩
    rw [Env.filenameStr]
    simp only [List.get?_concat_length]
    rfl

theorem EWF_of_filename_mono {e e' : Env} (hsp : e'.spanTable = e.spanTable)
    (hfn : e.filenameTable.length ≤ e'.filenameTable.length) (hwf : EWF e) :
    EWF e' := by
  intro i hi
  rw [hsp] at hi
  have := hwf i hi
  rw [Env.lookupSpanStorage, hsp]
  exact spanEntryOK_mono hfn _ this

theorem registerSpan_spec (e : Env) (ss : SpanStorage) (hwf : EWF e)
    (hok : spanEntryOK e.filenameTable.length e.spanTable.length ss = true) :
    EnvExt e (e.registerSpan ss).2 ∧ EWF (e.registerSpan ss).2 ∧
    (e.registerSpan ss).1 < (e.registerSpan ss).2.spanTable.length ∧
    (e.registerSpan ss).2.spanTable.get? (e.registerSpan ss).1 = some ss ∧
    (e.registerSpan ss).2.filenameTable = e.filenameTable ∧
    (e.registerSpan ss).2.stayVals = e.stayVals := by
  rw [Env.registerSpan]
  cases hf : e.spanTable.findIdx? (fun x => decide (x = ss)) with
  | some i =>
    obtain ⟨hlt, x, hx, hpx⟩ := findIdx?_some_spec hf
    simp only [decide_eq_true_eq] at hpx
    subst hpx
    exact ⟨envExt_refl e, hwf, hlt, hx, rfl, rfl⟩
  | none =>
    refine ⟨⟨List.prefix_append _ _, List.prefix_refl _, List.prefix_refl _⟩,
      ?_, by simp, by simp [List.get?_concat_length], rfl, rfl⟩
    intro i hi
    simp only [List.length_append, List.length_singleton] at hi
    rw [Env.lookupSpanStorage]
    by_cases hlt : i < e.spanTable.length
    · rw [prefix_get?_eq (List.prefix_append _ _) hlt]
      have := hwf i hlt
      rw [Env.lookupSpanStorage] at this
      exact this
    · have hieq : i = e.spanTable.length := by omega
      subst hieq
      rw [List.get?_concat_length]
      exact hok

theorem allocStay_spec (e : Env) :
    (e.allocStay).1 = e.stayVals.length ∧
    (e.allocStay).2 = { e with stayVals := e.stayVals ++ [none] } := ⟨rfl, rfl⟩

theorem mapState_registerFilename_spec (xs : List (List Nat)) (e : Env) :
    EnvExt e (mapState (fun st en => Env.registerFilename en st) xs e).2 ∧
    (mapState (fun st en => Env.registerFilename en st) xs e).1.length = xs.length ∧
    (∀ i, i < xs.length →
      ∃ fh, (mapState (fun st en => Env.registerFilename en st) xs e).1.get? i = some fh ∧
        fh < (mapState (fun st en => Env.registerFilename en st) xs e).2.filenameTable.length ∧
        (mapState (fun st en => Env.registerFilename en st) xs e).2.filenameStr fh =
          (xs.get? i).getD []) ∧
    (mapState (fun st en => Env.registerFilename en st) xs e).2.spanTable = e.spanTable ∧
    (mapState (fun st en => Env.registerFilename en st) xs e).2.stayVals = e.stayVals := by
  induction xs generalizing e with
  | nil =>
    refine ⟨envExt_refl e, rfl, ?_, rfl, rfl⟩
    intro i hi
    simp at hi
  | cons x rest ih =>
    rw [mapState]
    obtain ⟨hext1, hlt1, hstr1, hsp1, hsv1⟩ := registerFilename_spec e x
    obtain ⟨hext2, hlen2, hres2, hsp2, hsv2⟩ := ih (e.registerFilename x).2
    refine ⟨envExt_trans hext1 hext2, by simp [hlen2], ?_, by rw [hsp2, hsp1],
      by rw [hsv2, hsv1]⟩
    intro i hi
    cases i with
    | zero =>
      refine ⟨(e.registerFilename x).1, rfl,
        Nat.lt_of_lt_of_le hlt1 hext2.2.1.length_le, ?_⟩
      rw [filenameStr_mono hext2 hlt1, hstr1]
      rfl
    | succ j =>
      have hj : j < rest.length := by simpa using hi
      obtain ⟨fh, hget, hlt, hstr⟩ := hres2 j hj
      exact ⟨fh, hget, hlt, hstr⟩

theorem mapState_allocStay_spec (n : Nat) (e : Env) :
    (mapState (fun _ en => Env.allocStay en) (List.replicate n ()) e).1 =
      (List.range n).map (fun i => e.stayVals.length + i) ∧
    (mapState (fun _ en => Env.allocStay en) (List.replicate n ()) e).2 =
      { e with stayVals := e.stayVals ++ List.replicate n none } := by
  induction n generalizing e with
  | zero =>
    refine ⟨rfl, ?_⟩
    show e = _
    cases e
    simp
  | succ m ih =>
    rw [List.replicate_succ, mapState]
    obtain ⟨ih1, ih2⟩ := ih (Env.allocStay e).2
    constructor
    · rw [ih1]
      rw [List.range_succ_eq_map]
      simp only [Env.allocStay, List.length_append, List.length_singleton,
        List.map_cons, List.map_map, List.cons.injEq]
      refine ⟨(Nat.add_zero _).symm, ?_⟩
      apply List.map_congr_left
      intro i hi
      simp only [Function.comp_apply, Nat.succ_eq_add_one]
      ring
    · rw [ih2]
      simp only [Env.allocStay, List.replicate_succ]
      congr 1
      simp

theorem get?_append_cons {α : Type} (l1 : List α) (x : α) (l2 : List α) :
    (l1 ++ x :: l2).get? l1.length = some x := by
  rw [List.get?_eq_getElem?, List.getElem?_append_right (le_refl _)]
  simp

/-- The span-table loop of the decoder: given filename handles that resolve to
the chunk's strings and a forward-reference-free table, the loop succeeds and
every produced handle resolves to the dense resolution of its index. -/
theorem buildSpans_spec (env1 : Env) (fnsStrs : List (List Nat))
    (filenames : List Filename) (stays : List StayId)
    (hflen : filenames.length = fnsStrs.length)
    (hfil : ∀ i, i < fnsStrs.length → ∃ fh, filenames.get? i = some fh ∧
      fh < env1.filenameTable.length ∧
      env1.filenameStr fh = (fnsStrs.get? i).getD []) :
    ∀ (rest done : List DenseSpanStorage) (spans : List Span) (e : Env),
    DTWF fnsStrs.length (done ++ rest) →
    spans.length = done.length →
    EWF e → EnvExt env1 e →
    (∀ i, i < done.length → ∃ sh, spans.get? i = some sh ∧ sh < e.spanTable.length ∧
      e.resolveSpan sh = resolveD fnsStrs (done ++ rest) i) →
    ∃ spans2 e2, buildSpans filenames stays rest spans e = some (spans2, e2) ∧
      spans2.length = done.length + rest.length ∧ EWF e2 ∧ EnvExt env1 e2 ∧
      EnvExt e e2 ∧ e2.stayVals = e.stayVals ∧
      e2.filenameTable.length = e.filenameTable.length ∧
      (∀ i, i < spans2.length → ∃ sh, spans2.get? i = some sh ∧
        sh < e2.spanTable.length ∧
        e2.resolveSpan sh = resolveD fnsStrs (done ++ rest) i) := by
  intro rest
  induction rest with
  | nil =>
    intro done spans e hwfT hlen hwf hext hres
    exact ⟨spans, e, rfl, by simpa using hlen, hwf, hext, envExt_refl e, rfl, rfl,
      by rw [hlen]; exact hres⟩
  | cons ds rest' ih =>
    intro done spans e hwfT hlen hwf hext hres
    have hk : done.length < (done ++ ds :: rest').length := by
      simp only [List.length_append, List.length_cons]
      omega
    have hkentry : ((done ++ ds :: rest').get? done.length).getD
        DenseSpanStorage.Generated = ds := by
      rw [get?_append_cons]
      rfl
    have hkok := hwfT done.length hk
    rw [hkentry] at hkok
    have hassoc : done ++ ds :: rest' = (done ++ [ds]) ++ rest' := by simp
    have hconv : ∃ ss, toSpanStorage ⟨spans, filenames, stays⟩ ds = some ss ∧
        spanEntryOK e.filenameTable.length e.spanTable.length ss = true ∧
        ∀ e' , EWF e' → EnvExt e e' →
          ∀ h, e'.spanTable.get? h = some ss → h < e'.spanTable.length →
          e'.resolveSpan h = resolveD fnsStrs (done ++ ds :: rest') done.length := by
      cases ds with
      | Loaded df line =>
        simp only [denseEntryOK, decide_eq_true_eq] at hkok
        obtain ⟨fh, hfget, hfb, hfstr⟩ := hfil df hkok
        refine ⟨SpanStorage.Loaded fh line, ?_, ?_, ?_⟩
        · show ((filenames.get? df).map fun f => SpanStorage.Loaded f line) =
            some (SpanStorage.Loaded fh line)
          rw [hfget]
          rfl
        · simp only [spanEntryOK, decide_eq_true_eq]
          exact Nat.lt_of_lt_of_le hfb hext.2.1.length_le
        · intro e' hwf' hext' h hget hh
          rw [Env.resolveSpan, hget, resolveD, get?_append_cons]
          have hstr : e'.filenameStr fh = (fnsStrs.get? df).getD [] := by
            rw [filenameStr_mono (envExt_trans hext hext') hfb, hfstr]
          simp only [hstr]
      | Expanded sym da db =>
        simp only [denseEntryOK, Bool.and_eq_true, decide_eq_true_eq] at hkok
        obtain ⟨sha, hgeta, hba, hresa⟩ := hres da hkok.1
        obtain ⟨shb, hgetb, hbb, hresb⟩ := hres db hkok.2
        refine ⟨SpanStorage.Expanded sym sha shb, ?_, ?_, ?_⟩
        · show ((spans.get? da).bind fun a => (spans.get? db).map
              fun b => SpanStorage.Expanded sym a b) =
            some (SpanStorage.Expanded sym sha shb)
          rw [hgeta, hgetb]
          rfl
        · simp only [spanEntryOK, Bool.and_eq_true, decide_eq_true_eq]
          exact ⟨hba, hbb⟩
        · intro e' hwf' hext' h hget hh
          rw [Env.resolveSpan, hget]
          have hok' := hwf' h hh
          rw [Env.lookupSpanStorage, hget] at hok'
          simp only [Option.getD_some, spanEntryOK, Bool.and_eq_true,
            decide_eq_true_eq] at hok'
          have hra : e'.resolveSpan sha =
              resolveD fnsStrs (done ++ DenseSpanStorage.Expanded sym da db :: rest') da := by
            rw [resolveSpan_mono hext' hwf sha hba]
            exact hresa
          have hrb : e'.resolveSpan shb =
              resolveD fnsStrs (done ++ DenseSpanStorage.Expanded sym da db :: rest') db := by
            rw [resolveSpan_mono hext' hwf shb hbb]
            exact hresb
          rw [resolveD, get?_append_cons]
          simp only [dif_pos hok', dif_pos (And.intro hkok.1 hkok.2), hra, hrb]
      | Generated =>
        refine ⟨SpanStorage.Generated, rfl, rfl, ?_⟩
        intro e' hwf' hext' h hget hh
        rw [Env.resolveSpan, hget, resolveD, get?_append_cons]
    obtain ⟨ss, hss, hok, hresS⟩ := hconv
    rw [buildSpans, hss]
    obtain ⟨hextR, hwfR, hhlt, hhget, hfnR, hsvR⟩ := registerSpan_spec e ss hwf hok
    have hres' : ∀ i, i < (done ++ [ds]).length →
        ∃ sh, (spans ++ [(e.registerSpan ss).1]).get? i = some sh ∧
          sh < (e.registerSpan ss).2.spanTable.length ∧
          (e.registerSpan ss).2.resolveSpan sh =
            resolveD fnsStrs ((done ++ [ds]) ++ rest') i := by
      intro i hi
      simp only [List.length_append, List.length_singleton] at hi
      by_cases hlt : i < done.length
      · obtain ⟨sh, hget0, hb0, hres0⟩ := hres i hlt
        refine ⟨sh, ?_, Nat.lt_of_lt_of_le hb0 hextR.1.length_le, ?_⟩
        · rw [prefix_get?_eq (List.prefix_append _ _) (by rw [hlen]; exact hlt)]
          exact hget0
        · rw [resolveSpan_mono hextR hwf sh hb0, hres0, hassoc]
      · have hieq : i = done.length := by omega
        subst hieq
        refine ⟨(e.registerSpan ss).1, ?_, hhlt, ?_⟩
        · rw [show done.length = spans.length from hlen.symm]
          exact List.get?_concat_length _ _
        · rw [hresS (e.registerSpan ss).2 hwfR hextR (e.registerSpan ss).1 hhget hhlt,
            hassoc]
    obtain ⟨spans2, e2, hrun, hlen2, hwf2, hext12, hextE2, hsv2, hfn2, hres2⟩ :=
      ih (done ++ [ds]) (spans ++ [(e.registerSpan ss).1]) (e.registerSpan ss).2
        (by rw [← hassoc]; exact hwfT)
        (by simp [hlen])
        hwfR (envExt_trans hext hextR) hres'
    refine ⟨spans2, e2, hrun, ?_, hwf2, hext12, envExt_trans hextR hextE2,
      by rw [hsv2, hsvR], by rw [hfn2, hfnR], ?_⟩
    · rw [hlen2]
      simp only [List.length_append, List.length_singleton, List.length_nil,
        List.length_cons]
      omega
    · intro i hi
      obtain ⟨sh, hg, hb, hr⟩ := hres2 i hi
      exact ⟨sh, hg, hb, by rw [hr, hassoc]⟩

/-- `SparseConverter::new` succeeds on a forward-reference-free chunk: it
registers the filenames, allocates exactly `stay_count` fresh consecutive nil
cells, and produces span handles resolving to the chunk's dense resolutions. -/
theorem sparseNew_spec (envD : Env) (hwfD : EWF envD) (chunk : Chunk)
    (hwfT : DTWF chunk.filename_storage.length chunk.span_storage) :
    ∃ conv envD2, SparseConverter.new envD chunk = some (conv, envD2) ∧
      EWF envD2 ∧ EnvExt envD envD2 ∧
      conv.spans.length = chunk.span_storage.length ∧
      conv.filenames.length = chunk.filename_storage.length ∧
      conv.stays = (List.range chunk.stay_count).map
        (fun i => envD.stayVals.length + i) ∧
      envD2.stayVals = envD.stayVals ++ List.replicate chunk.stay_count none ∧
      (∀ i, i < chunk.filename_storage.length →
        ∃ fh, conv.filenames.get? i = some fh ∧
          envD2.filenameStr fh = (chunk.filename_storage.get? i).getD []) ∧
      (∀ i, i < chunk.span_storage.length →
        ∃ sh, conv.spans.get? i = some sh ∧
          envD2.resolveSpan sh = resolveD chunk.filename_storage
            chunk.span_storage i) := by
  obtain ⟨hext1, hlen1, hfil1, hsp1, hsv1⟩ :=
    mapState_registerFilename_spec chunk.filename_storage envD
  obtain ⟨hstays, henv2⟩ := mapState_allocStay_spec chunk.stay_count
    (mapState (fun st en => Env.registerFilename en st) chunk.filename_storage envD).2
  set env1 := (mapState (fun st en => Env.registerFilename en st)
    chunk.filename_storage envD).2 with henv1
  have hwf1 : EWF env1 :=
    EWF_of_filename_mono hsp1 hext1.2.1.length_le hwfD
  set env2 := (mapState (fun _ en => Env.allocStay en)
    (List.replicate chunk.stay_count ()) env1).2 with henv2d
  have hwf2 : EWF env2 := by
    rw [henv2]
    intro i hi
    exact hwf1 i hi
  have hext12 : EnvExt env1 env2 := by
    rw [henv2]
    exact ⟨List.prefix_refl _, List.prefix_refl _, List.prefix_append _ _⟩
  have hfil2 : ∀ i, i < chunk.filename_storage.length →
      ∃ fh, (mapState (fun st en => Env.registerFilename en st)
        chunk.filename_storage envD).1.get? i = some fh ∧
        fh < env2.filenameTable.length ∧
        env2.filenameStr fh = (chunk.filename_storage.get? i).getD [] := by
    intro i hi
    obtain ⟨fh, hget, hlt, hstr⟩ := hfil1 i hi
    refine ⟨fh, hget, ?_, ?_⟩
    · rw [henv2]
      exact hlt
    · rw [henv2]
      exact hstr
  obtain ⟨spans2, e3, hrun, hlen3, hwf3, hextL, -, hsv3, -, hres3⟩ :=
    buildSpans_spec env2 chunk.filename_storage
      (mapState (fun st en => Env.registerFilename en st) chunk.filename_storage envD).1
      (mapState (fun _ en => Env.allocStay en) (List.replicate chunk.stay_count ())
        env1).1
      hlen1 hfil2 chunk.span_storage [] [] env2 (by simpa using hwfT) rfl hwf2
      (envExt_refl env2) (by intro i hi; cases hi)
  refine ⟨⟨spans2,
      (mapState (fun st en => Env.registerFilename en st) chunk.filename_storage envD).1,
      (mapState (fun _ en => Env.allocStay en) (List.replicate chunk.stay_count ())
        env1).1⟩,
    e3, ?_, hwf3, ?_, by simpa using hlen3, hlen1, ?_, ?_, ?_, ?_⟩
  · simp only [SparseConverter.new]
    rw [← henv1, ← henv2d, hrun]
  · exact envExt_trans hext1 (envExt_trans hext12 hextL)
  · rw [hstays, hsv1]
  · rw [hsv3, henv2, hsv1]
  · intro i hi
    obtain ⟨fh, hget, hlt, hstr⟩ := hfil2 i hi
    exact ⟨fh, hget, by rw [filenameStr_mono hextL hlt]; exact hstr⟩
  · intro i hi
    obtain ⟨sh, hget, hlt, hres⟩ := hres3 i (by simpa [hlen3] using hi)
    exact ⟨sh, hget, by simpa using hres⟩

/-! ### Decoding the rewritten structures -/

theorem ctx_span {envE envD2 : Env} {cF : DenseConverter} {conv : SparseConverter}
    {base : Nat} (hc : DecCtx envE envD2 cF conv base) {s d : Nat}
    (h : lookupA cF.span_map s = some d) :
    ∃ sh, toSpan conv d = some sh ∧ envD2.resolveSpan sh = envE.resolveSpan s := by
  have hm := hc.inv.spanRes _ (lookupA_mem h)
  obtain ⟨sh, hget, hres⟩ := hc.span d hm.1
  exact ⟨sh, hget, by rw [hres, hm.2]⟩

theorem ctx_fn {envE envD2 : Env} {cF : DenseConverter} {conv : SparseConverter}
    {base : Nat} (hc : DecCtx envE envD2 cF conv base) {f d : Nat}
    (h : lookupA cF.filename_map f = some d) :
    ∃ fh, toFilename conv d = some fh ∧ envD2.filenameStr fh = envE.filenameStr f := by
  have hm := hc.inv.fnRes _ (lookupA_mem h)
  obtain ⟨fh, hget, hres⟩ := hc.fn d hm.1
  refine ⟨fh, hget, ?_⟩
  rw [hres, hm.2]
  rfl

theorem ctx_stay {envE envD2 : Env} {cF : DenseConverter} {conv : SparseConverter}
    {base : Nat} (hc : DecCtx envE envD2 cF conv base) {s d : Nat}
    (h : lookupA cF.stay_map s = some d) :
    toStay conv d = some (base + d) := by
  have hm := hc.inv.stayLt _ (lookupA_mem h)
  rw [toStay, hc.stays, List.get?_map, List.get?_range hm]
  rfl

theorem decodeSpans {envE envD2 : Env} {cF : DenseConverter} {conv : SparseConverter}
    {base : Nat} (hc : DecCtx envE envD2 cF conv base) :
    ∀ (spans : List Span) (spans2 : List DenseSpan),
    spans.length = spans2.length →
    (∀ p ∈ spans.zip spans2, lookupA cF.span_map p.1 = some p.2) →
    ∃ shs, seqOption (spans2.map (toSpan conv)) = some shs ∧
      shs.map envD2.resolveSpan = spans.map envE.resolveSpan := by
  intro spans
  induction spans with
  | nil =>
    intro spans2 hlen hz
    cases spans2 with
    | nil => exact ⟨[], rfl, rfl⟩
    | cons _ _ => cases hlen
  | cons s rest ih =>
    intro spans2 hlen hz
    cases spans2 with
    | nil => cases hlen
    | cons d rest2 =>
      obtain ⟨sh, hget, hres⟩ := ctx_span hc (hz (s, d) (by simp))
      obtain ⟨shs, hrun, hmap⟩ := ih rest2 (by simpa using hlen)
        (fun p hp => hz p (by simp [hp]))
      refine ⟨sh :: shs, ?_, ?_⟩
      · simp only [List.map_cons, seqOption, hget, hrun]
        rfl
      · simp only [List.map_cons, hmap, hres]

theorem decodeStaySources {envE envD2 : Env} {cF : DenseConverter}
    {conv : SparseConverter} {base : Nat} (hc : DecCtx envE envD2 cF conv base) :
    ∀ (stays : List StaySource) (stays2 : List DenseStaySource),
    stays.length = stays2.length →
    (∀ p ∈ stays.zip stays2, ssCorrB cF.stay_map p.1 p.2 = true) →
    ∃ sts, seqOption (stays2.map (toStaySource conv)) = some sts ∧
      sts.length = stays.length ∧
      (∀ p ∈ stays.zip sts, beqStayMeta p.1 p.2 = true) ∧
      staysOfSources sts = (staysOfSources stays).map
        (fun s => base + (lookupA cF.stay_map s).getD 0) ∧
      (∀ s ∈ staysOfSources stays, ∃ d, lookupA cF.stay_map s = some d) := by
  intro stays
  induction stays with
  | nil =>
    intro stays2 hlen hz
    cases stays2 with
    | nil => exact ⟨[], rfl, rfl, by simp, rfl, by simp [staysOfSources]⟩
    | cons _ _ => cases hlen
  | cons ss rest ih =>
    intro stays2 hlen hz
    cases stays2 with
    | nil => cases hlen
    | cons dss rest2 =>
      have hss := hz (ss, dss) (by simp)
      obtain ⟨sts, hrun, hlen2, hmeta, hmap, hlk⟩ := ih rest2 (by simpa using hlen)
        (fun p hp => hz p (by simp [hp]))
      cases ss with
      | Empty =>
        cases dss with
        | Empty =>
          refine ⟨StaySource.Empty :: sts, ?_, by simp [hlen2], ?_, ?_, ?_⟩
          · simp only [List.map_cons, seqOption, toStaySource, hrun]
            rfl
          · intro p hp
            rw [List.zip_cons_cons] at hp
            cases hp with
            | head => rfl
            | tail _ hm => exact hmeta p hm
          · simp only [staysOfSources, hmap]
          · simpa [staysOfSources] using hlk
        | Param _ => simp [ssCorrB] at hss
        | Captured _ => simp [ssCorrB] at hss
        | PreExisting _ => simp [ssCorrB] at hss
      | Param id =>
        cases dss with
        | Param id2 =>
          simp only [ssCorrB, decide_eq_true_eq] at hss
          subst hss
          refine ⟨StaySource.Param id :: sts, ?_, by simp [hlen2], ?_, ?_, ?_⟩
          · simp only [List.map_cons, seqOption, toStaySource, hrun]
            rfl
          · intro p hp
            rw [List.zip_cons_cons] at hp
            cases hp with
            | head => simp [beqStayMeta]
            | tail _ hm => exact hmeta p hm
          · simp only [staysOfSources, hmap]
          · simpa [staysOfSources] using hlk
        | Empty => simp [ssCorrB] at hss
        | Captured _ => simp [ssCorrB] at hss
        | PreExisting _ => simp [ssCorrB] at hss
      | Captured id =>
        cases dss with
        | Captured id2 =>
          simp only [ssCorrB, decide_eq_true_eq] at hss
          subst hss
          refine ⟨StaySource.Captured id :: sts, ?_, by simp [hlen2], ?_, ?_, ?_⟩
          · simp only [List.map_cons, seqOption, toStaySource, hrun]
            rfl
          · intro p hp
            rw [List.zip_cons_cons] at hp
            cases hp with
            | head => simp [beqStayMeta]
            | tail _ hm => exact hmeta p hm
          · simp only [staysOfSources, hmap]
          · simpa [staysOfSources] using hlk
        | Empty => simp [ssCorrB] at hss
        | Param _ => simp [ssCorrB] at hss
        | PreExisting _ => simp [ssCorrB] at hss
      | PreExisting s =>
        cases dss with
        | PreExisting d =>
          simp only [ssCorrB, decide_eq_true_eq] at hss
          have hstay := ctx_stay hc hss
          refine ⟨StaySource.PreExisting (base + d) :: sts, ?_, by simp [hlen2],
            ?_, ?_, ?_⟩
          · simp only [List.map_cons, seqOption, toStaySource, hstay, hrun]
            rfl
          · intro p hp
            rw [List.zip_cons_cons] at hp
            cases hp with
            | head => rfl
            | tail _ hm => exact hmeta p hm
          · simp only [staysOfSources, hmap, List.map_cons, hss, Option.getD_some]
          · intro s2 hs2
            simp only [staysOfSources, List.mem_cons] at hs2
            cases hs2 with
            | inl he => exact ⟨d, he ▸ hss⟩
            | inr hm => exact hlk s2 hm
        | Empty => simp [ssCorrB] at hss
        | Param _ => simp [ssCorrB] at hss
        | Captured _ => simp [ssCorrB] at hss

mutual
theorem intoBytecode_spec (envE envD2 : Env) (cF : DenseConverter)
    (conv : SparseConverter) (base : Nat) (hc : DecCtx envE envD2 cF conv base)
    (b : Bytecode) (db : DenseBytecode) (hcorr : bcorrB cF b db = true) :
    ∃ b2, intoBytecode conv db = some b2 ∧ beqBytecode envE envD2 b b2 = true ∧
      bcStays b2 = (bcStays b).map (fun s => base + (lookupA cF.stay_map s).getD 0) ∧
      (∀ s ∈ bcStays b, ∃ d, lookupA cF.stay_map s = some d) := by
  cases b with
  | mk instrs spans regs stays lc sc litc lambdas defers =>
    cases db with
    | mk instrs2 spans2 regs2 stays2 lc2 sc2 litc2 lambdas2 defers2 =>
      simp only [bcorrB, Bool.and_eq_true, List.all_eq_true, decide_eq_true_eq] at hcorr
      obtain ⟨⟨⟨⟨⟨⟨⟨⟨⟨⟨h1, h2⟩, h3⟩, h4⟩, h5⟩, h6⟩, h7⟩, h8⟩, h9⟩, h10⟩, h11⟩ := hcorr
      obtain ⟨shs, hrunS, hmapS⟩ := decodeSpans hc spans spans2 h2
        (fun p hp => h3 p hp)
      obtain ⟨sts, hrunT, hlenT, hmetaT, hmapT, hlkT⟩ :=
        decodeStaySources hc stays stays2 h5 (fun p hp => h6 p hp)
      obtain ⟨ls2, hrunL, hbeqL, hmapL, hlkL⟩ :=
        intoLambdaList_spec envE envD2 cF conv base hc lambdas lambdas2 h10
      refine ⟨Bytecode.mk instrs2 shs regs2 sts lc2 sc2 litc2 ls2 defers2, ?_, ?_, ?_, ?_⟩
      · rw [intoBytecode, hrunS, hrunT, hrunL]
        rfl
      · simp only [beqBytecode, Bool.and_eq_true, List.all_eq_true,
          decide_eq_true_eq]
        subst h1 h4 h7 h8 h9 h11
        refine ⟨⟨⟨⟨⟨⟨⟨⟨⟨by trivial, hmapS.symm⟩, by trivial⟩, hlenT.symm⟩, ?_⟩,
          by trivial⟩, by trivial⟩, by trivial⟩, hbeqL⟩, by trivial⟩
        intro p hp
        exact hmetaT p hp
      · simp only [bcStays, hmapT, hmapL, List.map_append]
      · intro s hs
        simp only [bcStays, List.mem_append] at hs
        cases hs with
        | inl hm => exact hlkT s hm
        | inr hm => exact hlkL s hm

theorem intoLambdaList_spec (envE envD2 : Env) (cF : DenseConverter)
    (conv : SparseConverter) (base : Nat) (hc : DecCtx envE envD2 cF conv base)
    (ls : List Lambda) (dls : List DenseLambda) (hcorr : lcorrB cF ls dls = true) :
    ∃ ls2, intoLambdaList conv dls = some ls2 ∧
      beqLambdaList envE envD2 ls ls2 = true ∧
      lamsStays ls2 = (lamsStays ls).map
        (fun s => base + (lookupA cF.stay_map s).getD 0) ∧
      (∀ s ∈ lamsStays ls, ∃ d, lookupA cF.stay_map s = some d) := by
  cases ls with
  | nil =>
    cases dls with
    | nil => exact ⟨[], rfl, rfl, rfl, by simp [lamsStays]⟩
    | cons _ _ => simp [lcorrB] at hcorr
  | cons l rest =>
    cases dls with
    | nil => simp [lcorrB] at hcorr
    | cons dl rest2 =>
      simp only [lcorrB, Bool.and_eq_true] at hcorr
      obtain ⟨l2, hrun1, hbeq1, hmap1, hlk1⟩ :=
        intoLambda_spec envE envD2 cF conv base hc l dl hcorr.1
      obtain ⟨ls2, hrun2, hbeq2, hmap2, hlk2⟩ :=
        intoLambdaList_spec envE envD2 cF conv base hc rest rest2 hcorr.2
      refine ⟨l2 :: ls2, ?_, ?_, ?_, ?_⟩
      · rw [intoLambdaList, hrun1, hrun2]
        rfl
      · simp only [beqLambdaList, Bool.and_eq_true]
        exact ⟨hbeq1, hbeq2⟩
      · simp only [lamsStays, hmap1, hmap2, List.map_append]
      · intro s hs
        simp only [lamsStays, List.mem_append] at hs
        cases hs with
        | inl hm => exact hlk1 s hm
        | inr hm => exact hlk2 s hm

theorem intoLambda_spec (envE envD2 : Env) (cF : DenseConverter)
    (conv : SparseConverter) (base : Nat) (hc : DecCtx envE envD2 cF conv base)
    (l : Lambda) (dl : DenseLambda) (hcorr : lamCorrB cF l dl = true) :
    ∃ l2, intoLambda conv dl = some l2 ∧ beqLambda envE envD2 l l2 = true ∧
      lamStays l2 = (lamStays l).map
        (fun s => base + (lookupA cF.stay_map s).getD 0) ∧
      (∀ s ∈ lamStays l, ∃ d, lookupA cF.stay_map s = some d) := by
  cases l with
  | mk bytecode pm name captures yields =>
    cases dl with
    | mk bytecode2 pm2 name2 captures2 yields2 =>
      simp only [lamCorrB, Bool.and_eq_true, decide_eq_true_eq] at hcorr
      obtain ⟨⟨⟨⟨hb, hpm⟩, hname⟩, hcap⟩, hy⟩ := hcorr
      obtain ⟨b2, hrun, hbeq, hmap, hlk⟩ :=
        intoBytecode_spec envE envD2 cF conv base hc bytecode bytecode2 hb
      refine ⟨Lambda.mk b2 pm2 name2 captures2 yields2, ?_, ?_, ?_, ?_⟩
      · rw [intoLambda, hrun]
        rfl
      · subst hpm hname hcap hy
        simp only [beqLambda, Bool.and_eq_true, decide_eq_true_eq]
        exact ⟨⟨⟨⟨hbeq, trivial⟩, trivial⟩, trivial⟩, trivial⟩
      · simpa [lamStays] using hmap
      · intro s hs
        exact hlk s (by simpa [lamStays] using hs)
end

theorem intoAction_spec (envE envD2 : Env) (cF : DenseConverter)
    (conv : SparseConverter) (base : Nat) (hc : DecCtx envE envD2 cF conv base)
    (a : Action) (da : DenseAction) (hcorr : actionCorrB cF a da = true) :
    ∃ a2, intoAction conv da = some a2 ∧ beqAction envE envD2 a a2 = true ∧
      actionStays a2 = (actionStays a).map
        (fun s => base + (lookupA cF.stay_map s).getD 0) ∧
      (∀ s ∈ actionStays a, ∃ d, lookupA cF.stay_map s = some d) := by
  cases a with
  | Execute b =>
    cases da with
    | Execute db =>
      obtain ⟨b2, hrun, hbeq, hmap, hlk⟩ :=
        intoBytecode_spec envE envD2 cF conv base hc b db
          (by simpa [actionCorrB] using hcorr)
      refine ⟨Action.Execute b2, ?_, hbeq, ?_, hlk⟩
      · rw [intoAction, hrun]
        rfl
      · simpa [actionStays] using hmap
    | ToplevelLet _ => simp [actionCorrB] at hcorr
    | StartLoad _ => simp [actionCorrB] at hcorr
    | EndLoad => simp [actionCorrB] at hcorr
  | ToplevelLet s =>
    cases da with
    | ToplevelLet d =>
      simp only [actionCorrB, decide_eq_true_eq] at hcorr
      have hstay := ctx_stay hc hcorr
      refine ⟨Action.ToplevelLet (base + d), ?_, rfl, ?_, ?_⟩
      · rw [intoAction, hstay]
        rfl
      · simp [actionStays, hcorr]
      · intro s2 hs2
        simp only [actionStays, List.mem_singleton] at hs2
        exact ⟨d, hs2 ▸ hcorr⟩
    | Execute _ => simp [actionCorrB] at hcorr
    | StartLoad _ => simp [actionCorrB] at hcorr
    | EndLoad => simp [actionCorrB] at hcorr
  | StartLoad f =>
    cases da with
    | StartLoad d =>
      simp only [actionCorrB, decide_eq_true_eq] at hcorr
      obtain ⟨fh, hget, hres⟩ := ctx_fn hc hcorr
      refine ⟨Action.StartLoad fh, ?_, ?_, rfl, by simp [actionStays]⟩
      · rw [intoAction, hget]
        rfl
      · simp [beqAction, hres]
    | Execute _ => simp [actionCorrB] at hcorr
    | ToplevelLet _ => simp [actionCorrB] at hcorr
    | EndLoad => simp [actionCorrB] at hcorr
  | EndLoad =>
    cases da with
    | EndLoad => exact ⟨Action.EndLoad, rfl, rfl, rfl, by simp [actionStays]⟩
    | Execute _ => simp [actionCorrB] at hcorr
    | ToplevelLet _ => simp [actionCorrB] at hcorr
    | StartLoad _ => simp [actionCorrB] at hcorr

theorem intoActions_spec (envE envD2 : Env) (cF : DenseConverter)
    (conv : SparseConverter) (base : Nat) (hc : DecCtx envE envD2 cF conv base)
    (acts : List Action) (dacts : List DenseAction)
    (hcorr : actionsCorrB cF acts dacts = true) :
    ∃ acts2, seqOption (dacts.map (intoAction conv)) = some acts2 ∧
      beqActions envE envD2 acts acts2 = true ∧
      (acts2.map actionStays).flatten = ((acts.map actionStays).flatten).map
        (fun s => base + (lookupA cF.stay_map s).getD 0) ∧
      (∀ s ∈ (acts.map actionStays).flatten, ∃ d, lookupA cF.stay_map s = some d) := by
  induction acts generalizing dacts with
  | nil =>
    cases dacts with
    | nil => exact ⟨[], rfl, rfl, rfl, by simp⟩
    | cons _ _ => simp [actionsCorrB] at hcorr
  | cons a rest ih =>
    cases dacts with
    | nil => simp [actionsCorrB] at hcorr
    | cons da drest =>
      simp only [actionsCorrB, Bool.and_eq_true] at hcorr
      obtain ⟨a2, hrun1, hbeq1, hmap1, hlk1⟩ :=
        intoAction_spec envE envD2 cF conv base hc a da hcorr.1
      obtain ⟨acts2, hrun2, hbeq2, hmap2, hlk2⟩ := ih drest hcorr.2
      refine ⟨a2 :: acts2, ?_, ?_, ?_, ?_⟩
      · simp only [List.map_cons, seqOption, hrun1, hrun2]
        rfl
      · simp only [beqActions, Bool.and_eq_true]
        exact ⟨hbeq1, hbeq2⟩
      · simp only [List.map_cons, List.flatten_cons, hmap1, hmap2, List.map_append]
      · intro s hs
        simp only [List.map_cons, List.flatten_cons, List.mem_append] at hs
        cases hs with
        | inl hm => exact hlk1 s hm
        | inr hm => exact hlk2 s hm

/-! ### The full chunk-level round trip -/

theorem decodeChunk_spec (envE envD : Env) (hwfE : EWF envE) (hwfD : EWF envD)
    (r : Recording) (hch : (encodeChunk envE r).validB = true) :
    ∃ r2 envD2, decodeChunk envD (encodeChunk envE r) = some (r2, envD2) ∧
      beqActions envE envD2 r.actions r2.actions = true ∧
      r2.stayRefs = r.stayRefs.map (stayRename envE envD r) ∧
      (∀ s ∈ r.stayRefs, ∃ d, lookupA (finalConv envE r).stay_map s = some d) ∧
      envD2.stayVals = envD.stayVals ++
        List.replicate (encodeChunk envE r).stay_count none ∧
      EnvExt envD envD2 ∧ EWF envD2 := by
  obtain ⟨hInv, hcorr⟩ := encode_spec envE hwfE r hch
  have hsp : (encodeChunk envE r).span_storage = (finalConv envE r).span_storage := rfl
  have hfn : (encodeChunk envE r).filename_storage =
    (finalConv envE r).filename_storage := rfl
  have hsc : (encodeChunk envE r).stay_count = (finalConv envE r).stay_map.length := rfl
  have hacts : (encodeChunk envE r).actions =
    (mapState (fromAction envE) r.actions DenseConverter.init).1 := rfl
  have hwfT : DTWF (encodeChunk envE r).filename_storage.length
      (encodeChunk envE r).span_storage := by
    rw [hsp, hfn]
    exact hInv.wf
  obtain ⟨conv, envD2, hnew, hwfD2, hextD, hspl, hfnl, hstays, hsv, hfres, hsres⟩ :=
    sparseNew_spec envD hwfD (encodeChunk envE r) hwfT
  have hc : DecCtx envE envD2 (finalConv envE r) conv envD.stayVals.length := by
    refine ⟨hInv, ?_, ?_, ?_, ?_, ?_⟩
    · rw [← hsp]
      exact hspl
    · intro i hi
      exact hsres i (by rw [hsp]; exact hi)
    · rw [← hfn]
      exact hfnl
    · intro i hi
      exact hfres i (by rw [hfn]; exact hi)
    · rw [← hsc]
      exact hstays
  obtain ⟨acts2, hrunA, hbeq, hmap, hlk⟩ :=
    intoActions_spec envE envD2 (finalConv envE r) conv envD.stayVals.length hc
      r.actions (encodeChunk envE r).actions hcorr
  refine ⟨⟨acts2⟩, envD2, ?_, hbeq, ?_, hlk, hsv, hextD, hwfD2⟩
  · simp only [decodeChunk, hnew, hrunA]
    rfl
  · simpa [Recording.stayRefs, stayRename] using hmap

theorem beqActions_length (eA eB : Env) :
    ∀ (xs ys : List Action), beqActions eA eB xs ys = true → xs.length = ys.length := by
  intro xs
  induction xs with
  | nil =>
    intro ys h
    cases ys with
    | nil => rfl
    | cons _ _ => simp [beqActions] at h
  | cons x rest ih =>
    intro ys h
    cases ys with
    | nil => simp [beqActions] at h
    | cons y rest2 =>
      simp only [beqActions, Bool.and_eq_true] at h
      simp [ih rest2 h.2]

/-! ### The emitted span table is forward-reference-free -/

theorem expandedParents_of_DTWF {fnLen : Nat} {tbl : List DenseSpanStorage}
    (h : DTWF fnLen tbl) : expandedParentsOKB tbl = true := by
  simp only [expandedParentsOKB, List.all_eq_true, List.mem_range]
  intro i hi
  have hok := h i hi
  revert hok
  cases (tbl.get? i).getD DenseSpanStorage.Generated with
  | Loaded f line => intro _; rfl
  | Generated => intro _; rfl
  | Expanded sym a b => intro hok; exact hok

/-! ### The façade queue -/

theorem drainAll_nil : Recording.drainAll ⟨[]⟩ = [] := by
  rw [Recording.drainAll]
  rfl

theorem drainAll_cons (a : Action) (rest : List Action) :
    Recording.drainAll ⟨a :: rest⟩ = a :: Recording.drainAll ⟨rest⟩ := by
  rw [Recording.drainAll]
  rfl

theorem drainAll_acts (r : Recording) : r.drainAll = r.actions := by
  obtain ⟨acts⟩ := r
  induction acts with
  | nil => exact drainAll_nil
  | cons a rest ih => rw [drainAll_cons, ih]

theorem foldl_add_action : ∀ (l : List Action) (r : Recording),
    (l.foldl Recording.add_action r).actions = r.actions ++ l := by
  intro l
  induction l with
  | nil => intro r; simp
  | cons a t ih =>
    intro r
    rw [List.foldl_cons, ih]
    simp [Recording.add_action]

/-! ### Every index the encoder emits is within bounds -/

theorem mem_zip_right {α β : Type} :
    ∀ (xs : List α) (ys : List β), xs.length = ys.length →
    ∀ y ∈ ys, ∃ x, (x, y) ∈ xs.zip ys := by
  intro xs
  induction xs with
  | nil =>
    intro ys hlen y hy
    cases ys with
    | nil => cases hy
    | cons _ _ => simp at hlen
  | cons x xt ih =>
    intro ys hlen y hy
    cases ys with
    | nil => cases hy
    | cons yh yt =>
      cases hy with
      | head => exact ⟨x, List.mem_cons_self _ _⟩
      | tail _ hm =>
        obtain ⟨x2, hx2⟩ := ih yt (by simpa using hlen) y hm
        exact ⟨x2, List.mem_cons_of_mem _ hx2⟩

theorem ssCorr_idx {env : Env} {c : DenseConverter} (hInv : Inv env c)
    {ss : StaySource} {dss : DenseStaySource}
    (h : ssCorrB c.stay_map ss dss = true) :
    dSSIdxOK c.stay_map.length dss = true := by
  cases ss <;> cases dss <;> simp_all [ssCorrB, dSSIdxOK]
  exact hInv.stayLt _ (lookupA_mem h)

mutual
theorem bcorr_idx (env : Env) (c : DenseConverter) (hInv : Inv env c)
    (b : Bytecode) (db : DenseBytecode) (h : bcorrB c b db = true) :
    dbcIdxOK c.span_storage.length c.filename_storage.length c.stay_map.length
      db = true := by
  cases b with
  | mk instrs spans regs stays lc sc litc lambdas defers =>
    cases db with
    | mk instrs2 spans2 regs2 stays2 lc2 sc2 litc2 lambdas2 defers2 =>
      simp only [bcorrB, Bool.and_eq_true, List.all_eq_true,
        decide_eq_true_eq] at h
      obtain ⟨⟨⟨⟨⟨⟨⟨⟨⟨⟨h1, h2⟩, h3⟩, h4⟩, h5⟩, h6⟩, h7⟩, h8⟩, h9⟩, h10⟩, h11⟩ := h
      simp only [dbcIdxOK, Bool.and_eq_true, List.all_eq_true, decide_eq_true_eq]
      refine ⟨⟨?_, ?_⟩, lcorr_idx env c hInv lambdas lambdas2 h10⟩
      · intro d hd
        obtain ⟨s, hmem⟩ := mem_zip_right spans spans2 h2 d hd
        exact (hInv.spanRes _ (lookupA_mem (h3 _ hmem))).1
      · intro dss hd
        obtain ⟨ss, hmem⟩ := mem_zip_right stays stays2 h5 dss hd
        exact ssCorr_idx hInv (h6 _ hmem)

theorem lcorr_idx (env : Env) (c : DenseConverter) (hInv : Inv env c)
    (ls : List Lambda) (dls : List DenseLambda) (h : lcorrB c ls dls = true) :
    dlamsIdxOK c.span_storage.length c.filename_storage.length c.stay_map.length
      dls = true := by
  cases ls with
  | nil =>
    cases dls with
    | nil => rfl
    | cons _ _ => simp [lcorrB] at h
  | cons l rest =>
    cases dls with
    | nil => simp [lcorrB] at h
    | cons dl rest2 =>
      simp only [lcorrB, Bool.and_eq_true] at h
      simp only [dlamsIdxOK, Bool.and_eq_true]
      exact ⟨lamCorr_idx env c hInv l dl h.1, lcorr_idx env c hInv rest rest2 h.2⟩

theorem lamCorr_idx (env : Env) (c : DenseConverter) (hInv : Inv env c)
    (l : Lambda) (dl : DenseLambda) (h : lamCorrB c l dl = true) :
    dlamIdxOK c.span_storage.length c.filename_storage.length c.stay_map.length
      dl = true := by
  cases l with
  | mk bytecode pm name captures yields =>
    cases dl with
    | mk bytecode2 pm2 name2 captures2 yields2 =>
      simp only [lamCorrB, Bool.and_eq_true] at h
      exact bcorr_idx env c hInv bytecode bytecode2 h.1.1.1.1
end

theorem actionCorr_idx (env : Env) (c : DenseConverter) (hInv : Inv env c)
    (a : Action) (da : DenseAction) (h : actionCorrB c a da = true) :
    dActionIdxOK c.span_storage.length c.filename_storage.length
      c.stay_map.length da = true := by
  cases a <;> cases da <;> simp_all [actionCorrB, dActionIdxOK]
  · exact bcorr_idx env c hInv _ _ h
  · exact hInv.stayLt _ (lookupA_mem h)
  · exact (hInv.fnRes _ (lookupA_mem h)).1

theorem actionsCorr_idx (env : Env) (c : DenseConverter) (hInv : Inv env c) :
    ∀ (acts : List Action) (dacts : List DenseAction),
    actionsCorrB c acts dacts = true →
    dacts.all (dActionIdxOK c.span_storage.length c.filename_storage.length
      c.stay_map.length) = true := by
  intro acts
  induction acts with
  | nil =>
    intro dacts h
    cases dacts with
    | nil => rfl
    | cons _ _ => simp [actionsCorrB] at h
  | cons a rest ih =>
    intro dacts h
    cases dacts with
    | nil => simp [actionsCorrB] at h
    | cons da drest =>
      simp only [actionsCorrB, Bool.and_eq_true] at h
      simp only [List.all_cons, Bool.and_eq_true]
      exact ⟨actionCorr_idx env c hInv a da h.1, ih drest h.2⟩

/-! ### Replicate lookups -/

theorem get?_replicate_lt {α : Type} (x : α) :
    ∀ {n i : Nat}, i < n → (List.replicate n x).get? i = some x := by
  intro n
  induction n with
  | zero => intro i hi; cases hi
  | succ m ih =>
    intro i hi
    cases i with
    | zero => rfl
    | succ j => exact ih (Nat.lt_of_succ_lt_succ hi)

/-! ### An out-of-range index makes the dense decoder panic -/

theorem seqOption_map_none {α β : Type} (f : α → Option β) {x : α} :
    ∀ (xs : List α), x ∈ xs → f x = none → seqOption (xs.map f) = none := by
  intro xs
  induction xs with
  | nil => intro h; cases h
  | cons a t ih =>
    intro hmem hfx
    cases hmem with
    | head => simp [seqOption, hfx]
    | tail _ hm =>
      simp only [List.map_cons, seqOption, ih hm hfx]
      cases f a <;> rfl

theorem seqOption_isSome {α β : Type} (f : α → Option β) :
    ∀ (xs : List α), (∀ x ∈ xs, (f x).isSome = true) →
    ∃ ys, seqOption (xs.map f) = some ys := by
  intro xs
  induction xs with
  | nil => intro _; exact ⟨[], rfl⟩
  | cons a t ih =>
    intro h
    obtain ⟨ys, hys⟩ := ih (fun x hx => h x (List.mem_cons_of_mem _ hx))
    have ha := h a (List.mem_cons_self _ _)
    cases hfa : f a with
    | none =>
      rw [hfa] at ha
      cases ha
    | some b => exact ⟨b :: ys, by simp [seqOption, hfa, hys]⟩

theorem get?_isSome_of_lt {α : Type} {l : List α} {n : Nat} (h : n < l.length) :
    (l.get? n).isSome = true := by
  rw [List.get?_eq_get h]
  rfl

theorem toStaySource_isSome (conv : SparseConverter) {dss : DenseStaySource}
    (h : dSSIdxOK conv.stays.length dss = true) :
    (toStaySource conv dss).isSome = true := by
  cases dss with
  | PreExisting d =>
    simp only [dSSIdxOK, decide_eq_true_eq] at h
    simp only [toStaySource, toStay]
    rw [List.get?_eq_get h]
    rfl
  | Empty => rfl
  | Param i => rfl
  | Captured i => rfl

theorem toStaySource_none (conv : SparseConverter) {dss : DenseStaySource}
    (h : dSSIdxOK conv.stays.length dss = false) :
    toStaySource conv dss = none := by
  cases dss with
  | PreExisting d =>
    simp only [dSSIdxOK, decide_eq_false_iff_not] at h
    simp only [toStaySource, toStay]
    rw [List.get?_eq_none.mpr (Nat.le_of_not_lt h)]
    rfl
  | Empty => simp [dSSIdxOK] at h
  | Param i => simp [dSSIdxOK] at h
  | Captured i => simp [dSSIdxOK] at h

mutual
theorem intoBytecode_none (conv : SparseConverter) (db : DenseBytecode)
    (h : dbcIdxOK conv.spans.length conv.filenames.length conv.stays.length
      db = false) :
    intoBytecode conv db = none := by
  cases db with
  | mk instrs spans regs stays lc sc litc lambdas defers =>
    rw [intoBytecode]
    by_cases hs : spans.all (fun s => decide (s < conv.spans.length)) = true
    · have hsome : ∀ x ∈ spans, (toSpan conv x).isSome = true := by
        intro x hx
        exact get?_isSome_of_lt (of_decide_eq_true (List.all_eq_true.mp hs x hx))
      obtain ⟨spans2, hsp2⟩ := seqOption_isSome (toSpan conv) spans hsome
      by_cases hst : stays.all (dSSIdxOK conv.stays.length) = true
      · have hsome2 : ∀ x ∈ stays, (toStaySource conv x).isSome = true :=
          fun x hx => toStaySource_isSome conv (List.all_eq_true.mp hst x hx)
        obtain ⟨stays2, hst2⟩ := seqOption_isSome (toStaySource conv) stays hsome2
        have hlam : dlamsIdxOK conv.spans.length conv.filenames.length
            conv.stays.length lambdas = false := by
          rw [dbcIdxOK, hs, hst] at h
          simpa using h
        rw [hsp2, hst2, intoLambdaList_none conv lambdas hlam]
        rfl
      · have hbad : ∃ x ∈ stays, dSSIdxOK conv.stays.length x = false := by
          by_contra hno
          push_neg at hno
          refine hst (List.all_eq_true.mpr ?_)
          intro x hx
          cases hB : dSSIdxOK conv.stays.length x
          · exact absurd hB (hno x hx)
          · rfl
        obtain ⟨x, hxm, hxb⟩ := hbad
        rw [hsp2, seqOption_map_none (toStaySource conv) stays hxm
          (toStaySource_none conv hxb)]
        rfl
    · have hbad : ∃ x ∈ spans, ¬ x < conv.spans.length := by
        by_contra hno
        push_neg at hno
        refine hs (List.all_eq_true.mpr ?_)
        intro x hx
        exact decide_eq_true (hno x hx)
      obtain ⟨x, hxm, hxb⟩ := hbad
      rw [seqOption_map_none (toSpan conv) spans hxm
        (List.get?_eq_none.mpr (Nat.le_of_not_lt hxb))]
      rfl

theorem intoLambdaList_none (conv : SparseConverter) (ls : List DenseLambda)
    (h : dlamsIdxOK conv.spans.length conv.filenames.length conv.stays.length
      ls = false) :
    intoLambdaList conv ls = none := by
  cases ls with
  | nil => simp [dlamsIdxOK] at h
  | cons l rest =>
    rw [intoLambdaList]
    by_cases hl : dlamIdxOK conv.spans.length conv.filenames.length
        conv.stays.length l = true
    · have hrest : dlamsIdxOK conv.spans.length conv.filenames.length
          conv.stays.length rest = false := by
        rw [dlamsIdxOK, hl] at h
        simpa using h
      cases hil : intoLambda conv l with
      | none => rfl
      | some l2 =>
        rw [intoLambdaList_none conv rest hrest]
        rfl
    · have hlf : dlamIdxOK conv.spans.length conv.filenames.length
          conv.stays.length l = false := by
        cases hB : dlamIdxOK conv.spans.length conv.filenames.length
            conv.stays.length l
        · rfl
        · exact absurd hB hl
      rw [intoLambda_none conv l hlf]
      rfl

theorem intoLambda_none (conv : SparseConverter) (dl : DenseLambda)
    (h : dlamIdxOK conv.spans.length conv.filenames.length conv.stays.length
      dl = false) :
    intoLambda conv dl = none := by
  cases dl with
  | mk bytecode pm name captures yields =>
    rw [intoLambda]
    rw [dlamIdxOK] at h
    rw [intoBytecode_none conv bytecode h]
    rfl
end

theorem intoAction_none (conv : SparseConverter) (da : DenseAction)
    (h : dActionIdxOK conv.spans.length conv.filenames.length conv.stays.length
      da = false) :
    intoAction conv da = none := by
  cases da with
  | Execute db =>
    rw [dActionIdxOK] at h
    rw [intoAction, intoBytecode_none conv db h]
    rfl
  | ToplevelLet d =>
    simp only [dActionIdxOK, decide_eq_false_iff_not] at h
    simp only [intoAction, toStay]
    rw [List.get?_eq_none.mpr (Nat.le_of_not_lt h)]
    rfl
  | StartLoad f =>
    simp only [dActionIdxOK, decide_eq_false_iff_not] at h
    simp only [intoAction, toFilename]
    rw [List.get?_eq_none.mpr (Nat.le_of_not_lt h)]
    rfl
  | EndLoad => simp [dActionIdxOK] at h

/-! ### A forward reference or dead filename makes the span loop panic -/

theorem buildSpans_none (filenames : List Filename) (stays : List StayId)
    (fnLen : Nat) (hfn : filenames.length = fnLen) :
    ∀ (rest : List DenseSpanStorage) (spans : List Span) (e : Env),
    (∃ j, j < rest.length ∧
      denseEntryOK fnLen (spans.length + j)
        ((rest.get? j).getD DenseSpanStorage.Generated) = false) →
    buildSpans filenames stays rest spans e = none := by
  intro rest
  induction rest with
  | nil =>
    intro spans e hex
    obtain ⟨j, hj, -⟩ := hex
    simp at hj
  | cons ds tail ih =>
    intro spans e hex
    obtain ⟨j, hj, hbad⟩ := hex
    cases j with
    | zero =>
      simp only [List.get?_cons_zero, Option.getD_some, Nat.add_zero] at hbad
      have hts : toSpanStorage ⟨spans, filenames, stays⟩ ds = none := by
        cases ds with
        | Generated => simp [denseEntryOK] at hbad
        | Loaded f line =>
          simp only [denseEntryOK, decide_eq_false_iff_not] at hbad
          have hge : filenames.length ≤ f := by
            rw [hfn]
            exact Nat.le_of_not_lt hbad
          simp only [toSpanStorage, toFilename]
          rw [List.get?_eq_none.mpr hge]
          rfl
        | Expanded sym a b =>
          by_cases ha : a < spans.length
          · have hb2 : ¬ b < spans.length := by
              intro hb
              simp [denseEntryOK, ha, hb] at hbad
            simp only [toSpanStorage, toSpan]
            rw [List.get?_eq_get ha, Option.some_bind,
              List.get?_eq_none.mpr (Nat.le_of_not_lt hb2)]
            rfl
          · simp only [toSpanStorage, toSpan]
            rw [List.get?_eq_none.mpr (Nat.le_of_not_lt ha)]
            rfl
      rw [buildSpans, hts]
    | succ j =>
      cases hts : toSpanStorage ⟨spans, filenames, stays⟩ ds with
      | none => rw [buildSpans, hts]
      | some ss =>
        rw [buildSpans, hts]
        show buildSpans filenames stays tail
          (spans ++ [(e.registerSpan ss).1]) (e.registerSpan ss).2 = none
        apply ih
        refine ⟨j, by simpa using hj, ?_⟩
        have harith : (spans ++ [(e.registerSpan ss).1]).length + j =
            spans.length + (j + 1) := by
          simp only [List.length_append, List.length_singleton]
          omega
        rw [harith]
        simpa [List.get?_cons_succ] using hbad

theorem denseTableOK_false_bad {fnLen : Nat} {tbl : List DenseSpanStorage}
    (h : denseTableOKB fnLen tbl = false) :
    ∃ j, j < tbl.length ∧
      denseEntryOK fnLen j ((tbl.get? j).getD DenseSpanStorage.Generated) = false := by
  by_contra hno
  push_neg at hno
  have hall : denseTableOKB fnLen tbl = true := by
    simp only [denseTableOKB, List.all_eq_true, List.mem_range]
    intro i hi
    cases hB : denseEntryOK fnLen i ((tbl.get? i).getD DenseSpanStorage.Generated)
    · exact absurd hB (hno i hi)
    · rfl
  rw [hall] at h
  cases h

theorem sparseNew_none (envD : Env) (chunk : Chunk)
    (hbad : denseTableOKB chunk.filename_storage.length chunk.span_storage = false) :
    SparseConverter.new envD chunk = none := by
  obtain ⟨j, hj, hjbad⟩ := denseTableOK_false_bad hbad
  obtain ⟨-, hlen1, -, -, -⟩ :=
    mapState_registerFilename_spec chunk.filename_storage envD
  have hnone := buildSpans_none
    (mapState (fun st en => Env.registerFilename en st) chunk.filename_storage envD).1
    (mapState (fun _ en => Env.allocStay en) (List.replicate chunk.stay_count ())
      (mapState (fun st en => Env.registerFilename en st)
        chunk.filename_storage envD).2).1
    chunk.filename_storage.length hlen1 chunk.span_storage []
    (mapState (fun _ en => Env.allocStay en) (List.replicate chunk.stay_count ())
      (mapState (fun st en => Env.registerFilename en st)
        chunk.filename_storage envD).2).2
    ⟨j, hj, by simpa using hjbad⟩
  simp only [SparseConverter.new]
  rw [hnone]

theorem decodeChunk_none (envD : Env) (hwfD : EWF envD) (chunk : Chunk)
    (hbad : chunk.indicesOKB = false) :
    decodeChunk envD chunk = none := by
  by_cases htbl : denseTableOKB chunk.filename_storage.length
      chunk.span_storage = true
  · have hacts : chunk.actions.all (dActionIdxOK chunk.span_storage.length
        chunk.filename_storage.length chunk.stay_count) = false := by
      simp only [Chunk.indicesOKB, htbl, Bool.and_true] at hbad
      exact hbad
    have hex : ∃ a ∈ chunk.actions, dActionIdxOK chunk.span_storage.length
        chunk.filename_storage.length chunk.stay_count a = false := by
      by_contra hno
      push_neg at hno
      have hall : chunk.actions.all (dActionIdxOK chunk.span_storage.length
          chunk.filename_storage.length chunk.stay_count) = true := by
        simp only [List.all_eq_true]
        intro x hx
        cases hB : dActionIdxOK chunk.span_storage.length
            chunk.filename_storage.length chunk.stay_count x
        · exact absurd hB (hno x hx)
        · rfl
      rw [hall] at hacts
      cases hacts
    obtain ⟨a, hamem, habad⟩ := hex
    obtain ⟨conv, envD2, hnew, -, -, hspl, hfnl, hstays, -, -, -⟩ :=
      sparseNew_spec envD hwfD chunk ((denseTableOKB_iff _ _).mp htbl)
    have hstl : conv.stays.length = chunk.stay_count := by
      rw [hstays]
      simp
    have hnone : intoAction conv a = none := by
      apply intoAction_none
      rw [hspl, hfnl, hstl]
      exact habad
    simp only [decodeChunk, hnew]
    rw [seqOption_map_none (intoAction conv) chunk.actions hamem hnone]
    rfl
  · have hb2 : denseTableOKB chunk.filename_storage.length
        chunk.span_storage = false := by
      cases hB : denseTableOKB chunk.filename_storage.length chunk.span_storage
      · rfl
      · exact absurd hB htbl
    simp only [decodeChunk, sparseNew_none envD chunk hb2]

/-! ### Serialized lengths and the checksum model -/

theorem flatten_map_length_const {α : Type} (f : α → List Nat) (k : Nat)
    (hf : ∀ a, (f a).length = k) :
    ∀ (xs : List α), ((xs.map f).flatten).length = k * xs.length := by
  intro xs
  induction xs with
  | nil => simp
  | cons a t ih =>
    simp only [List.map_cons, List.flatten_cons, List.length_append, hf a, ih,
      List.length_cons]
    rw [Nat.mul_succ]
    omega

theorem foldl_mod256_lt : ∀ (bs : List Nat) (a : Nat), a < 256 →
    bs.foldl (fun x b => (x + b) % 256) a < 256 := by
  intro bs
  induction bs with
  | nil => intro a h; exact h
  | cons b t ih =>
    intro a h
    rw [List.foldl_cons]
    exact ih _ (Nat.mod_lt _ (by decide))

theorem chkByte_lt (bs : List Nat) : chkByte bs < 256 :=
  foldl_mod256_lt bs 1 (by decide)

theorem succ_mod_ne {c : Nat} (h : c < 256) : (c + 1) % 256 ≠ c := by
  by_cases hc : c = 255
  · subst hc
    decide
  · rw [Nat.mod_eq_of_lt (by omega)]
    omega

/-! ## Claim theorems -/

/-- C1: Round trip — for every Recording built from a valid object graph,
decoding the byte stream produced by encoding it succeeds and yields a
Recording whose action sequence is structurally equal: same number and order
of actions, same instruction opcodes, source-location references resolving to
equal filename/line or equal expansion chains, and same parameter/capture
metadata. -/
theorem c1_round_trip (cdc : Codec) (hloss : cdc.Lossless) (envE envD : Env)
    (hwfE : envE.spanWFB = true) (hwfD : envD.spanWFB = true) (r : Recording)
    (hch : (encodeChunk envE r).validB = true)
    (hlen : (serChunk (encodeChunk envE r)).length < n64) :
    ∃ r2 envD2, Recording.from_bytes cdc envD (Recording.into_bytes cdc envE r) =
        DecodeOutcome.ok (r2, envD2) ∧
      r2.actions.length = r.actions.length ∧
      beqActions envE envD2 r.actions r2.actions = true := by
  obtain ⟨r2, envD2, hdec, hbeq, -, -, -, -, -⟩ :=
    decodeChunk_spec envE envD ((spanWFB_iff envE).mp hwfE)
      ((spanWFB_iff envD).mp hwfD) r hch
  refine ⟨r2, envD2, ?_, (beqActions_length _ _ _ _ hbeq).symm, hbeq⟩
  rw [from_bytes_into_bytes cdc hloss envE envD r hlen hch, hdec]

set_option maxRecDepth 8000 in
theorem c1_round_trip_witness :
    ∃ r2 envD2, Recording.from_bytes checksumCodec envW2
        (Recording.into_bytes checksumCodec envW recW) =
      DecodeOutcome.ok (r2, envD2) ∧
      r2.actions.length = recW.actions.length ∧
      beqActions envW envD2 recW.actions r2.actions = true :=
  c1_round_trip checksumCodec checksumCodec_lossless envW envW2 (by decide)
    (by decide) recW (by decide) (by decide)

/-- C2: Identity preservation — after the round trip, every place referencing
a shared storage cell references the image of that cell under one fixed
renaming (so two places sharing a cell still share after reload), and the
renaming is injective on the recording's cell references (distinct original
cells never collapse). -/
theorem c2_stay_identity (cdc : Codec) (hloss : cdc.Lossless) (envE envD : Env)
    (hwfE : envE.spanWFB = true) (hwfD : envD.spanWFB = true) (r : Recording)
    (hch : (encodeChunk envE r).validB = true)
    (hlen : (serChunk (encodeChunk envE r)).length < n64) :
    ∃ r2 envD2, Recording.from_bytes cdc envD (Recording.into_bytes cdc envE r) =
        DecodeOutcome.ok (r2, envD2) ∧
      r2.stayRefs = r.stayRefs.map (stayRename envE envD r) ∧
      ∀ s1 ∈ r.stayRefs, ∀ s2 ∈ r.stayRefs,
        (stayRename envE envD r s1 = stayRename envE envD r s2 ↔ s1 = s2) := by
  have hwfE' := (spanWFB_iff envE).mp hwfE
  obtain ⟨r2, envD2, hdec, -, hrefs, hlk, -, -, -⟩ :=
    decodeChunk_spec envE envD hwfE' ((spanWFB_iff envD).mp hwfD) r hch
  have hInv := (encode_spec envE hwfE' r hch).1
  refine ⟨r2, envD2, ?_, hrefs, ?_⟩
  · rw [from_bytes_into_bytes cdc hloss envE envD r hlen hch, hdec]
  · intro s1 h1 s2 h2
    constructor
    · intro heq
      obtain ⟨d1, hd1⟩ := hlk s1 h1
      obtain ⟨d2, hd2⟩ := hlk s2 h2
      rw [stayRename, stayRename, hd1, hd2] at heq
      simp only [Option.getD_some] at heq
      have hdd : d1 = d2 := Nat.add_left_cancel heq
      subst hdd
      exact snd_nodup_inj hInv.stayNd (lookupA_mem hd1) (lookupA_mem hd2)
    · intro h
      rw [h]

set_option maxRecDepth 8000 in
theorem c2_stay_identity_witness :
    ∃ r2 envD2, Recording.from_bytes checksumCodec envW2
        (Recording.into_bytes checksumCodec envW recW) =
      DecodeOutcome.ok (r2, envD2) ∧
      r2.stayRefs = recW.stayRefs.map (stayRename envW envW2 recW) ∧
      ∀ s1 ∈ recW.stayRefs, ∀ s2 ∈ recW.stayRefs,
        (stayRename envW envW2 recW s1 = stayRename envW envW2 recW s2 ↔ s1 = s2) :=
  c2_stay_identity checksumCodec checksumCodec_lossless envW envW2 (by decide)
    (by decide) recW (by decide) (by decide)

/-- C5: Topological invariant — for every Recording encoded by the dense
encoder, every `Expanded` entry of the emitted span-storage table has both
parent indices strictly less than its own index, so the decoder's single
forward pass never meets a forward reference. -/
theorem c5_topological_invariant (env : Env) (hwf : env.spanWFB = true)
    (r : Recording) (hch : (encodeChunk env r).validB = true) :
    expandedParentsOKB (encodeChunk env r).span_storage = true :=
  expandedParents_of_DTWF (encode_spec env ((spanWFB_iff env).mp hwf) r hch).1.wf

set_option maxRecDepth 8000 in
theorem c5_topological_invariant_witness :
    expandedParentsOKB (encodeChunk envW recW).span_storage = true :=
  c5_topological_invariant envW (by decide) recW (by decide)

/-- C6: Small-payload path — when the serialized chunk is below the 8 KiB
threshold the output of `into_bytes` is the 8-byte length prefix followed
byte-for-byte by the raw chunk, and `from_bytes` on such an artifact is
independent of the decompression codec (it is never invoked); at or above the
threshold the payload is the compressed chunk. -/
theorem c6_small_payload (cdc : Codec) (env : Env) (r : Recording)
    (hlen64 : (serChunk (encodeChunk env r)).length < n64) :
    ((serChunk (encodeChunk env r)).length < DEFLATE_LIMIT →
      Recording.into_bytes cdc env r =
        natLE 8 (serChunk (encodeChunk env r)).length ++
          serChunk (encodeChunk env r) ∧
      ∀ (cdc2 : Codec) (envD : Env),
        Recording.from_bytes cdc2 envD (Recording.into_bytes cdc env r) =
        Recording.from_bytes cdc envD (Recording.into_bytes cdc env r)) ∧
    (DEFLATE_LIMIT ≤ (serChunk (encodeChunk env r)).length →
      Recording.into_bytes cdc env r =
        natLE 8 (serChunk (encodeChunk env r)).length ++
          cdc.deflateFn (serChunk (encodeChunk env r))) := by
  refine ⟨fun h => ⟨into_bytes_raw cdc env r h, fun cdc2 envD => ?_⟩,
    fun h => into_bytes_compressed cdc env r h⟩
  rw [into_bytes_raw cdc env r h]
  rw [Recording.from_bytes, Recording.from_bytes,
    framePayload_header cdc2 _ _ hlen64, framePayload_header cdc _ _ hlen64,
    if_pos h, if_pos h]

theorem c6_small_payload_witness :
    Recording.into_bytes checksumCodec env0 Recording.new =
      natLE 8 (serChunk (encodeChunk env0 Recording.new)).length ++
        serChunk (encodeChunk env0 Recording.new) :=
  ((c6_small_payload checksumCodec env0 Recording.new (by decide)).1
    (by decide)).1

/-- C7: Deduplication — repeated occurrences of the same span handle or
filename handle hit the memo map and return the previously assigned index
without touching the converter, and the emitted span/filename tables hold
exactly one entry per distinct handle seen (table length = memo-map length,
memo maps duplicate-free). -/
theorem c7_dedup (env : Env) (hwf : env.spanWFB = true) (r : Recording)
    (hch : (encodeChunk env r).validB = true) :
    (∀ (s : Span) (d : DenseSpan) (c : DenseConverter),
        lookupA c.span_map s = some d → fromSpan env s c = (d, c)) ∧
    (∀ (f : Filename) (d : DenseFilename) (c : DenseConverter),
        lookupA c.filename_map f = some d → fromFilename env f c = (d, c)) ∧
    (encodeChunk env r).span_storage.length = (finalConv env r).span_map.length ∧
    NDK (finalConv env r).span_map ∧
    (encodeChunk env r).filename_storage.length =
      (finalConv env r).filename_map.length ∧
    NDK (finalConv env r).filename_map := by
  have hInv := (encode_spec env ((spanWFB_iff env).mp hwf) r hch).1
  refine ⟨?_, ?_, hInv.lenS, hInv.ndkS, hInv.lenF, hInv.ndkF⟩
  · intro s d c h
    rw [fromSpan, fromSpanGo, h]
  · intro f d c h
    rw [fromFilename, h]

set_option maxRecDepth 8000 in
theorem c7_dedup_witness :
    fromSpan envW 1 dcW7 = (5, dcW7) ∧ fromFilename envW 0 dcW7 = (6, dcW7) ∧
    (encodeChunk envW recW).span_storage.length =
      (finalConv envW recW).span_map.length ∧
    NDK (finalConv envW recW).span_map := by
  have h := c7_dedup envW (by decide) recW (by decide)
  exact ⟨h.1 1 5 dcW7 rfl, h.2.1 0 6 dcW7 rfl, h.2.2.1, h.2.2.2.1⟩

/-- C8: Recording façade — `peek` returns the front action without consuming
it, `pop` consumes and returns the front action, both fail with the
end-of-actions error exactly when the queue is empty, and repeatedly popping
a queue built by `add_action` yields the actions in exactly the order they
were appended (strict FIFO). -/
theorem c8_facade_semantics (r : Recording) :
    (∀ a rest, r.actions = a :: rest →
      r.peek = Except.ok a ∧ r.pop = Except.ok (a, Recording.mk rest)) ∧
    (r.peek = Except.error GError.endOfActions ↔ r.actions = []) ∧
    (r.pop = Except.error GError.endOfActions ↔ r.actions = []) ∧
    ∀ l : List Action,
      Recording.drainAll (l.foldl Recording.add_action r) = r.actions ++ l := by
  obtain ⟨acts⟩ := r
  refine ⟨?_, ?_, ?_, ?_⟩
  · intro a rest h
    cases h
    exact ⟨rfl, rfl⟩
  · cases acts with
    | nil => simp [Recording.peek]
    | cons a t => simp [Recording.peek]
  · cases acts with
    | nil => simp [Recording.pop]
    | cons a t => simp [Recording.pop]
  · intro l
    rw [drainAll_acts, foldl_add_action]

theorem c8_facade_semantics_witness :
    recW.peek = Except.ok (Action.StartLoad 0) ∧
    recW.pop = Except.ok (Action.StartLoad 0,
      Recording.mk [Action.Execute bcW, Action.ToplevelLet 0,
        Action.ToplevelLet 1, Action.EndLoad]) ∧
    Recording.drainAll ([Action.EndLoad].foldl Recording.add_action recW) =
      recW.actions ++ [Action.EndLoad] := by
  have h := c8_facade_semantics recW
  exact ⟨(h.1 (Action.StartLoad 0) _ rfl).1, (h.1 (Action.StartLoad 0) _ rfl).2,
    h.2.2.2 [Action.EndLoad]⟩

/-- C9: Cell pre-allocation — for a decodable chunk recording `N` cells the
decoder allocates exactly `N` fresh, pairwise-distinct, nil-initialized
storage cells before rewriting the action list, and the whole decode writes no
other value into the process-wide cell table (the environment after decoding
is exactly the environment after allocation). -/
theorem c9_cell_preallocation (envD : Env) (hwfD : envD.spanWFB = true)
    (chunk : Chunk)
    (htbl : denseTableOKB chunk.filename_storage.length chunk.span_storage = true) :
    ∃ conv envD2, SparseConverter.new envD chunk = some (conv, envD2) ∧
      conv.stays.length = chunk.stay_count ∧
      conv.stays.Nodup ∧
      (∀ s ∈ conv.stays, envD.stayVals.length ≤ s) ∧
      envD2.stayVals = envD.stayVals ++ List.replicate chunk.stay_count none ∧
      (∀ s ∈ conv.stays, envD2.stayVals.get? s = some none) ∧
      ∀ r2 envD3, decodeChunk envD chunk = some (r2, envD3) → envD3 = envD2 := by
  obtain ⟨conv, envD2, hnew, -, -, -, -, hstays, hsv, -, -⟩ :=
    sparseNew_spec envD ((spanWFB_iff envD).mp hwfD) chunk
      ((denseTableOKB_iff _ _).mp htbl)
  refine ⟨conv, envD2, hnew, ?_, ?_, ?_, hsv, ?_, ?_⟩
  · rw [hstays]
    simp
  · rw [hstays]
    refine List.Nodup.map ?_ (List.nodup_range _)
    intro a b hab
    exact Nat.add_left_cancel hab
  · intro s hs
    rw [hstays] at hs
    simp only [List.mem_map, List.mem_range] at hs
    obtain ⟨i, -, hi⟩ := hs
    rw [← hi]
    exact Nat.le_add_right _ _
  · intro s hs
    rw [hstays] at hs
    simp only [List.mem_map, List.mem_range] at hs
    obtain ⟨i, hilt, hi⟩ := hs
    rw [hsv, ← hi, List.get?_eq_getElem?,
      List.getElem?_append_right (Nat.le_add_right _ _), Nat.add_sub_cancel_left,
      ← List.get?_eq_getElem?]
    exact get?_replicate_lt none hilt
  · intro r2 envD3 hdec
    simp only [decodeChunk, hnew] at hdec
    cases hseq : seqOption (chunk.actions.map (intoAction conv)) with
    | none =>
      rw [hseq] at hdec
      cases hdec
    | some acts =>
      rw [hseq] at hdec
      have h2 : (Recording.mk acts, envD2) = (r2, envD3) := Option.some.inj hdec
      exact (congrArg Prod.snd h2).symm

theorem c9_cell_preallocation_witness :
    ∃ conv envD2, SparseConverter.new envW2 chunkW9 = some (conv, envD2) ∧
      conv.stays.length = chunkW9.stay_count ∧
      conv.stays.Nodup ∧
      (∀ s ∈ conv.stays, envW2.stayVals.length ≤ s) ∧
      envD2.stayVals = envW2.stayVals ++ List.replicate chunkW9.stay_count none ∧
      (∀ s ∈ conv.stays, envD2.stayVals.get? s = some none) ∧
      ∀ r2 envD3, decodeChunk envW2 chunkW9 = some (r2, envD3) → envD3 = envD2 :=
  c9_cell_preallocation envW2 (by decide) chunkW9 (by decide)

/-- C10: Implicit invariant — every chunk produced by the encoder is in
bounds: each dense span index is below the span-table length, each dense
filename index below the filename-table length, each dense stay index below
`stay_count`, and the span table itself is decodable, so decoding an
unmodified encoder output never reaches the out-of-range failure mode. -/
theorem c10_encoder_in_bounds (env : Env) (hwf : env.spanWFB = true)
    (r : Recording) (hch : (encodeChunk env r).validB = true) :
    (encodeChunk env r).indicesOKB = true := by
  obtain ⟨hInv, hcorr⟩ := encode_spec env ((spanWFB_iff env).mp hwf) r hch
  simp only [Chunk.indicesOKB, Bool.and_eq_true]
  refine ⟨?_, (denseTableOKB_iff _ _).mpr hInv.wf⟩
  exact actionsCorr_idx env (finalConv env r) hInv r.actions
    (encodeChunk env r).actions hcorr

set_option maxRecDepth 8000 in
theorem c10_encoder_in_bounds_witness :
    (encodeChunk envW recW).indicesOKB = true :=
  c10_encoder_in_bounds envW (by decide) recW (by decide)

/-- C3 (amended): corruption handling as the code implements it — truncation
below 8 bytes yields the malformed-stream error; a payload the decompression
codec rejects makes `from_bytes` panic (the source unwraps the codec result)
rather than return an error; a byte stream the structural deserializer rejects
yields the malformed-stream error with the underlying error attached. -/
theorem c3_corruption_taxonomy (cdc : Codec) (envD : Env) (bytes : List Nat) :
    (bytes.length < 8 →
      Recording.from_bytes cdc envD bytes = DecodeOutcome.err DecodeErr.tooShort) ∧
    (DEFLATE_LIMIT ≤ leVal (bytes.take 8) → 8 ≤ bytes.length →
      cdc.inflateFn (bytes.drop 8) = none →
      Recording.from_bytes cdc envD bytes = DecodeOutcome.panicked) ∧
    ∀ payload, framePayload cdc bytes = DecodeOutcome.ok payload →
      parseChunk payload = none →
      Recording.from_bytes cdc envD bytes =
        DecodeOutcome.err (DecodeErr.badChunk true) := by
  refine ⟨?_, ?_, ?_⟩
  · intro hlt
    have h8 : ¬ 8 ≤ bytes.length := by omega
    simp only [Recording.from_bytes, framePayload, if_neg h8]
  · intro hlim h8 hinf
    have hnlt : ¬ leVal (bytes.take 8) < DEFLATE_LIMIT := by omega
    simp only [Recording.from_bytes, framePayload, if_pos h8, if_neg hnlt, hinf]
  · intro payload hframe hparse
    simp only [Recording.from_bytes, hframe, hparse]

theorem c3_corruption_taxonomy_witness :
    Recording.from_bytes checksumCodec env0 [4, 5] =
      DecodeOutcome.err DecodeErr.tooShort :=
  (c3_corruption_taxonomy checksumCodec env0 [4, 5]).1 (by decide)

/-- C3 counterexample: a valid encoded stream with compressed payload (its
chunk serializes above the 8 KiB threshold), corrupted by flipping the final
byte inside the compressed region, makes `Recording.from_bytes` panic — it
does not return the malformed-stream error the spec promises. -/
theorem c3_compressed_flip_counterexample :
    DEFLATE_LIMIT ≤ (serChunk (encodeChunk env0 bigR)).length ∧
    Recording.from_bytes checksumCodec env0 bigFlipped =
      DecodeOutcome.panicked ∧
    ∀ e : DecodeErr,
      Recording.from_bytes checksumCodec env0 bigFlipped ≠ DecodeOutcome.err e := by
  have hEnc : encodeChunk env0 bigR =
      { actions := [DenseAction.Execute
          (DenseBytecode.mk (List.replicate 1030 0) [] [] [] 0 0 0 [] [])],
        span_storage := [], filename_storage := [], stay_count := 0 } := rfl
  have hlen : (serChunk (encodeChunk env0 bigR)).length = 8324 := by
    rw [hEnc]
    simp only [serChunk, serList, serAction, serBytecode, serLambdaList,
      List.map_cons, List.map_nil, List.flatten_cons, List.flatten_nil,
      List.length_append, List.length_cons, List.length_nil, natLE_length,
      flatten_map_length_const (natLE 8) 8 (natLE_length 8),
      List.length_replicate]
  have hge : DEFLATE_LIMIT ≤ (serChunk (encodeChunk env0 bigR)).length := by
    rw [hlen]
    decide
  have hn64 : (serChunk (encodeChunk env0 bigR)).length < n64 := by
    rw [hlen]
    decide
  have hout : bigOut =
      (natLE 8 (serChunk (encodeChunk env0 bigR)).length ++
        serChunk (encodeChunk env0 bigR)) ++
        [chkByte (serChunk (encodeChunk env0 bigR))] := by
    show Recording.into_bytes checksumCodec env0 bigR = _
    rw [into_bytes_compressed checksumCodec env0 bigR hge]
    simp only [checksumCodec, deflateModel]
    rw [← List.append_assoc]
  have hlast : bigOut.getLast? = some (chkByte (serChunk (encodeChunk env0 bigR))) := by
    rw [hout, List.getLast?_concat]
  have hdropl : bigOut.dropLast =
      natLE 8 (serChunk (encodeChunk env0 bigR)).length ++
        serChunk (encodeChunk env0 bigR) := by
    rw [hout, List.dropLast_concat]
  have hflip : bigFlipped =
      natLE 8 (serChunk (encodeChunk env0 bigR)).length ++
        (serChunk (encodeChunk env0 bigR) ++
          [(chkByte (serChunk (encodeChunk env0 bigR)) + 1) % 256]) := by
    show bigOut.dropLast ++ [(bigOut.getLast?.getD 0 + 1) % 256] = _
    rw [hdropl, hlast]
    simp only [Option.getD_some]
    rw [List.append_assoc]
  have hne : (chkByte (serChunk (encodeChunk env0 bigR)) + 1) % 256 ≠
      chkByte (serChunk (encodeChunk env0 bigR)) :=
    succ_mod_ne (chkByte_lt _)
  have hinfC : checksumCodec.inflateFn (serChunk (encodeChunk env0 bigR) ++
      [(chkByte (serChunk (encodeChunk env0 bigR)) + 1) % 256]) = none := by
    simp only [checksumCodec]
    simp only [inflateModel, List.getLast?_concat, List.dropLast_concat]
    rw [if_neg hne]
  have hnlt : ¬ (serChunk (encodeChunk env0 bigR)).length < DEFLATE_LIMIT := by
    rw [hlen]
    decide
  have hpan : Recording.from_bytes checksumCodec env0 bigFlipped =
      DecodeOutcome.panicked := by
    rw [hflip, Recording.from_bytes,
      framePayload_header checksumCodec _ _ hn64, if_neg hnlt, hinfC]
  refine ⟨hge, hpan, fun e h => ?_⟩
  rw [hpan] at h
  cases h

/-- C4 (amended): corrupted-index handling as the code implements it — a byte
stream that frames and deserializes into a chunk holding any out-of-range
dense index makes `Recording.from_bytes` panic (the source's unchecked
indexing), rather than return an error result to the caller; there is still
no recovery and no partial reconstruction. -/
theorem c4_oob_index_panics (cdc : Codec) (envD : Env)
    (hwfD : envD.spanWFB = true) (bytes payload : List Nat) (chunk : Chunk)
    (hframe : framePayload cdc bytes = DecodeOutcome.ok payload)
    (hparse : parseChunk payload = some chunk)
    (hbad : chunk.indicesOKB = false) :
    Recording.from_bytes cdc envD bytes = DecodeOutcome.panicked := by
  simp only [Recording.from_bytes, hframe, hparse,
    decodeChunk_none envD ((spanWFB_iff envD).mp hwfD) chunk hbad]

theorem c4_oob_index_panics_witness :
    Recording.from_bytes checksumCodec env0 oobBytes = DecodeOutcome.panicked :=
  c4_oob_index_panics checksumCodec env0 (by decide) oobBytes
    (serChunk oobChunk) oobChunk rfl rfl rfl

/-- C4 counterexample: a byte stream that frames and deserializes cleanly but
whose chunk holds a dense stay index outside its table makes
`Recording.from_bytes` panic — it does not return an error result to the
caller as the spec states. -/
theorem c4_oob_errors_counterexample :
    parseChunk (serChunk oobChunk) = some oobChunk ∧
    oobChunk.indicesOKB = false ∧
    Recording.from_bytes checksumCodec env0 oobBytes =
      DecodeOutcome.panicked ∧
    ∀ e : DecodeErr,
      Recording.from_bytes checksumCodec env0 oobBytes ≠ DecodeOutcome.err e := by
  have hpan : Recording.from_bytes checksumCodec env0 oobBytes =
      DecodeOutcome.panicked := rfl
  refine ⟨rfl, rfl, hpan, fun e h => ?_⟩
  rw [hpan] at h
  cases h

end GlspCompile
